import Mathlib

/-!
Verification development for the `treesim` datacentre aggregation-tree
simulator.  The definitions below are a shallow embedding of the multi-tree
simulator (`src/unnamed/part_001`, flags and helpers shared with
`src/src/sim.cc` and `src/src/message.h`).  C++ `int`/`int64_t` values that
are non-negative in every run the claims speak about are modelled as `Nat`;
values that can be `-1` (parent pointers, levels) are modelled as `Int`.
Loops are modelled by structural recursion on explicit fuel so that every
definition is executable by the kernel; fuel bounds are chosen so that the
fuelled function computes the exact fixed point of the C++ loop (proved
where a claim depends on it).
-/

namespace Treesim

/-- `Message` from `src/src/message.h`: `type` (0 = data, 1 = tombstone),
`key`, `eff_size` (messages absorbed by GC), `time` (earliest forwarding
tick), `tree` (which spanning tree the message travels on). -/
structure Message where
  type : Nat
  key : Int
  eff_size : Int
  time : Int
  tree : Nat
deriving DecidableEq, Repr

instance : Inhabited Message := ⟨{ type := 0, key := 0, eff_size := 0, time := 0, tree := 0 }⟩

/-- The command-line flags of `part_001` that the simulation core reads.
All claims concern runs with non-negative flag values, so they are `Nat`. -/
structure Config where
  nracks : Nat
  nodes_per_rack : Nat
  fanout : Nat
  multitree : Bool
  msg_rate : Nat
  msg_size : Nat
  gc_policy : Nat
  gc_period : Nat
  gc_acc_delay : Nat
  in_limit : Nat
  out_limit : Nat
  duration : Nat
  ticks : Nat
deriving DecidableEq, Repr

/-- `total_nodes = FLAGS_nracks * FLAGS_nodes_per_rack` (init). -/
def Config.total_nodes (c : Config) : Nat := c.nracks * c.nodes_per_rack

/-- Number of trees (init): with `multitree`, `fanout - 1` when `fanout > 2`,
else `2`; without `multitree`, `1`. -/
def Config.ntrees (c : Config) : Nat :=
  if c.multitree then (if 2 < c.fanout then c.fanout - 1 else 2) else 1

/-- The `sum`/`x` accumulation loop of `get_internal_node_count`:
`while (sum + x < nodes) { sum += x; x *= fanout; }`.  `fuel = nodes`
suffices for `fanout ≥ 1` because `sum` grows by `x ≥ 1` each iteration. -/
def inc_loop (fanout nodes : Nat) : Nat → Nat × Nat → Nat × Nat
  | 0, sx => sx
  | fuel + 1, sx =>
    if sx.1 + sx.2 < nodes then inc_loop fanout nodes fuel (sx.1 + sx.2, sx.2 * fanout)
    else sx

/-- `get_internal_node_count(fanout, nodes)` from `part_001`.  The C++
returns `int` (it can be wrong/degenerate, e.g. `1` for `nodes = 1`); result
type `Int` keeps the possibility of negative intermediate values.
`ceil((nodes - sum) / double(fanout))` is modelled as exact ceiling division
`(nodes - sum + fanout - 1) / fanout`, which agrees with the double
computation for the int-sized inputs the program uses. -/
def get_internal_node_count (fanout nodes : Nat) : Int :=
  let sx := inc_loop fanout nodes nodes (0, 1)
  (nodes : Int) -
    (((nodes : Int) - sx.1) + ((sx.2 / fanout : Nat) : Int) -
      (((nodes - sx.1 + fanout - 1) / fanout : Nat) : Int))

/-- The number of internal nodes as the tree-construction loop uses it:
the `int` value, clamped at 0 by the `for (int j = 0; j < ninternals; ++j)`
loop bound. -/
def Config.ninternals (c : Config) : Nat := (get_internal_node_count c.fanout c.nracks).toNat

/-- Fixed-point scale used to model the `double` arithmetic of
`get_tree_levels` (part_001 lines 63-65): values are carried with 160
fractional bits, far beyond the 52 fractional bits of an IEEE-754 binary64
significand. -/
def fxP : Nat := 160

def fxOne : Nat := 2 ^ fxP

/-- Fuelled floor base-2 logarithm (the fuel 320 covers every value the
model produces). -/
def fxlog2aux : Nat → Nat → Nat
  | 0, _ => 0
  | fuel + 1, n => if 2 ≤ n then fxlog2aux fuel (n / 2) + 1 else 0

def fxlog2 (n : Nat) : Nat := fxlog2aux 320 n

def bitlen (n : Nat) : Nat := if n = 0 then 0 else fxlog2 n + 1

/-- Partial sums of `atanh z = z + z^3/3 + z^5/5 + ...` in fixed point:
`zcur` holds the current odd power of `z`, `idx` the odd denominator. -/
def atanhAux (zsqf : Nat) : Nat → Nat → Nat → Nat → Nat
  | 0, _, _, acc => acc
  | fuel + 1, zcur, idx, acc =>
      atanhAux zsqf fuel (zcur * zsqf / fxOne) (idx + 2) (acc + zcur / idx)

/-- `ln y` for fixed-point `y ∈ [1, 2]` via `ln y = 2 * atanh ((y-1)/(y+1))`
with 64 series terms: the argument is at most `1/3`, so the truncated tail
is below `3^(-129)` and the accumulated floor-division error below
`2^(-152)` — both negligible against the binary64 half-ulp of `2^(-53)`. -/
def lnScaled (y : Nat) : Nat :=
  let zf := (y - fxOne) * fxOne / (y + fxOne)
  2 * atanhAux (zf * zf / fxOne) 64 zf 1 0

def ln2fix : Nat := lnScaled (2 * fxOne)

/-- `ln n` in fixed point for `n ≥ 1`, by `ln n = k ln 2 + ln (n / 2^k)`. -/
def lnNatFix (n : Nat) : Nat :=
  let k := fxlog2 n
  k * ln2fix + lnScaled (n * fxOne / 2 ^ k)

/-- Round-to-nearest-even of `a / 2^s`. -/
def rne (a s : Nat) : Nat :=
  if s = 0 then a else
  let q := a / 2 ^ s
  let r := a % 2 ^ s
  let h := 2 ^ (s - 1)
  if h < r then q + 1 else if r < h then q else if q % 2 = 0 then q else q + 1

/-- Round a positive fixed-point value to an IEEE-754 binary64:
the result `(m, ex)` denotes `m * 2^ex` with `2^52 ≤ m < 2^53`. -/
def toDouble (xf : Nat) : Nat × Int :=
  let L := bitlen xf
  if L ≤ 53 then (xf * 2 ^ (53 - L), (L : Int) - 53 - fxP)
  else
    let m := rne xf (L - 53)
    if m = 2 ^ 53 then (2 ^ 52, (L : Int) - 53 - fxP + 1)
    else (m, (L : Int) - 53 - fxP)

/-- IEEE-754 binary64 division of normalised `(m, ex)` pairs: the exact
quotient is rounded to nearest, ties to even, with an exact sticky bit from
the division remainder — this step is exactly the rounding the standard
mandates for `/`. -/
def divDouble (m1 : Nat) (ex1 : Int) (m2 : Nat) (ex2 : Int) : Nat × Int :=
  let a := m1 * 2 ^ 54
  let q := a / m2
  let r := a % m2
  let L := bitlen q
  let s := L - 53
  let q0 := q / 2 ^ s
  let rem := q % 2 ^ s
  let h := 2 ^ (s - 1)
  let m := if h < rem then q0 + 1 else if rem < h then q0
    else if 0 < r then q0 + 1 else if q0 % 2 = 0 then q0 else q0 + 1
  let ex := ex1 - ex2 - 54 + (s : Int)
  if m = 2 ^ 53 then (2 ^ 52, ex + 1) else (m, ex)

/-- Exact ceiling of the dyadic rational `m * 2^ex`. -/
def ceilDouble (m : Nat) (ex : Int) : Nat :=
  if 0 ≤ ex then m * 2 ^ ex.toNat
  else (m + 2 ^ (-ex).toNat - 1) / 2 ^ (-ex).toNat

/-- `get_tree_levels(fanout, nodes) =
ceil(log((fanout - 1) * nodes + 1) / log(fanout))` (part_001 lines 63-65),
computed by the C++ in `double` arithmetic.  The model reproduces that
arithmetic: each `log` is the correctly rounded binary64 value (obtained by
rounding a 160-fractional-bit approximation; IEEE 754 recommends and
current libms deliver correct rounding here), the quotient is the correctly
rounded binary64 division the standard mandates, and the final `ceil` is
exact.  Where `(fanout - 1) * nodes + 1` is an exact power of the fanout
the rounded quotient can land just above the integer value and `ceil` then
overshoots the exact ceiling logarithm by one: at `fanout = 5`,
`nodes = 31` the quotient double is `3.0000000000000004` and the result is
`4`, not `3`.  For `nodes = 0` the C++ computes `ceil(0 / log fanout) = 0`;
for `fanout ≤ 1` it divides by `log 1 = 0` (the result is unspecified, and
no claim is in scope there), modelled as `0`. -/
def get_tree_levels (fanout nodes : Nat) : Nat :=
  let N := (fanout - 1) * nodes + 1
  if 2 ≤ fanout ∧ 2 ≤ N then
    let a := toDouble (lnNatFix N)
    let b := toDouble (lnNatFix fanout)
    let q := divDouble a.1 a.2 b.1 b.2
    ceilDouble q.1 q.2
  else 0

/-- The specification's formula for the level count: the exact ceiling
logarithm `ceil(log_fanout((fanout-1)*nodes + 1))`, i.e. the least `L` with
`fanout^L ≥ (fanout-1)*nodes + 1`, computed by a fuelled search.  Kept
beside `get_tree_levels` for comparison: the two differ exactly where the
double computation overshoots (e.g. `fanout = 5`, `nodes = 31`). -/
def clog_aux (f target : Nat) : Nat → Nat → Nat → Nat
  | 0, L, _ => L
  | fuel + 1, L, pw => if target ≤ pw then L else clog_aux f target fuel (L + 1) (pw * f)

def get_tree_levels_spec (fanout nodes : Nat) : Nat :=
  clog_aux fanout ((fanout - 1) * nodes + 1) (nodes + 1) 0 1

/-- The level-order base layout of a tree: `trees[i][j] = j * nodes_per_rack`
for `j ∈ [0, nracks)` (init). -/
def base_layout (c : Config) : List Nat :=
  (List.range c.nracks).map (fun j => j * c.nodes_per_rack)

/-- `std::swap(trees[i][a], trees[i][b])` on a `std::vector` via unchecked
`operator[]`: defined only when both indices are in range; `none` models the
out-of-bounds access (undefined behaviour) the C++ would commit. -/
def swapL (l : List Nat) (a b : Nat) : Option (List Nat) :=
  match l.get? a, l.get? b with
  | some x, some y => some ((l.set a y).set b x)
  | _, _ => none

/-- Layout of tree `k` (init, lines 138-148): the base layout, and for
`k ≥ 1` the sequence of swaps `j ↔ j + k * ninternals` for
`j = 0, …, ninternals - 1` in increasing order.  `none` marks the run in
which the C++ indexes `trees[k]` out of bounds. -/
def tree_layout (c : Config) (k : Nat) : Option (List Nat) :=
  if k = 0 then some (base_layout c)
  else (List.range c.ninternals).foldlM
    (fun l j => swapL l j (j + k * c.ninternals)) (base_layout c)

/-- All tree layouts, `none` if any tree's construction goes out of bounds. -/
def layouts (c : Config) : Option (List (List Nat)) :=
  (List.range c.ntrees).mapM (tree_layout c)

/-- Modelled from the spec: `node.h` of the multi-tree simulator is not under
`src/` (the `src/node.h` present belongs to the earlier single-tree
`part_002`).  Field set and types are fixed by their uses in `part_001` and
by spec §3: per-tree vectors `p`, `level`, `buf` (a `std::deque`, front at
the list head), `gc`, `gc_delay`; `q` is the inbound priority queue — the
spec calls it a priority queue and `part_001` uses `q.top()/push()/pop()`,
i.e. `std::priority_queue<Message>` ordered by `Message::operator<` from
`src/src/message.h` (`time < right.time`).  `q` is modelled by the multiset
of queued messages as a list; `pqTop` below gives `top()`'s C++ semantics:
a *maximal* element under `operator<`.  `in`/`out` are named `in_`/`out_`
(`in` is reserved in Lean).  A default-constructed `Node` inside
`std::vector<Node>(n)` is value-initialized: empty containers, zero
counters — exactly `default`. -/
structure Node where
  p : List Int
  level : List Int
  q : List Message
  buf : List (List Message)
  gc : List Bool
  gc_delay : List Nat
  in_ : Nat
  out_ : Nat
  in_limit : Nat
  out_limit : Nat
  in_per_sec : Nat
  out_per_sec : Nat
  eff_out_per_sec : Int
  self_per_sec : Nat
  saved_per_sec : Nat
  msgs_per_tick : Nat
  total_in_msgs : Nat
  total_out_msgs : Nat
deriving DecidableEq, Repr

instance : Inhabited Node :=
  ⟨{ p := [], level := [], q := [], buf := [], gc := [], gc_delay := [],
     in_ := 0, out_ := 0, in_limit := 0, out_limit := 0,
     in_per_sec := 0, out_per_sec := 0, eff_out_per_sec := 0,
     self_per_sec := 0, saved_per_sec := 0, msgs_per_tick := 0,
     total_in_msgs := 0, total_out_msgs := 0 }⟩

/-- `top()` of `std::priority_queue<Message>`: a maximal element under
`Message::operator<` (`time < right.time`); for a non-empty queue the scan
keeps the current element on ties, so it returns the first maximal-`time`
element of the list representation. -/
def pqTop : List Message → Option Message
  | [] => none
  | m :: ms => some (ms.foldl (fun a b => if a.time < b.time then b else a) m)

/-- The per-node initialization done by init's rack loop (lines 87-130)
for node `idx`: rack hubs (`idx % nodes_per_rack = 0`) get per-tree vectors
sized `ntrees` with `p` zero-initialized (`std::vector<int>(ntrees)`);
other nodes point at their rack hub on every tree with `level = -1`.
All nodes get `in_limit/out_limit = FLAGS_{in,out}_limit / FLAGS_ticks` and
`msgs_per_tick = FLAGS_msg_rate / FLAGS_ticks` (truncating division). -/
def init_node (c : Config) (idx : Nat) : Node :=
  let hub := idx / c.nodes_per_rack * c.nodes_per_rack
  if idx % c.nodes_per_rack = 0 then
    { (default : Node) with
      p := List.replicate c.ntrees 0,
      level := List.replicate c.ntrees 0,
      buf := List.replicate c.ntrees [],
      gc := List.replicate c.ntrees false,
      gc_delay := List.replicate c.ntrees 0,
      in_limit := c.in_limit / c.ticks,
      out_limit := c.out_limit / c.ticks,
      msgs_per_tick := c.msg_rate / c.ticks }
  else
    { (default : Node) with
      p := List.replicate c.ntrees (hub : Int),
      level := List.replicate c.ntrees (-1),
      buf := List.replicate c.ntrees [],
      gc := List.replicate c.ntrees false,
      gc_delay := List.replicate c.ntrees 0,
      in_limit := c.in_limit / c.ticks,
      out_limit := c.out_limit / c.ticks,
      msgs_per_tick := c.msg_rate / c.ticks }

/-- The node array after init's rack loop, before tree links. -/
def stageA (c : Config) : List Node :=
  (List.range c.total_nodes).map (init_node c)

/-- State of init's link-building loop for one tree:
`int lo = 0, hi = 1; int cnt = 0;` plus the node array. -/
structure LinkSt where
  lo : Nat
  hi : Nat
  cnt : Nat
  nds : List Node
deriving Repr

/-- One iteration of the link loop body (init lines 150-168):
if `cnt == fanout` reset `cnt` and advance `lo`; otherwise link position
`hi`'s node to position `lo`'s node on tree `k` (`p`, and `level` one more
than the parent's current level) and advance `cnt`, `hi`. -/
def link_step (c : Config) (k : Nat) (l : List Nat) (st : LinkSt) : LinkSt :=
  if st.cnt = c.fanout then { st with cnt := 0, lo := st.lo + 1 }
  else
    let par := l.getD st.lo 0
    let ch := l.getD st.hi 0
    let parLevel := (st.nds.getD par default).level.getD k 0
    let nd := st.nds.getD ch default
    { st with
      cnt := st.cnt + 1, hi := st.hi + 1,
      nds := st.nds.set ch
        { nd with p := nd.p.set k (par : Int), level := nd.level.set k (parLevel + 1) } }

/-- `while (hi < FLAGS_nracks) { ... }`, fuelled.  Each executed iteration
strictly decreases `(nracks - hi) * (fanout + 1) + cnt` by `fanout` when
`fanout ≥ 1`, so the fuel used below always reaches the loop exit. -/
def link_loop (c : Config) (k : Nat) (l : List Nat) : Nat → LinkSt → LinkSt
  | 0, st => st
  | fuel + 1, st => if st.hi < c.nracks then link_loop c k l fuel (link_step c k l st) else st

/-- Fuel that dominates the link loop's iteration count. -/
def link_fuel (c : Config) : Nat := (c.nracks + 1) * (c.fanout + 1) + 1

/-- The root assignment of `link_tree`: `nodes[trees[k][0]].p[k] = -1`,
`nodes[trees[k][0]].level[k] = 0`. -/
def set_root (k : Nat) (r : Nat) (nds : List Node) : List Node :=
  nds.set r
    { nds.getD r default with
      p := (nds.getD r default).p.set k (-1),
      level := (nds.getD r default).level.set k 0 }

/-- Tree-link construction for tree `k` with layout `l`: root position 0
gets `p = -1`, `level = 0`, then the link loop fills positions `1..R-1`. -/
def link_tree (c : Config) (k : Nat) (l : List Nat) (nds : List Node) : List Node :=
  (link_loop c k l (link_fuel c)
    { lo := 0, hi := 1, cnt := 0, nds := set_root k (l.getD 0 0) nds }).nds

/-- Closed form of one link-loop assignment: position `h`'s node is linked
to position `(h-1)/fanout`'s node (proved below to be exactly what the
`lo/hi/cnt` loop does). -/
def assign_pos (c : Config) (k : Nat) (l : List Nat) (nds : List Node) (h : Nat) : List Node :=
  let par := l.getD ((h - 1) / c.fanout) 0
  let ch := l.getD h 0
  let parLevel := (nds.getD par default).level.getD k 0
  let nd := nds.getD ch default
  nds.set ch { nd with p := nd.p.set k (par : Int), level := nd.level.set k (parLevel + 1) }

/-- Closed form of the link loop: assign positions `h0, h0+1, …` for
`count` positions in increasing order. -/
def assign_from (c : Config) (k : Nat) (l : List Nat) : Nat → Nat → List Node → List Node
  | _, 0, nds => nds
  | h0, count + 1, nds => assign_from c k l (h0 + 1) count (assign_pos c k l nds h0)

/-- Update one hub during GC decoration: set `gc[k] := true` and
`gc_delay[k] := d` at node id `h`. -/
def decorate_at (nds : List Node) (h : Nat) (k : Nat) (d : Nat) : List Node :=
  let nd := nds.getD h default
  nds.set h { nd with gc := nd.gc.set k true, gc_delay := nd.gc_delay.set k d }

/-- Policy 1 (uniform): `base_delay = FLAGS_gc_acc_delay / double(levels)`,
truncated to `int` on store.  For `int`-ranged `A` and the small `levels`
values in scope the double division truncates exactly to `A / levels`. -/
def decorate_policy1 (c : Config) (ls : List (List Nat)) (nds : List Node) : List Node :=
  (List.range c.ntrees).foldl (fun nds i =>
    (List.range c.nracks).foldl (fun nds j =>
      decorate_at nds ((ls.getD i []).getD j 0) i
        (c.gc_acc_delay / get_tree_levels c.fanout c.nracks)) nds) nds

/-- Policies 2/3: `base_delay = A / double((levels+1)*levels/2)` multiplied
by a per-level factor, truncated on store.  Modelled as exact rational
truncation (the `double` value may differ by one ulp; no claim depends on
these delay values). -/
def delay23 (A denom : Nat) (m : Int) : Nat :=
  (Int.toNat ⌊(A : ℚ) / (denom : ℚ) * (m : ℚ)⌋)

def decorate_policy23 (c : Config) (ls : List (List Nat)) (nds : List Node)
    (factor : Int → Int) : List Node :=
  (List.range c.ntrees).foldl (fun nds i =>
    (List.range c.nracks).foldl (fun nds j =>
      decorate_at nds ((ls.getD i []).getD j 0) i
        (delay23 c.gc_acc_delay
          ((get_tree_levels c.fanout c.nracks + 1) * get_tree_levels c.fanout c.nracks / 2)
          (factor ((nds.getD ((ls.getD i []).getD j 0) default).level.getD i 0)))) nds) nds

/-- The `switch (FLAGS_gc_policy)` of init (lines 180-217): policy 0 and any
unknown policy leave all `gc` flags false. -/
def gc_decorate (c : Config) (ls : List (List Nat)) (nds : List Node) : List Node :=
  match c.gc_policy with
  | 1 => decorate_policy1 c ls nds
  | 2 => decorate_policy23 c ls nds
      (fun lvl => ((get_tree_levels c.fanout c.nracks : Int)) - lvl)
  | 3 => decorate_policy23 c ls nds (fun lvl => lvl + 1)
  | _ => nds

/-- Global simulation state: the node array, plus the cursor into the key
stream (abstracting the `get_next_key` call order) and two accounting
("ghost") fields that mirror quantities the logs aggregate: the number of
data messages created by Phase 2 so far, and the summed `eff_size` of
messages emitted at a tree root (`p[tree] == -1`, "leaving the system").
The ghost fields are written exactly at the corresponding code points and
are read by no simulation step. -/
structure SimState where
  nodes : List Node
  cursor : Nat
  total_generated : Nat
  total_eff_root : Int
deriving DecidableEq, Repr

/-- `init()`: rack loop, per-tree link construction (out-of-bounds layout
construction gives `none`), then GC decoration. -/
def initState (c : Config) : Option SimState :=
  (layouts c).map (fun ls =>
    let nds := stageA c
    let nds := (List.range c.ntrees).foldl (fun nds k => link_tree c k (ls.getD k []) nds) nds
    { nodes := gc_decorate c ls nds, cursor := 0, total_generated := 0, total_eff_root := 0 })

/-- Re-stamp of a message's `time` on admission/generation at a node:
`t + gc_delay[tree]` if `gc[tree]`, else `t` (part_001 lines 296-301 and
317-322). -/
def stamp (t : Nat) (nd : Node) (m : Message) : Message :=
  if nd.gc.getD m.tree false then
    { m with time := (t : Int) + (nd.gc_delay.getD m.tree 0 : Int) }
  else { m with time := (t : Int) }

/-- One admission (Phase 1 body): copy `top()`, re-stamp, append to
`buf[msg.tree]`, `pop()` (= erase one occurrence of the popped element from
the queue multiset), `in += msg_size`, `++total_in_msgs`. -/
def admit_one (c : Config) (t : Nat) (nd : Node) (m : Message) : Node :=
  { nd with
    buf := nd.buf.set m.tree (nd.buf.getD m.tree [] ++ [stamp t nd m]),
    q := nd.q.erase m,
    in_ := nd.in_ + c.msg_size,
    total_in_msgs := nd.total_in_msgs + 1 }

/-- `while (!q.empty() && in + msg_size <= in_limit) { ... }`.  Each
iteration removes one element from `q`, so `fuel = q.length` computes the
exact loop result. -/
def admit_loop (c : Config) (t : Nat) : Nat → Node → Node
  | 0, nd => nd
  | fuel + 1, nd =>
    match pqTop nd.q with
    | none => nd
    | some m =>
      if nd.in_ + c.msg_size ≤ nd.in_limit then admit_loop c t fuel (admit_one c t nd m)
      else nd

/-- Phase 1 (admit): reset `in = out = 0`, run the admission loop, then
`in_per_sec += in`. -/
def phase1 (c : Config) (t : Nat) (nd : Node) : Node :=
  let nd := admit_loop c t nd.q.length { nd with in_ := 0, out_ := 0 }
  { nd with in_per_sec := nd.in_per_sec + nd.in_ }

/-- Phase 2 body for index `j`: a fresh data message with the next key,
`eff_size = 1`, `tree = (j + t) % ntrees`, stamped, appended to
`buf[tree]`. -/
def gen_one (c : Config) (t : Nat) (key : Int) (j : Nat) (nd : Node) : Node :=
  let tr := (j + t) % c.ntrees
  let m := stamp t nd { type := 0, key := key, eff_size := 1, time := 0, tree := tr }
  { nd with buf := nd.buf.set tr (nd.buf.getD tr [] ++ [m]) }

/-- Phase 2 (generate): `msgs_per_tick` messages drawing consecutive keys
from the shared stream, then `self_per_sec += msgs_per_tick * msg_size`. -/
def phase2 (c : Config) (keys : Nat → Int) (t : Nat) (nd : Node) (cur : Nat) : Node × Nat :=
  let r := (List.range nd.msgs_per_tick).foldl
    (fun (p : Node × Nat) j => (gen_one c t (keys p.2) j p.1, p.2 + 1)) (nd, cur)
  ({ r.1 with self_per_sec := r.1.self_per_sec + r.1.msgs_per_tick * c.msg_size }, r.2)

/-- The GC table is `std::map<int, int>`, so the `int64_t` message key is
narrowed to 32-bit `int` on insertion and lookup. -/
def int32cast (x : Int) : Int := (x + 2 ^ 31) % 2 ^ 32 - 2 ^ 31

def lookupTbl (tbl : List (Int × Nat)) (k : Int) : Option Nat :=
  (tbl.find? (fun e => e.1 == k)).map (fun e => e.2)

/-- Phase 3 scan (lines 337-356): walk the first `pos` buffer slots; a data
message whose key was seen before becomes a tombstone and donates its
`eff_size` to the first occurrence; otherwise its position is recorded.
`fuel` counts remaining slots (`pos - j`). -/
def gc_walk (tbl : List (Int × Nat)) (saved j : Nat) (buf : List Message) :
    Nat → List Message × Nat
  | 0 => (buf, saved)
  | fuel + 1 =>
    let m := buf.getD j default
    if m.type = 0 then
      match lookupTbl tbl (int32cast m.key) with
      | some idx =>
        let buf := buf.set j { m with type := 1 }
        let mi := buf.getD idx default
        gc_walk tbl (saved + 1) (j + 1) (buf.set idx { mi with eff_size := mi.eff_size + m.eff_size }) fuel
      | none => gc_walk ((int32cast m.key, j) :: tbl) saved (j + 1) buf fuel
    else gc_walk tbl saved (j + 1) buf fuel

/-- Phase 3 (GC compaction): for each tree, when `gc[tree]`, the tick is a
GC tick (`t % gc_period == 0`) and the buffer is non-empty, run the scan and
add `saved * msg_size` to `saved_per_sec`. -/
def phase3 (c : Config) (t : Nat) (nd : Node) : Node :=
  (List.range c.ntrees).foldl (fun nd tree =>
    if nd.gc.getD tree false ∧ t % c.gc_period = 0 ∧ nd.buf.getD tree [] ≠ [] then
      let b := nd.buf.getD tree []
      let r := gc_walk [] 0 0 b b.length
      { nd with buf := nd.buf.set tree r.1,
                saved_per_sec := nd.saved_per_sec + r.2 * c.msg_size }
    else nd) nd

/-- Phases 1-3 for one node, threading the key cursor. -/
def phase123 (c : Config) (keys : Nat → Int) (t : Nat) (nd : Node) (cur : Nat) : Node × Nat :=
  let r := phase2 c keys t (phase1 c t nd) cur
  (phase3 c t r.1, r.2)

def getNode (st : SimState) (i : Nat) : Node := st.nodes.getD i default

def setNode (st : SimState) (i : Nat) (nd : Node) : SimState :=
  { st with nodes := st.nodes.set i nd }

/-- `process_messages_by_node(0, total_nodes, t)` (the `nthreads = 1` path):
phases 1-3 for each node in id order.  The ghost `total_generated` grows by
the `msgs_per_tick` messages Phase 2 appends for this node. -/
def process_messages_by_node (c : Config) (keys : Nat → Int) (t : Nat) (st : SimState) :
    SimState :=
  (List.range c.total_nodes).foldl (fun st i =>
    { st with nodes := st.nodes.set i (phase123 c keys t (getNode st i) st.cursor).1,
              cursor := (phase123 c keys t (getNode st i) st.cursor).2,
              total_generated := st.total_generated + (getNode st i).msgs_per_tick }) st

/-- `while (!buf.empty() && buf.front().type != 0) pop_front();` -/
def dropTombs : List Message → List Message
  | [] => []
  | m :: ms => if m.type ≠ 0 then dropTombs ms else m :: ms

/-- `nodes[p].q.push(m)`: insert into the parent's priority-queue multiset. -/
def pushQ (st : SimState) (j : Nat) (m : Message) : SimState :=
  setNode st j { getNode st j with q := (getNode st j).q ++ [m] }

/-- The tombstone-dropping stage of Phase 4 for node `i`, tree `k`:
`while (!buf.empty() && buf.front().type != 0) pop_front();`. -/
def drop_stage (st : SimState) (i k : Nat) : SimState :=
  setNode st i
    { getNode st i with
      buf := (getNode st i).buf.set k (dropTombs ((getNode st i).buf.getD k [])) }

/-- The emission action of Phase 4 (lines 412-421), applied when the front
of the (already dropped) buffer is `m :: rest`: push `m` into the parent's
queue unless this node is the tree root (a root emission leaves the system;
the ghost `total_eff_root` records its `eff_size`), then account `out`,
`out_per_sec`, `eff_out_per_sec`, `total_out_msgs` and pop the front. -/
def emit_send (c : Config) (st : SimState) (i k : Nat) (m : Message)
    (rest : List Message) : SimState :=
  (fun st2 => setNode st2 i
    { getNode st2 i with
      out_ := (getNode st2 i).out_ + c.msg_size,
      out_per_sec := (getNode st2 i).out_per_sec + c.msg_size,
      eff_out_per_sec := (getNode st2 i).eff_out_per_sec + m.eff_size * (c.msg_size : Int),
      total_out_msgs := (getNode st2 i).total_out_msgs + 1,
      buf := (getNode st2 i).buf.set k rest })
  (if (getNode st i).p.getD k 0 = -1
   then { st with total_eff_root := st.total_eff_root + m.eff_size }
   else pushQ st ((getNode st i).p.getD k 0).toNat m)

/-- Phase 4 body for node `i`, tree `k` (lines 405-426): drop front
tombstones, then emit the front message if it is due (`time ≤ t`) and the
outbound budget allows.  Returns the new state and whether an emission
happened. -/
def emit_tree (c : Config) (t : Nat) (i : Nat) (st : SimState) (k : Nat) : SimState × Bool :=
  match dropTombs ((getNode st i).buf.getD k []) with
  | [] => (drop_stage st i k, false)
  | m :: rest =>
    if m.time ≤ (t : Int) ∧ (getNode st i).out_ + c.msg_size ≤ (getNode st i).out_limit
    then (emit_send c (drop_stage st i k) i k m rest, true)
    else (drop_stage st i k, false)

/-- One pass of the `while (flag)` loop: every tree in order, `flag` set if
any tree emitted. -/
def emit_pass (c : Config) (t : Nat) (i : Nat) (st : SimState) : SimState × Bool :=
  (List.range c.ntrees).foldl (fun (p : SimState × Bool) k =>
    let r := emit_tree c t i p.1 k
    (r.1, p.2 || r.2)) (st, false)

/-- The fuelled `while (flag)` loop. -/
def emit_loop (c : Config) (t : Nat) (i : Nat) : Nat → SimState → SimState
  | 0, st => st
  | fuel + 1, st =>
    let r := emit_pass c t i st
    if r.2 then emit_loop c t i fuel r.1 else r.1

/-- Total number of messages buffered at node `i`. -/
def bufTotal (st : SimState) (i : Nat) : Nat := ((getNode st i).buf.map List.length).sum

/-- Phase 4 for node `i`.  Every pass that emits removes at least one
message from node `i`'s buffers, so `bufTotal + 1` passes always reach the
pass on which no emission happens and the C++ loop exits (proved below:
more fuel does not change the result). -/
def phase4_node (c : Config) (t : Nat) (st : SimState) (i : Nat) : SimState :=
  emit_loop c t i (bufTotal st i + 1) st

/-- Phase 4 over all nodes, serial in id order. -/
def phase4 (c : Config) (t : Nat) (st : SimState) : SimState :=
  (List.range c.total_nodes).foldl (fun st i => phase4_node c t st i) st

/-- `write_log`: the reported per-second values are those of the state it is
called on; it then zeroes the five per-second counters of every node. -/
def reset_per_sec (nd : Node) : Node :=
  { nd with in_per_sec := 0, out_per_sec := 0, eff_out_per_sec := 0,
            self_per_sec := 0, saved_per_sec := 0 }

def write_log (st : SimState) : SimState := { st with nodes := st.nodes.map reset_per_sec }

/-- One iteration of simulate's `for (t …)` loop body, without the
conditional `write_log`. -/
def tick_step (c : Config) (keys : Nat → Int) (st : SimState) (t : Nat) : SimState :=
  phase4 c t (process_messages_by_node c keys t st)

/-- One full loop body: phases, then `write_log(t)` when
`t != 0 && t % ticks == 0`. -/
def tick_step_log (c : Config) (keys : Nat → Int) (st : SimState) (t : Nat) : SimState :=
  let st := tick_step c keys st t
  if t ≠ 0 ∧ t % c.ticks = 0 then write_log st else st

/-- The first `n` ticks of `simulate()` from a given initial state. -/
def run_ticks (c : Config) (keys : Nat → Int) (st0 : SimState) : Nat → SimState
  | 0 => st0
  | n + 1 => tick_step_log c keys (run_ticks c keys st0 n) n

/-- `simulate()`: `duration * ticks` ticks, then the trailing
`write_log(duration_ms)`. -/
def simulate (c : Config) (keys : Nat → Int) (st0 : SimState) : SimState :=
  write_log (run_ticks c keys st0 (c.duration * c.ticks))

/-! ### KeySource (`get_next_key`, part_001 lines 220-252) -/

/-- `KeyBuffer` from part_001; init sets `size = 2^30 / 32`, `next = size`,
`fid = -1`, `data` empty. -/
structure KeyBuffer where
  size : Nat
  next : Nat
  fid : Int
  data : List Int
deriving DecidableEq, Repr

def keysSize : Nat := 1024 * 1024 * 1024 / 32

def initKeyBuffer : KeyBuffer := { size := keysSize, next := keysSize, fid := -1, data := [] }

/-- What a `CHECK` failure reports: the data-file id (the message prints
`"data-" << fid`), the position `i`, and the offending value `x`. -/
structure Fatal where
  fid : Int
  pos : Nat
  value : Int
deriving DecidableEq, Repr

/-- A data file's token stream: `none` for a file that does not open
(missing), otherwise the token list, where a `none` token is one that is
not an integer.  `keyfile >> x` on C++11 writes `0` to `x` when extraction
fails (stream not open, end of file, or non-integer token) and leaves the
stream failed, so every later extraction also yields `0`. -/
def extractInts : Nat → List (Option Int) → List Int
  | 0, _ => []
  | n + 1, [] => 0 :: extractInts n []
  | n + 1, none :: _ => 0 :: extractInts n [none]
  | n + 1, some x :: rest => x :: extractInts n rest

/-- The refill loop's per-value `CHECK(x >= 0) << filename << i << x`:
returns the first offending position/value, or the full list. -/
def checkAll (fid : Int) (i : Nat) : List Int → Except Fatal (List Int)
  | [] => .ok []
  | x :: rest =>
    if x < 0 then .error ⟨fid, i, x⟩
    else
      match checkAll fid (i + 1) rest with
      | .error e => .error e
      | .ok r => .ok (x :: r)

/-- `get_next_key()` with the file system abstracted as `files : Int →
Option (List (Option Int))` (contents of `data-<fid>`, `none` if absent).
Refill branch: open `data-(fid+1)`, extract `size` values, `CHECK` each,
set `next = 1`, return `data[0]`.  Fast path: `CHECK(keys.data[0] >= 0)`
(note: the condition really is `data[0]`, the message prints `next` and
`data[next]`), return `data[next++]`. -/
def get_next_key (files : Int → Option (List (Option Int))) (kb : KeyBuffer) :
    Except Fatal (Int × KeyBuffer) :=
  if kb.next = kb.size then
    match checkAll (kb.fid + 1) 0 (extractInts kb.size ((files (kb.fid + 1)).getD [])) with
    | .error e => .error e
    | .ok data =>
      if data.getD 0 0 < 0 then .error ⟨kb.fid + 1, 0, data.getD 0 0⟩
      else .ok (data.getD 0 0, { kb with fid := kb.fid + 1, data := data, next := 1 })
  else
    if kb.data.getD 0 0 < 0 then .error ⟨kb.fid, kb.next, kb.data.getD kb.next 0⟩
    else .ok (kb.data.getD kb.next 0, { kb with next := kb.next + 1 })

/-- `nd'` differs from `nd` at most in the tree-`k` entries of `p` and
`level` (used to carry facts about one tree across the construction of the
others). -/
def framedExcept (k : Nat) (nd nd' : Node) : Prop :=
  nd'.q = nd.q ∧ nd'.buf = nd.buf ∧ nd'.gc = nd.gc ∧ nd'.gc_delay = nd.gc_delay ∧
  nd'.in_ = nd.in_ ∧ nd'.out_ = nd.out_ ∧ nd'.in_limit = nd.in_limit ∧
  nd'.out_limit = nd.out_limit ∧ nd'.in_per_sec = nd.in_per_sec ∧
  nd'.out_per_sec = nd.out_per_sec ∧ nd'.eff_out_per_sec = nd.eff_out_per_sec ∧
  nd'.self_per_sec = nd.self_per_sec ∧ nd'.saved_per_sec = nd.saved_per_sec ∧
  nd'.msgs_per_tick = nd.msgs_per_tick ∧ nd'.total_in_msgs = nd.total_in_msgs ∧
  nd'.total_out_msgs = nd.total_out_msgs ∧
  nd'.p.length = nd.p.length ∧ nd'.level.length = nd.level.length ∧
  ∀ k', k' ≠ k → nd'.p.getD k' 0 = nd.p.getD k' 0 ∧ nd'.level.getD k' 0 = nd.level.getD k' 0

/-- `nd'` differs from `nd` at most in `gc`/`gc_delay` entries (the effect
of the GC-policy decoration). -/
def framedGC (nd nd' : Node) : Prop :=
  nd'.p = nd.p ∧ nd'.level = nd.level ∧ nd'.q = nd.q ∧ nd'.buf = nd.buf ∧
  nd'.in_ = nd.in_ ∧ nd'.out_ = nd.out_ ∧ nd'.in_limit = nd.in_limit ∧
  nd'.out_limit = nd.out_limit ∧ nd'.in_per_sec = nd.in_per_sec ∧
  nd'.out_per_sec = nd.out_per_sec ∧ nd'.eff_out_per_sec = nd.eff_out_per_sec ∧
  nd'.self_per_sec = nd.self_per_sec ∧ nd'.saved_per_sec = nd.saved_per_sec ∧
  nd'.msgs_per_tick = nd.msgs_per_tick ∧ nd'.total_in_msgs = nd.total_in_msgs ∧
  nd'.total_out_msgs = nd.total_out_msgs ∧
  nd'.gc.length = nd.gc.length ∧ nd'.gc_delay.length = nd.gc_delay.length

/-! ### Derived quantities and well-formedness used by the claims -/

/-- Structural well-formedness of one node: per-tree vectors have length
`ntrees`, buffered messages sit in the buffer of their own tree, queued
messages name a valid tree, and parent pointers are `-1` or a valid node
id. -/
def WFnode (c : Config) (nd : Node) : Prop :=
  nd.buf.length = c.ntrees ∧
  (∀ k, ∀ m ∈ nd.buf.getD k [], m.tree = k) ∧
  (∀ m ∈ nd.q, m.tree < c.ntrees) ∧
  (∀ v ∈ nd.p, v = -1 ∨ (0 ≤ v ∧ v.toNat < c.total_nodes))

/-- Structural well-formedness of a simulation state. -/
def WF (c : Config) (st : SimState) : Prop :=
  st.nodes.length = c.total_nodes ∧ ∀ nd ∈ st.nodes, WFnode c nd

/-- The per-node fields that `init` fixes and no simulation phase writes:
`(p, level, gc, gc_delay, in_limit, out_limit, msgs_per_tick)`. -/
def staticsOf (nd : Node) :
    List Int × List Int × List Bool × List Nat × Nat × Nat × Nat :=
  (nd.p, nd.level, nd.gc, nd.gc_delay, nd.in_limit, nd.out_limit, nd.msgs_per_tick)

/-! ### Concrete configurations used to evaluate the claims -/

/-- A degenerate multi-tree setup: one rack, `multitree` on. -/
def cfgOneRackMT : Config :=
  { nracks := 1, nodes_per_rack := 1, fanout := 2, multitree := true,
    msg_rate := 0, msg_size := 32, gc_policy := 0, gc_period := 10, gc_acc_delay := 100,
    in_limit := 1000, out_limit := 1000, duration := 1, ticks := 1 }

/-- A healthy multi-tree setup: four racks, fanout 2, `multitree` on. -/
def cfgFourRackMT : Config := { cfgOneRackMT with nracks := 4 }

/-- One root node generating 4 messages per tick with a one-message
outbound budget, one tick per second, two seconds. -/
def cfgSlowOut : Config :=
  { nracks := 1, nodes_per_rack := 1, fanout := 2, multitree := false,
    msg_rate := 4, msg_size := 32, gc_policy := 0, gc_period := 10, gc_acc_delay := 0,
    in_limit := 1000000, out_limit := 32, duration := 2, ticks := 1 }

/-- Two racks in a chain, one message per tick, no GC. -/
def cfgChain : Config :=
  { nracks := 2, nodes_per_rack := 1, fanout := 2, multitree := false,
    msg_rate := 1, msg_size := 32, gc_policy := 0, gc_period := 10, gc_acc_delay := 0,
    in_limit := 1000000, out_limit := 1000000, duration := 3, ticks := 1 }

/-- Three racks of two nodes with GC policy 1 and delay budget 100. -/
def cfgPolicy1 : Config :=
  { cfgChain with nracks := 3, nodes_per_rack := 2, gc_policy := 1, gc_acc_delay := 100 }

/-- Thirty-one racks of one node with fanout 5 and GC policy 1:
`(fanout-1)*nracks + 1 = 125 = 5^3` is an exact power of the fanout, where
the double-log level computation overshoots the exact ceiling logarithm
(4 instead of 3), so the stored `gc_delay` is `100/4 = 25`, not
`100/3 = 33`. -/
def cfgWide : Config :=
  { nracks := 31, nodes_per_rack := 1, fanout := 5, multitree := false,
    msg_rate := 0, msg_size := 32, gc_policy := 1, gc_period := 1, gc_acc_delay := 100,
    in_limit := 1000, out_limit := 1000, duration := 1, ticks := 1 }

/-- The all-zero key stream. -/
def keys0 : Nat → Int := fun _ => 0

/-- A node holding two queued data messages with distinct times, used to
exhibit the admission order of Phase 1. -/
def ndTwoQueued : Node :=
  { (default : Node) with
    q := [{ type := 0, key := 10, eff_size := 1, time := 1, tree := 0 },
          { type := 0, key := 20, eff_size := 1, time := 2, tree := 0 }],
    buf := [[]], gc := [false], gc_delay := [0], p := [-1], level := [0],
    in_limit := 1000, out_limit := 1000 }

/-! ### Proof-layer relations tracking the bandwidth counters -/

/-- The per-node bandwidth-accounting fields as one tuple. -/
def flowOf (nd : Node) : Nat × Nat × Nat × Nat × Nat × Nat × Nat :=
  (nd.in_, nd.out_, nd.in_per_sec, nd.out_per_sec, nd.in_limit, nd.out_limit,
   nd.total_out_msgs)

/-- `b` evolves from `a` by Phase-4 steps at this node: `out` and
`out_per_sec` move in lockstep, every increase is guarded by `out_limit`,
and the Phase-1-3 fields are untouched. -/
def emitRel (ms : Nat) (a b : Node) : Prop :=
  b.in_limit = a.in_limit ∧ b.out_limit = a.out_limit ∧
  b.in_ = a.in_ ∧ b.in_per_sec = a.in_per_sec ∧
  a.out_ ≤ b.out_ ∧
  b.out_per_sec + a.out_ = a.out_per_sec + b.out_ ∧
  a.total_out_msgs ≤ b.total_out_msgs ∧
  b.out_ + a.total_out_msgs * ms = a.out_ + b.total_out_msgs * ms ∧
  (b.out_ ≤ b.out_limit ∨ b.out_ = a.out_)

/-- `b` is the result of Phases 1-3 on `a`: `out` reset to zero, admission
bounded by `in_limit`, `in_per_sec` raised by the admitted bytes,
`out_per_sec` untouched. -/
def tickRel (a b : Node) : Prop :=
  b.in_limit = a.in_limit ∧ b.out_limit = a.out_limit ∧
  b.in_ ≤ a.in_limit ∧ b.out_ = 0 ∧
  b.in_per_sec ≤ a.in_per_sec + a.in_limit ∧
  b.out_per_sec = a.out_per_sec

/-- The body of the per-node loop of `process_messages_by_node`, named for
the proofs. -/
def procStep (c : Config) (keys : Nat → Int) (t : Nat) (st : SimState) (i : Nat) :
    SimState :=
  { st with nodes := st.nodes.set i (phase123 c keys t (getNode st i) st.cursor).1,
            cursor := (phase123 c keys t (getNode st i) st.cursor).2,
            total_generated := st.total_generated + (getNode st i).msgs_per_tick }

/-- No tombstone sits in any node's inbound priority queue. -/
def Qpure (st : SimState) : Prop :=
  ∀ (x : Nat) (m : Message), m ∈ (getNode st x).q → m.type = 0

theorem getD_set_self {α : Type} {l : List α} {i : Nat} (h : i < l.length) (v d : α) :
    (l.set i v).getD i d = v := by
  rw [List.getD_eq_getElem _ _ (by simpa using h)]
  simp [List.getElem_set_self]

theorem getD_set_other {α : Type} {l : List α} {i j : Nat} (h : j ≠ i) (v d : α) :
    (l.set i v).getD j d = l.getD j d := by
  simp [List.getD_eq_getElem?_getD, List.getElem?_set_ne (Ne.symm h)]

theorem getD_map_range {α : Type} (f : Nat → α) (d : α) {n i : Nat} (h : i < n) :
    ((List.range n).map f).getD i d = f i := by
  simp [List.getD_eq_getElem?_getD, List.getElem?_map, List.getElem?_range h]

theorem nodup_getD_ne {l : List Nat} (h : l.Nodup) {i j : Nat}
    (hi : i < l.length) (hj : j < l.length) (hne : i ≠ j) : l.getD i 0 ≠ l.getD j 0 := by
  rw [List.getD_eq_getElem _ _ hi, List.getD_eq_getElem _ _ hj]
  intro he
  exact hne ((List.Nodup.getElem_inj_iff h).mp he)

theorem mem_getD_of_mem {l : List Nat} {x : Nat} (hx : x ∈ l) :
    ∃ i, i < l.length ∧ l.getD i 0 = x := by
  obtain ⟨i, hi, he⟩ := List.mem_iff_getElem.mp hx
  exact ⟨i, hi, by rw [List.getD_eq_getElem _ _ hi]; exact he⟩

theorem getD_mem {l : List Nat} {i : Nat} (h : i < l.length) : l.getD i 0 ∈ l := by
  rw [List.getD_eq_getElem _ _ h]
  exact List.getElem_mem h

/-! ## Helper lemmas: layout swaps -/

theorem cons_set_perm {α : Type} :
    ∀ (xs : List α) (m : Nat) (x y : α), xs.get? m = some y →
      (y :: xs.set m x).Perm (x :: xs)
  | [], m, _, _, h => by simp at h
  | c :: cs, 0, x, y, h => by
    simp only [List.get?_cons_zero, Option.some.injEq] at h
    subst h
    simpa using List.Perm.swap x c cs
  | c :: cs, m + 1, x, y, h => by
    simp only [List.get?_cons_succ] at h
    simp only [List.set_cons_succ]
    exact ((List.Perm.swap c y _).trans
      ((cons_set_perm cs m x y h).cons c)).trans (List.Perm.swap x c cs)

theorem set_set_perm {α : Type} :
    ∀ (l : List α) (a b : Nat) (x y : α),
      l.get? a = some x → l.get? b = some y → ((l.set a y).set b x).Perm l
  | [], a, _, _, _, ha, _ => by simp at ha
  | c :: cs, 0, 0, x, y, ha, hb => by
    simp only [List.get?_cons_zero, Option.some.injEq] at ha hb
    subst ha; subst hb; simp
  | c :: cs, 0, b + 1, x, y, ha, hb => by
    simp only [List.get?_cons_zero, Option.some.injEq] at ha
    simp only [List.get?_cons_succ] at hb
    subst ha
    simp only [List.set_cons_zero, List.set_cons_succ]
    exact cons_set_perm cs b c y hb
  | c :: cs, a + 1, 0, x, y, ha, hb => by
    simp only [List.get?_cons_zero, Option.some.injEq] at hb
    simp only [List.get?_cons_succ] at ha
    subst hb
    simp only [List.set_cons_succ, List.set_cons_zero]
    exact cons_set_perm cs a c x ha
  | c :: cs, a + 1, b + 1, x, y, ha, hb => by
    simp only [List.get?_cons_succ] at ha hb
    simp only [List.set_cons_succ]
    exact (set_set_perm cs a b x y ha hb).cons c

theorem swapL_perm {l l' : List Nat} {a b : Nat} (h : swapL l a b = some l') :
    l'.Perm l := by
  unfold swapL at h
  rcases ha : l.get? a with _ | x <;> rw [ha] at h <;>
    rcases hb : l.get? b with _ | y <;> rw [hb] at h <;> simp only [] at h
  · cases h
  · cases h
  · cases h
  · cases h
    exact set_set_perm l a b x y ha hb

theorem swapL_isSome {l : List Nat} {a b : Nat} (ha : a < l.length) (hb : b < l.length) :
    ∃ l', swapL l a b = some l' := by
  unfold swapL
  rcases hga : l.get? a with _ | x
  · exact absurd (List.get?_eq_none.mp hga) (Nat.not_le.mpr ha)
  · rcases hgb : l.get? b with _ | y
    · exact absurd (List.get?_eq_none.mp hgb) (Nat.not_le.mpr hb)
    · exact ⟨_, rfl⟩

/-- A defined layout fold is a permutation of its starting layout. -/
theorem foldlM_swap_perm (f g : Nat → Nat) :
    ∀ (js : List Nat) (l0 l' : List Nat),
      js.foldlM (fun l j => swapL l (f j) (g j)) l0 = some l' → l'.Perm l0
  | [], l0, l', h => by cases h; rfl
  | j :: js, l0, l', h => by
    simp only [List.foldlM_cons] at h
    rcases h1 : swapL l0 (f j) (g j) with _ | l1 <;> rw [h1] at h
    · cases h
    · exact (foldlM_swap_perm f g js l1 l' h).trans (swapL_perm h1)

/-- If every index the fold touches is in range, the fold is defined. -/
theorem foldlM_swap_some (f g : Nat → Nat) :
    ∀ (js : List Nat) (l0 : List Nat),
      (∀ j ∈ js, f j < l0.length ∧ g j < l0.length) →
      ∃ l', js.foldlM (fun l j => swapL l (f j) (g j)) l0 = some l'
  | [], l0, _ => ⟨l0, rfl⟩
  | j :: js, l0, hin => by
    obtain ⟨l1, h1⟩ := swapL_isSome (hin j (by simp)).1 (hin j (by simp)).2
    have hlen : l1.length = l0.length := (swapL_perm h1).length_eq
    obtain ⟨l', h'⟩ := foldlM_swap_some f g js l1
      (fun j hj => by rw [hlen]; exact hin j (List.mem_cons_of_mem _ hj))
    exact ⟨l', by simp only [List.foldlM_cons, h1]; exact h'⟩

theorem base_layout_length (c : Config) : (base_layout c).length = c.nracks := by
  simp [base_layout]

/-- A defined tree layout is a permutation of the base layout. -/
theorem tree_layout_perm {c : Config} {k : Nat} {l : List Nat}
    (h : tree_layout c k = some l) : l.Perm (base_layout c) := by
  unfold tree_layout at h
  by_cases hk : k = 0
  · simp only [hk, if_pos rfl] at h; cases h; rfl
  · rw [if_neg hk] at h
    exact foldlM_swap_perm _ _ _ _ _ h

/-! ## C4: bounds of the layout-diversification swaps -/

/-- C4, counterexample.  With one rack and `multitree` set the claim fails:
`ntrees = 2`, `internal_node_count(2, 1) = 1`, so for tree `k = 1` the swap
at `j = 0` addresses position `j + k*I = 1 ≥ R = 1`.  The code performs the
swap unconditionally — nothing is skipped — so the layout construction
commits an out-of-bounds access (`tree_layout … = none` in the model). -/
theorem c4_counterexample :
    cfgOneRackMT.multitree = true ∧ cfgOneRackMT.ntrees = 2 ∧
    cfgOneRackMT.ninternals = 1 ∧
    ¬ 0 + 1 * cfgOneRackMT.ninternals < cfgOneRackMT.nracks ∧
    tree_layout cfgOneRackMT 1 = none := by decide

/-- C4, amended: the swap of positions `j` and `j + k*I` is *not* skipped
when out of range; instead, whenever every index `j + k*I` (for `1 ≤ k <
ntrees`, `j < I`) is smaller than `R`, every access of the diversification
step stays inside `[0, R)` and each tree's layout is a well-defined
permutation of the base layout.  (Degenerate designs such as one rack with
`multitree` violate the bound and access out of range.) -/
theorem c4_amended (c : Config)
    (h : ∀ k < c.ntrees, 1 ≤ k → ∀ j < c.ninternals, j + k * c.ninternals < c.nracks) :
    ∀ k < c.ntrees, ∃ l, tree_layout c k = some l ∧ l.Perm (base_layout c) := by
  intro k hk
  by_cases hk0 : k = 0
  · subst hk0
    exact ⟨base_layout c, by simp [tree_layout], List.Perm.refl _⟩
  · have h1 : 1 ≤ k := Nat.one_le_iff_ne_zero.mpr hk0
    obtain ⟨l, hl⟩ := foldlM_swap_some (fun j => j) (fun j => j + k * c.ninternals)
      (List.range c.ninternals) (base_layout c)
      (by
        intro j hj
        rw [base_layout_length]
        have hjI : j < c.ninternals := List.mem_range.mp hj
        have hb : j + k * c.ninternals < c.nracks := h k hk h1 j hjI
        exact ⟨Nat.lt_of_le_of_lt (Nat.le_add_right _ _) hb, hb⟩)
    refine ⟨l, ?_, ?_⟩
    · unfold tree_layout
      rw [if_neg hk0]
      exact hl
    · exact foldlM_swap_perm (fun j => j) (fun j => j + k * c.ninternals) _ _ _ hl

/-- Witness for `c4_amended` at the four-rack multitree configuration. -/
theorem c4_amended_witness :
    (∀ k < cfgFourRackMT.ntrees, 1 ≤ k →
      ∀ j < cfgFourRackMT.ninternals, j + k * cfgFourRackMT.ninternals < cfgFourRackMT.nracks) ∧
    (∀ k < cfgFourRackMT.ntrees,
      ∃ l, tree_layout cfgFourRackMT k = some l ∧ l.Perm (base_layout cfgFourRackMT)) :=
  ⟨by decide, c4_amended cfgFourRackMT (by decide)⟩

/-! ## C3: KeySource failure behaviour -/

theorem extractInts_nil : ∀ n, extractInts n [] = List.replicate n 0
  | 0 => rfl
  | n + 1 => by simp [extractInts, extractInts_nil n, List.replicate_succ]

theorem extractInts_none_cons (rest : List (Option Int)) :
    ∀ n, extractInts n (none :: rest) = List.replicate n 0
  | 0 => rfl
  | n + 1 => by
    have aux : ∀ m, extractInts m [none] = List.replicate m 0 := by
      intro m
      induction m with
      | zero => rfl
      | succ m ih => simp [extractInts, ih, List.replicate_succ]
    simp [extractInts, aux n, List.replicate_succ]

theorem checkAll_replicate_zero (fid : Int) : ∀ (i n : Nat),
    checkAll fid i (List.replicate n 0) = .ok (List.replicate n 0)
  | _, 0 => rfl
  | i, n + 1 => by
    simp [checkAll, List.replicate_succ, checkAll_replicate_zero fid (i + 1) n]

/-- `checkAll` fails exactly when the value list contains a negative. -/
theorem checkAll_error_iff (fid : Int) : ∀ (i : Nat) (l : List Int),
    (∃ e, checkAll fid i l = .error e) ↔ ∃ x ∈ l, x < 0
  | _, [] => by simp [checkAll]
  | i, x :: rest => by
    by_cases hx : x < 0
    · simp only [checkAll, if_pos hx]
      exact ⟨fun _ => ⟨x, by simp, hx⟩, fun _ => ⟨⟨fid, i, x⟩, rfl⟩⟩
    · simp only [checkAll, if_neg hx]
      rcases hr : checkAll fid (i + 1) rest with e | r
      · simp only []
        constructor
        · intro _
          obtain ⟨y, hy, hyneg⟩ := (checkAll_error_iff fid (i + 1) rest).mp ⟨e, hr⟩
          exact ⟨y, List.mem_cons_of_mem _ hy, hyneg⟩
        · intro _; exact ⟨e, rfl⟩
      · simp only []
        constructor
        · rintro ⟨e, he⟩; cases he
        · rintro ⟨y, hy, hyneg⟩
          rcases List.mem_cons.mp hy with rfl | hy'
          · exact absurd hyneg hx
          · obtain ⟨e, he⟩ := (checkAll_error_iff fid (i + 1) rest).mpr ⟨y, hy', hyneg⟩
            rw [hr] at he; cases he

/-- A successful `checkAll` returns its input list unchanged. -/
theorem checkAll_ok (fid : Int) : ∀ (i : Nat) (l r : List Int),
    checkAll fid i l = .ok r → r = l
  | _, [], r, h => by cases h; rfl
  | i, x :: rest, r, h => by
    by_cases hx : x < 0
    · simp [checkAll, if_pos hx] at h
    · simp only [checkAll, if_neg hx] at h
      rcases hr : checkAll fid (i + 1) rest with e | r' <;> rw [hr] at h
      · cases h
      · cases h
        rw [checkAll_ok fid (i + 1) rest r' hr]

/-- `getD 0` of a replicated-zero list is `0` (also for the empty list,
whose default is `0`). -/
theorem getD_replicate_zero : ∀ n : Nat, (List.replicate n (0 : Int)).getD 0 0 = 0
  | 0 => rfl
  | n + 1 => by simp [List.replicate_succ]

/-- C3, counterexample.  With every data file absent, the refill succeeds:
`keyfile >> x` fails and (C++11 semantics) writes `0`, `CHECK(x >= 0)`
passes on `0`, and `get_next_key` returns key `0` drawn from the absent
file `data-0` — no fatal assertion is raised. -/
theorem c3_counterexample :
    get_next_key (fun _ => none) initKeyBuffer =
      .ok (0, { initKeyBuffer with fid := 0, data := List.replicate keysSize 0, next := 1 }) := by
  have hnext : initKeyBuffer.next = initKeyBuffer.size := rfl
  unfold get_next_key
  rw [if_pos hnext]
  have h1 : ((fun (_ : Int) => (none : Option (List (Option Int)))) (initKeyBuffer.fid + 1)).getD []
      = [] := rfl
  rw [h1, extractInts_nil, checkAll_replicate_zero]
  simp only [getD_replicate_zero]
  norm_num [initKeyBuffer]

/-- C3, amended: a `KeySource` refill terminates with the fatal `CHECK`
(reporting file id, position and value) *iff* some extracted value is
negative.  A missing file or a non-integer token does not trip the check:
failed extraction yields `0`, the refill succeeds, and `next_key()` serves
keys (zeroes) drawn from the corrupt or absent file.  In particular a
missing file always refills successfully, returning key `0`. -/
theorem c3_amended (files : Int → Option (List (Option Int))) (kb : KeyBuffer)
    (h : kb.next = kb.size) :
    ((∃ e, get_next_key files kb = .error e) ↔
      ∃ x ∈ extractInts kb.size ((files (kb.fid + 1)).getD []), x < 0) ∧
    (files (kb.fid + 1) = none →
      get_next_key files kb =
        .ok (0, { kb with fid := kb.fid + 1, data := List.replicate kb.size 0, next := 1 })) := by
  constructor
  · unfold get_next_key
    rw [if_pos h]
    rcases hc : checkAll (kb.fid + 1) 0 (extractInts kb.size ((files (kb.fid + 1)).getD []))
      with e | r
    · dsimp only
      constructor
      · intro _; exact (checkAll_error_iff _ 0 _).mp ⟨e, hc⟩
      · intro _; exact ⟨e, rfl⟩
    · dsimp only
      have hr := checkAll_ok _ 0 _ r hc
      subst hr
      by_cases hd : (extractInts kb.size ((files (kb.fid + 1)).getD [])).getD 0 0 < 0
      · rw [if_pos hd]
        constructor
        · intro _
          rcases he : extractInts kb.size ((files (kb.fid + 1)).getD []) with _ | ⟨y, ys⟩
          · rw [he] at hd; simp [List.getD] at hd
          · rw [he] at hd
            simp only [List.getD_cons_zero] at hd
            exact ⟨y, by simp [he], hd⟩
        · intro _; exact ⟨_, rfl⟩
      · rw [if_neg hd]
        constructor
        · rintro ⟨e, he⟩; cases he
        · rintro ⟨y, hy, hyneg⟩
          obtain ⟨e, he⟩ := (checkAll_error_iff (kb.fid + 1) 0 _).mpr ⟨y, hy, hyneg⟩
          rw [hc] at he; cases he
  · intro hmiss
    unfold get_next_key
    rw [if_pos h, hmiss]
    have h1 : (none : Option (List (Option Int))).getD [] = [] := rfl
    rw [h1, extractInts_nil, checkAll_replicate_zero]
    simp only [getD_replicate_zero]
    norm_num

/-- Witness for `c3_amended`: a file whose sole token is `-5` does trip the
fatal check. -/
theorem c3_amended_witness :
    ({ size := 2, next := 2, fid := -1, data := [] } : KeyBuffer).next =
      ({ size := 2, next := 2, fid := -1, data := [] } : KeyBuffer).size ∧
    (∃ e, get_next_key (fun _ => some [some (-5)])
      { size := 2, next := 2, fid := -1, data := [] } = .error e) :=
  ⟨rfl, (c3_amended (fun _ => some [some (-5)])
      { size := 2, next := 2, fid := -1, data := [] } rfl).1.mpr (by decide)⟩

/-! ## C1: admission order from the inbound priority queue -/

theorem pq_foldl_mem :
    ∀ (ms : List Message) (a : Message),
      ms.foldl (fun a b => if a.time < b.time then b else a) a = a ∨
      ms.foldl (fun a b => if a.time < b.time then b else a) a ∈ ms
  | [], a => Or.inl rfl
  | b :: bs, a => by
    simp only [List.foldl_cons]
    rcases pq_foldl_mem bs (if a.time < b.time then b else a) with h | h
    · rw [h]
      by_cases hab : a.time < b.time
      · right; rw [if_pos hab]; exact List.mem_cons_self b bs
      · left; rw [if_neg hab]
    · right; exact List.mem_cons_of_mem b h

theorem pq_foldl_max :
    ∀ (ms : List Message) (a : Message),
      a.time ≤ (ms.foldl (fun a b => if a.time < b.time then b else a) a).time ∧
      ∀ m ∈ ms, m.time ≤ (ms.foldl (fun a b => if a.time < b.time then b else a) a).time
  | [], a => ⟨le_refl _, by simp⟩
  | b :: bs, a => by
    simp only [List.foldl_cons]
    obtain ⟨h1, h2⟩ := pq_foldl_max bs (if a.time < b.time then b else a)
    have ha : a.time ≤ (if a.time < b.time then b else a).time := by
      by_cases hab : a.time < b.time
      · rw [if_pos hab]; exact le_of_lt hab
      · rw [if_neg hab]
    have hb : b.time ≤ (if a.time < b.time then b else a).time := by
      by_cases hab : a.time < b.time
      · rw [if_pos hab]
      · rw [if_neg hab]; exact le_of_not_lt hab
    refine ⟨le_trans ha h1, ?_⟩
    intro m hm
    rcases List.mem_cons.mp hm with rfl | hm'
    · exact le_trans hb h1
    · exact h2 m hm'

theorem pqTop_mem {q : List Message} {m : Message} (h : pqTop q = some m) : m ∈ q := by
  cases q with
  | nil => cases h
  | cons a ms =>
    simp only [pqTop, Option.some.injEq] at h
    subst h
    rcases pq_foldl_mem ms a with h | h
    · rw [h]; exact List.mem_cons_self a ms
    · exact List.mem_cons_of_mem a h

theorem pqTop_max {q : List Message} {m : Message} (h : pqTop q = some m) :
    ∀ m' ∈ q, m'.time ≤ m.time := by
  cases q with
  | nil => cases h
  | cons a ms =>
    simp only [pqTop, Option.some.injEq] at h
    subst h
    intro m' hm'
    obtain ⟨h1, h2⟩ := pq_foldl_max ms a
    rcases List.mem_cons.mp hm' with rfl | hm''
    · exact h1
    · exact h2 m' hm''

/-- C1, counterexample.  A node whose queue holds a `time = 1` and a
`time = 2` message (keys 10 and 20) admits the `time = 2` message *first*:
after Phase 1 the buffer order is `[20, 10]`.  The message removed first is
not one with the smallest `time` — `std::priority_queue` with
`Message::operator<` (`time < right.time`) is a max-heap, not a min-heap. -/
theorem c1_counterexample :
    (ndTwoQueued.q.getD 0 default).time = 1 ∧ (ndTwoQueued.q.getD 0 default).key = 10 ∧
    (ndTwoQueued.q.getD 1 default).time = 2 ∧ (ndTwoQueued.q.getD 1 default).key = 20 ∧
    ((phase1 cfgOneRackMT 5 ndTwoQueued).buf.getD 0 []).map Message.key = [20, 10] := by
  decide

/-- C1, amended: each message removed from `in_queue` is one with the
*largest* `time` among the messages currently in the queue (`top()` of the
max-heap `std::priority_queue<Message>` under `operator<`), and the
admission loop removes exactly that message next. -/
theorem c1_amended (c : Config) (t : Nat) (nd : Node)
    (hq : nd.q ≠ []) (hin : nd.in_ + c.msg_size ≤ nd.in_limit) :
    ∃ m, pqTop nd.q = some m ∧ m ∈ nd.q ∧ (∀ m' ∈ nd.q, m'.time ≤ m.time) ∧
      admit_loop c t nd.q.length nd = admit_loop c t (nd.q.length - 1) (admit_one c t nd m) := by
  obtain ⟨m, hm⟩ : ∃ m, pqTop nd.q = some m := by
    rcases h : pqTop nd.q with _ | m
    · rcases hqq : nd.q with _ | ⟨a, as⟩
      · exact absurd hqq hq
      · rw [hqq] at h; cases h
    · exact ⟨m, rfl⟩
  refine ⟨m, hm, pqTop_mem hm, pqTop_max hm, ?_⟩
  obtain ⟨n, hn⟩ : ∃ n, nd.q.length = n + 1 := by
    rcases hqq : nd.q with _ | ⟨a, as⟩
    · exact absurd hqq hq
    · exact ⟨as.length, by simp⟩
  rw [hn]
  show (match pqTop nd.q with
    | none => nd
    | some m => if nd.in_ + c.msg_size ≤ nd.in_limit
        then admit_loop c t n (admit_one c t nd m) else nd) =
    admit_loop c t (n + 1 - 1) (admit_one c t nd m)
  rw [hm]
  dsimp only
  rw [if_pos hin]
  norm_num

/-- Witness for `c1_amended` at the concrete two-message queue. -/
theorem c1_amended_witness :
    ndTwoQueued.q ≠ [] ∧
    ndTwoQueued.in_ + cfgOneRackMT.msg_size ≤ ndTwoQueued.in_limit ∧
    (∃ m, pqTop ndTwoQueued.q = some m ∧ m ∈ ndTwoQueued.q ∧
      (∀ m' ∈ ndTwoQueued.q, m'.time ≤ m.time) ∧
      admit_loop cfgOneRackMT 5 ndTwoQueued.q.length ndTwoQueued =
        admit_loop cfgOneRackMT 5 (ndTwoQueued.q.length - 1)
          (admit_one cfgOneRackMT 5 ndTwoQueued m)) :=
  ⟨by decide, by decide, c1_amended cfgOneRackMT 5 ndTwoQueued (by decide) (by decide)⟩

/-! ## Init: the link loop computes the `(i-1)/fanout` parent map -/

/-- The `lo/hi/cnt` link loop equals the closed-form sweep `assign_from`:
the loop maintains `hi = lo*fanout + cnt + 1` with `cnt ≤ fanout`, so each
assignment links position `hi` to position `(hi-1)/fanout`. -/
theorem link_loop_eq_assign (c : Config) (k : Nat) (l : List Nat) (hf : 1 ≤ c.fanout) :
    ∀ (fuel : Nat) (st : LinkSt),
      st.hi = st.lo * c.fanout + st.cnt + 1 →
      st.cnt ≤ c.fanout →
      (c.nracks - st.hi) * (c.fanout + 1) + st.cnt < fuel →
      (link_loop c k l fuel st).nds =
        assign_from c k l st.hi (c.nracks - st.hi) st.nds := by
  intro fuel
  induction fuel with
  | zero => intro st _ _ hfuel; exact absurd hfuel (Nat.not_lt_zero _)
  | succ fuel ih =>
    intro st hInv hcle hfuel
    show (if st.hi < c.nracks then link_loop c k l fuel (link_step c k l st) else st).nds = _
    by_cases hhi : st.hi < c.nracks
    · rw [if_pos hhi]
      by_cases hcnt : st.cnt = c.fanout
      · have hm : (st.lo + 1) * c.fanout = st.lo * c.fanout + c.fanout := Nat.succ_mul _ _
        have hstep : link_step c k l st = { st with cnt := 0, lo := st.lo + 1 } := by
          unfold link_step; rw [if_pos hcnt]
        rw [hstep]
        have h1 := ih { st with cnt := 0, lo := st.lo + 1 }
          (by simp only []; omega) (Nat.zero_le _)
          (by simp only []; omega)
        simpa using h1
      · have hclt : st.cnt < c.fanout := Nat.lt_of_le_of_ne hcle hcnt
        have hdiv : (st.hi - 1) / c.fanout = st.lo := by
          rw [hInv]
          simp only [Nat.add_sub_cancel]
          rw [Nat.mul_comm, Nat.mul_add_div (by omega)]
          simp [Nat.div_eq_of_lt hclt]
        have hstep : link_step c k l st =
            { st with cnt := st.cnt + 1, hi := st.hi + 1,
                      nds := assign_pos c k l st.nds st.hi } := by
          unfold link_step
          rw [if_neg hcnt]
          unfold assign_pos
          rw [hdiv]
        rw [hstep]
        have hexp : (c.nracks - st.hi) * (c.fanout + 1) =
            (c.nracks - (st.hi + 1)) * (c.fanout + 1) + (c.fanout + 1) := by
          have h2 : c.nracks - st.hi = (c.nracks - (st.hi + 1)) + 1 := by omega
          rw [h2, Nat.add_mul, Nat.one_mul]
        have h1 := ih { st with cnt := st.cnt + 1, hi := st.hi + 1,
                                nds := assign_pos c k l st.nds st.hi }
          (by simp only []; omega) (by simp only []; omega)
          (by simp only []; omega)
        simp only [] at h1
        rw [h1]
        have hcount : c.nracks - st.hi = (c.nracks - (st.hi + 1)) + 1 := by omega
        rw [hcount]
        rfl
    · rw [if_neg hhi]
      have h0 : c.nracks - st.hi = 0 := by omega
      rw [h0]
      rfl

/-- `link_tree` in closed form. -/
theorem link_tree_eq (c : Config) (k : Nat) (l : List Nat) (hf : 1 ≤ c.fanout)
    (nds : List Node) :
    link_tree c k l nds =
      assign_from c k l 1 (c.nracks - 1) (set_root k (l.getD 0 0) nds) := by
  unfold link_tree
  apply link_loop_eq_assign c k l hf
  · simp
  · exact Nat.zero_le _
  · show (c.nracks - 1) * (c.fanout + 1) + 0 < link_fuel c
    have h1 : (c.nracks - 1) * (c.fanout + 1) ≤ (c.nracks + 1) * (c.fanout + 1) :=
      Nat.mul_le_mul_right _ (by omega)
    unfold link_fuel
    omega

theorem framedExcept_refl (k : Nat) (nd : Node) : framedExcept k nd nd := by
  refine ⟨rfl, rfl, rfl, rfl, rfl, rfl, rfl, rfl, rfl, rfl, rfl, rfl, rfl, rfl, rfl, rfl,
    rfl, rfl, ?_⟩
  intro k' _; exact ⟨rfl, rfl⟩

theorem framedExcept_trans {k : Nat} {a b c : Node}
    (h1 : framedExcept k a b) (h2 : framedExcept k b c) : framedExcept k a c := by
  obtain ⟨e1, e2, e3, e4, e5, e6, e7, e8, e9, e10, e11, e12, e13, e14, e15, e16, e17, e18, e19⟩ := h1
  obtain ⟨f1, f2, f3, f4, f5, f6, f7, f8, f9, f10, f11, f12, f13, f14, f15, f16, f17, f18, f19⟩ := h2
  refine ⟨f1.trans e1, f2.trans e2, f3.trans e3, f4.trans e4, f5.trans e5, f6.trans e6,
    f7.trans e7, f8.trans e8, f9.trans e9, f10.trans e10, f11.trans e11, f12.trans e12,
    f13.trans e13, f14.trans e14, f15.trans e15, f16.trans e16, f17.trans e17, f18.trans e18, ?_⟩
  intro k' hk'
  exact ⟨((f19 k' hk').1).trans ((e19 k' hk').1), ((f19 k' hk').2).trans ((e19 k' hk').2)⟩

/-- `assign_pos` changes only the addressed node, and that node only in the
tree-`k` entries of `p` and `level`. -/
theorem assign_pos_framed (c : Config) (k : Nat) (l : List Nat) (nds : List Node)
    (h : Nat) (x : Nat) :
    framedExcept k (nds.getD x default) ((assign_pos c k l nds h).getD x default) := by
  unfold assign_pos
  by_cases hx : x = l.getD h 0
  · subst hx
    by_cases hlen : l.getD h 0 < nds.length
    · rw [getD_set_self hlen]
      refine ⟨rfl, rfl, rfl, rfl, rfl, rfl, rfl, rfl, rfl, rfl, rfl, rfl, rfl, rfl, rfl, rfl,
        by simp, by simp, ?_⟩
      intro k' hk'
      exact ⟨getD_set_other hk' _ _, getD_set_other hk' _ _⟩
    · rw [List.set_eq_of_length_le (by omega)]
      exact framedExcept_refl k _
  · rw [getD_set_other hx]
    exact framedExcept_refl k _

theorem assign_from_framed (c : Config) (k : Nat) (l : List Nat) :
    ∀ (count h0 : Nat) (nds : List Node) (x : Nat),
      framedExcept k (nds.getD x default) ((assign_from c k l h0 count nds).getD x default)
  | 0, _, _nds, _x => framedExcept_refl k _
  | count + 1, h0, nds, x =>
    framedExcept_trans (assign_pos_framed c k l nds h0 x)
      (assign_from_framed c k l count (h0 + 1) (assign_pos c k l nds h0) x)

theorem assign_pos_length (c : Config) (k : Nat) (l : List Nat) (nds : List Node) (h : Nat) :
    (assign_pos c k l nds h).length = nds.length := by
  unfold assign_pos; simp

theorem assign_from_length (c : Config) (k : Nat) (l : List Nat) :
    ∀ (count h0 : Nat) (nds : List Node),
      (assign_from c k l h0 count nds).length = nds.length
  | 0, _, _ => rfl
  | count + 1, h0, nds => by
    show (assign_from c k l (h0 + 1) count (assign_pos c k l nds h0)).length = nds.length
    rw [assign_from_length c k l count (h0 + 1) _, assign_pos_length]

/-- Nodes whose id is not an addressed layout slot are untouched. -/
theorem assign_from_untouched (c : Config) (k : Nat) (l : List Nat) :
    ∀ (count h0 : Nat) (nds : List Node) (x : Nat),
      (∀ h, h0 ≤ h → h < h0 + count → l.getD h 0 ≠ x) →
      (assign_from c k l h0 count nds).getD x default = nds.getD x default
  | 0, _, _, _, _ => rfl
  | count + 1, h0, nds, x, hx => by
    show (assign_from c k l (h0 + 1) count (assign_pos c k l nds h0)).getD x default = _
    rw [assign_from_untouched c k l count (h0 + 1) _ x
      (fun h hh1 hh2 => hx h (by omega) (by omega))]
    unfold assign_pos
    rw [getD_set_other (Ne.symm (hx h0 (le_refl _) (by omega)))]

/-- The assignment sweep establishes the `(h-1)/fanout` parent links:
after `assign_from h0 count`, every addressed position `h` has
`p[k] = layout[(h-1)/fanout]` and `level[k]` one more than that parent
node's final `level[k]`. -/
theorem assign_from_spec (c : Config) (k : Nat) (l : List Nat)
    (hnd : l.Nodup) (hf : 1 ≤ c.fanout) (hk : k < c.ntrees) :
    ∀ (count h0 : Nat) (nds : List Node),
      1 ≤ h0 → h0 + count ≤ l.length →
      (∀ x ∈ l, x < nds.length) →
      (∀ x ∈ l, (nds.getD x default).p.length = c.ntrees ∧
                (nds.getD x default).level.length = c.ntrees) →
      ∀ h, h0 ≤ h → h < h0 + count →
        ((assign_from c k l h0 count nds).getD (l.getD h 0) default).p.getD k 0 =
          ((l.getD ((h - 1) / c.fanout) 0 : Nat) : Int) ∧
        ((assign_from c k l h0 count nds).getD (l.getD h 0) default).level.getD k 0 =
          ((assign_from c k l h0 count nds).getD (l.getD ((h - 1) / c.fanout) 0)
            default).level.getD k 0 + 1
  | 0, h0, nds, _, _, _, _, h, hh1, hh2 => by omega
  | count + 1, h0, nds, hh0, hcount, hlen, hpl, h, hh1, hh2 => by
    have hh0l : h0 < l.length := by omega
    have hparpos : (h0 - 1) / c.fanout < h0 := by
      have := Nat.div_le_self (h0 - 1) c.fanout
      omega
    have hparl : (h0 - 1) / c.fanout < l.length := by omega
    have hchne : l.getD ((h0 - 1) / c.fanout) 0 ≠ l.getD h0 0 :=
      nodup_getD_ne hnd hparl hh0l (by omega)
    -- lengths and bounds survive one `assign_pos`
    have hlen1 : ∀ x ∈ l, x < (assign_pos c k l nds h0).length := by
      intro x hx; rw [assign_pos_length]; exact hlen x hx
    have hpl1 : ∀ x ∈ l, ((assign_pos c k l nds h0).getD x default).p.length = c.ntrees ∧
        ((assign_pos c k l nds h0).getD x default).level.length = c.ntrees := by
      intro x hx
      obtain ⟨e1, e2⟩ := hpl x hx
      have hfr := assign_pos_framed c k l nds h0 x
      obtain ⟨_, _, _, _, _, _, _, _, _, _, _, _, _, _, _, _, f17, f18, _⟩ := hfr
      exact ⟨f17.trans e1, f18.trans e2⟩
    rcases Nat.lt_or_ge h (h0 + 1) with hcase | hcase
    · -- h = h0 : the head assignment
      have heq : h = h0 := by omega
      subst heq
      -- the rest of the sweep does not touch node `l.getD h 0` …
      have hrest : (assign_from c k l (h + 1) count (assign_pos c k l nds h)).getD
          (l.getD h 0) default = (assign_pos c k l nds h).getD (l.getD h 0) default := by
        apply assign_from_untouched
        intro h' hh'1 hh'2
        exact nodup_getD_ne hnd (by omega) (by omega) (by omega)
      -- … nor the parent node `l.getD ((h-1)/fanout) 0`
      have hrestp : (assign_from c k l (h + 1) count (assign_pos c k l nds h)).getD
          (l.getD ((h - 1) / c.fanout) 0) default =
          (assign_pos c k l nds h).getD (l.getD ((h - 1) / c.fanout) 0) default := by
        apply assign_from_untouched
        intro h' hh'1 hh'2
        exact nodup_getD_ne hnd (by omega) (by omega) (by omega)
      have hch : (assign_pos c k l nds h).getD (l.getD h 0) default =
          { nds.getD (l.getD h 0) default with
            p := (nds.getD (l.getD h 0) default).p.set k
              ((l.getD ((h - 1) / c.fanout) 0 : Nat) : Int),
            level := (nds.getD (l.getD h 0) default).level.set k
              (((nds.getD (l.getD ((h - 1) / c.fanout) 0) default).level.getD k 0) + 1) } := by
        unfold assign_pos
        rw [getD_set_self (hlen _ (getD_mem hh0l))]
      have hpar : (assign_pos c k l nds h).getD (l.getD ((h - 1) / c.fanout) 0) default =
          nds.getD (l.getD ((h - 1) / c.fanout) 0) default := by
        unfold assign_pos
        rw [getD_set_other hchne]
      have hE : assign_from c k l h (count + 1) nds =
          assign_from c k l (h + 1) count (assign_pos c k l nds h) := rfl
      rw [hE, hrest, hrestp, hch, hpar]
      constructor
      · simp only []
        exact getD_set_self (by rw [(hpl _ (getD_mem hh0l)).1]; exact hk) _ _
      · simp only []
        exact getD_set_self (by rw [(hpl _ (getD_mem hh0l)).2]; exact hk) _ _
    · -- h ≥ h0 + 1 : inside the recursive sweep
      exact assign_from_spec c k l hnd hf hk count (h0 + 1) (assign_pos c k l nds h0)
        (by omega) (by omega) hlen1 hpl1 h hcase (by omega)

/-! ## Init: composition of the construction stages -/

theorem stageA_length (c : Config) : (stageA c).length = c.total_nodes := by
  simp [stageA]

theorem stageA_getD (c : Config) {i : Nat} (h : i < c.total_nodes) :
    (stageA c).getD i default = init_node c i := by
  unfold stageA
  exact getD_map_range _ _ h

theorem set_root_framed (k : Nat) (nds : List Node) (r : Nat) (x : Nat) :
    framedExcept k (nds.getD x default) ((set_root k r nds).getD x default) := by
  unfold set_root
  by_cases hx : x = r
  · subst hx
    by_cases hlen : x < nds.length
    · rw [getD_set_self hlen]
      refine ⟨rfl, rfl, rfl, rfl, rfl, rfl, rfl, rfl, rfl, rfl, rfl, rfl, rfl, rfl, rfl, rfl,
        by simp, by simp, ?_⟩
      intro k' hk'
      exact ⟨getD_set_other hk' _ _, getD_set_other hk' _ _⟩
    · rw [List.set_eq_of_length_le (by omega)]
      exact framedExcept_refl k _
  · rw [getD_set_other hx]
    exact framedExcept_refl k _

theorem link_tree_framed (c : Config) (k : Nat) (l : List Nat) (hf : 1 ≤ c.fanout)
    (nds : List Node) (x : Nat) :
    framedExcept k (nds.getD x default) ((link_tree c k l nds).getD x default) := by
  rw [link_tree_eq c k l hf]
  exact framedExcept_trans (set_root_framed k nds (l.getD 0 0) x)
    (assign_from_framed c k l (c.nracks - 1) 1 _ x)

theorem link_tree_length (c : Config) (k : Nat) (l : List Nat) (hf : 1 ≤ c.fanout)
    (nds : List Node) : (link_tree c k l nds).length = nds.length := by
  rw [link_tree_eq c k l hf, assign_from_length]
  unfold set_root
  simp

/-- What `link_tree` guarantees for its own tree `k`: the layout root gets
`p[k] = -1`, `level[k] = 0`; every other position `h` gets
`p[k] = layout[(h-1)/fanout]` and `level[k]` one more than that parent
node's resulting `level[k]`. -/
theorem link_tree_spec (c : Config) (k : Nat) (l : List Nat)
    (hf : 1 ≤ c.fanout) (hk : k < c.ntrees) (hR : l.length = c.nracks)
    (hnd : l.Nodup) (hR1 : 1 ≤ c.nracks) (nds : List Node)
    (hmem : ∀ x ∈ l, x < nds.length)
    (hpl : ∀ x ∈ l, (nds.getD x default).p.length = c.ntrees ∧
                    (nds.getD x default).level.length = c.ntrees) :
    (((link_tree c k l nds).getD (l.getD 0 0) default).p.getD k 0 = -1 ∧
     ((link_tree c k l nds).getD (l.getD 0 0) default).level.getD k 0 = 0) ∧
    (∀ h, 1 ≤ h → h < c.nracks →
      ((link_tree c k l nds).getD (l.getD h 0) default).p.getD k 0 =
        ((l.getD ((h - 1) / c.fanout) 0 : Nat) : Int) ∧
      ((link_tree c k l nds).getD (l.getD h 0) default).level.getD k 0 =
        ((link_tree c k l nds).getD (l.getD ((h - 1) / c.fanout) 0) default).level.getD k 0
          + 1) := by
  have h0l : (0 : Nat) < l.length := by omega
  have hrootmem : l.getD 0 0 ∈ l := getD_mem h0l
  have hrootlt : l.getD 0 0 < nds.length := hmem _ hrootmem
  rw [link_tree_eq c k l hf]
  have hnds0len : (set_root k (l.getD 0 0) nds).length = nds.length := by
    unfold set_root; simp
  have hmem0 : ∀ x ∈ l, x < (set_root k (l.getD 0 0) nds).length := by
    intro x hx; rw [hnds0len]; exact hmem x hx
  have hroot0 : (set_root k (l.getD 0 0) nds).getD (l.getD 0 0) default =
      { nds.getD (l.getD 0 0) default with
        p := (nds.getD (l.getD 0 0) default).p.set k (-1),
        level := (nds.getD (l.getD 0 0) default).level.set k 0 } := by
    unfold set_root; exact getD_set_self hrootlt _ _
  have hpl0 : ∀ x ∈ l, ((set_root k (l.getD 0 0) nds).getD x default).p.length = c.ntrees ∧
      ((set_root k (l.getD 0 0) nds).getD x default).level.length = c.ntrees := by
    intro x hx
    by_cases hxr : x = l.getD 0 0
    · subst hxr
      rw [hroot0]
      simp only [List.length_set]
      exact hpl _ hx
    · unfold set_root
      rw [getD_set_other hxr]
      exact hpl x hx
  have hrootuntouched : (assign_from c k l 1 (c.nracks - 1) (set_root k (l.getD 0 0) nds)).getD
      (l.getD 0 0) default = (set_root k (l.getD 0 0) nds).getD (l.getD 0 0) default := by
    apply assign_from_untouched
    intro h hh1 hh2
    exact nodup_getD_ne hnd (by omega) h0l (by omega)
  constructor
  · rw [hrootuntouched, hroot0]
    constructor
    · simp only []
      exact getD_set_self (by rw [(hpl _ hrootmem).1]; exact hk) _ _
    · simp only []
      exact getD_set_self (by rw [(hpl _ hrootmem).2]; exact hk) _ _
  · intro h hh1 hh2
    exact assign_from_spec c k l hnd hf hk (c.nracks - 1) 1 (set_root k (l.getD 0 0) nds)
      (le_refl _) (by omega) hmem0 hpl0 h hh1 (by omega)

/-- Folding `link_tree` over other trees preserves tree `k`'s `p`/`level`
entries (and the vector lengths) at every node. -/
theorem linkfold_keeps (c : Config) (ls : List (List Nat)) (hf : 1 ≤ c.fanout) (k : Nat) :
    ∀ (ks : List Nat), (∀ k' ∈ ks, k' ≠ k) → ∀ (nds : List Node) (x : Nat),
      ((ks.foldl (fun nds k' => link_tree c k' (ls.getD k' []) nds) nds).getD x
          default).p.getD k 0 = (nds.getD x default).p.getD k 0 ∧
      ((ks.foldl (fun nds k' => link_tree c k' (ls.getD k' []) nds) nds).getD x
          default).level.getD k 0 = (nds.getD x default).level.getD k 0
  | [], _, nds, x => ⟨rfl, rfl⟩
  | k0 :: rest, hne, nds, x => by
    have hfr := link_tree_framed c k0 (ls.getD k0 []) hf nds x
    obtain ⟨_, _, _, _, _, _, _, _, _, _, _, _, _, _, _, _, _, _, f19⟩ := hfr
    have hk0 : k ≠ k0 := fun h => hne k0 (by simp) h.symm
    have hrest := linkfold_keeps c ls hf k rest
      (fun k' hk' => hne k' (List.mem_cons_of_mem _ hk'))
      (link_tree c k0 (ls.getD k0 []) nds) x
    simp only [List.foldl_cons]
    exact ⟨hrest.1.trans (f19 k hk0).1, hrest.2.trans (f19 k hk0).2⟩

theorem linkfold_length (c : Config) (ls : List (List Nat)) (hf : 1 ≤ c.fanout) :
    ∀ (ks : List Nat) (nds : List Node),
      (ks.foldl (fun nds k' => link_tree c k' (ls.getD k' []) nds) nds).length = nds.length
  | [], _ => rfl
  | k0 :: rest, nds => by
    simp only [List.foldl_cons]
    rw [linkfold_length c ls hf rest _, link_tree_length c k0 _ hf]

/-- After folding `link_tree` over a duplicate-free list of trees, each
processed tree `k` carries its full link structure. -/
theorem linkfold_spec (c : Config) (ls : List (List Nat)) (hf : 1 ≤ c.fanout)
    (hR1 : 1 ≤ c.nracks) :
    ∀ (ks : List Nat) (nds : List Node),
      ks.Nodup →
      (∀ k' ∈ ks, k' < c.ntrees ∧ (ls.getD k' []).length = c.nracks ∧
        (ls.getD k' []).Nodup ∧ (∀ x ∈ ls.getD k' [], x < c.total_nodes)) →
      nds.length = c.total_nodes →
      (∀ x, x < c.total_nodes → (nds.getD x default).p.length = c.ntrees ∧
                                (nds.getD x default).level.length = c.ntrees) →
      ∀ k ∈ ks,
        (((ks.foldl (fun nds k' => link_tree c k' (ls.getD k' []) nds) nds).getD
            ((ls.getD k []).getD 0 0) default).p.getD k 0 = -1 ∧
         ((ks.foldl (fun nds k' => link_tree c k' (ls.getD k' []) nds) nds).getD
            ((ls.getD k []).getD 0 0) default).level.getD k 0 = 0) ∧
        (∀ h, 1 ≤ h → h < c.nracks →
          ((ks.foldl (fun nds k' => link_tree c k' (ls.getD k' []) nds) nds).getD
              ((ls.getD k []).getD h 0) default).p.getD k 0 =
            (((ls.getD k []).getD ((h - 1) / c.fanout) 0 : Nat) : Int) ∧
          ((ks.foldl (fun nds k' => link_tree c k' (ls.getD k' []) nds) nds).getD
              ((ls.getD k []).getD h 0) default).level.getD k 0 =
            ((ks.foldl (fun nds k' => link_tree c k' (ls.getD k' []) nds) nds).getD
                ((ls.getD k []).getD ((h - 1) / c.fanout) 0) default).level.getD k 0 + 1)
  | [], _, _, _, _, _, k, hk => absurd hk (List.not_mem_nil k)
  | k0 :: rest, nds, hnodup, hks, hlen, hpl, k, hk => by
    have hk0 := hks k0 (by simp)
    have hmem0 : ∀ x ∈ ls.getD k0 [], x < nds.length := by
      intro x hx; rw [hlen]; exact hk0.2.2.2 x hx
    have hpl0 : ∀ x ∈ ls.getD k0 [], (nds.getD x default).p.length = c.ntrees ∧
        (nds.getD x default).level.length = c.ntrees := by
      intro x hx; exact hpl x (hk0.2.2.2 x hx)
    have hlen1 : (link_tree c k0 (ls.getD k0 []) nds).length = c.total_nodes := by
      rw [link_tree_length c k0 _ hf, hlen]
    have hpl1 : ∀ x, x < c.total_nodes →
        ((link_tree c k0 (ls.getD k0 []) nds).getD x default).p.length = c.ntrees ∧
        ((link_tree c k0 (ls.getD k0 []) nds).getD x default).level.length = c.ntrees := by
      intro x hx
      have hfr := link_tree_framed c k0 (ls.getD k0 []) hf nds x
      obtain ⟨_, _, _, _, _, _, _, _, _, _, _, _, _, _, _, _, f17, f18, _⟩ := hfr
      obtain ⟨e1, e2⟩ := hpl x hx
      exact ⟨f17.trans e1, f18.trans e2⟩
    rcases List.mem_cons.mp hk with rfl | hkrest
    · -- `k` is the tree processed first: establish, then preserve
      have hspec := link_tree_spec c k (ls.getD k []) hf hk0.1 hk0.2.1 hk0.2.2.1 hR1 nds
        hmem0 hpl0
      have hne : ∀ k' ∈ rest, k' ≠ k := by
        intro k' hk' he
        subst he
        exact (List.nodup_cons.mp hnodup).1 hk'
      simp only [List.foldl_cons]
      constructor
      · obtain ⟨hkeep1, hkeep2⟩ := linkfold_keeps c ls hf k rest hne
          (link_tree c k (ls.getD k []) nds) ((ls.getD k []).getD 0 0)
        exact ⟨hkeep1.trans hspec.1.1, hkeep2.trans hspec.1.2⟩
      · intro h hh1 hh2
        obtain ⟨hkeep1, hkeep2⟩ := linkfold_keeps c ls hf k rest hne
          (link_tree c k (ls.getD k []) nds) ((ls.getD k []).getD h 0)
        obtain ⟨hkeepP1, hkeepP2⟩ := linkfold_keeps c ls hf k rest hne
          (link_tree c k (ls.getD k []) nds) ((ls.getD k []).getD ((h - 1) / c.fanout) 0)
        refine ⟨hkeep1.trans ((hspec.2 h hh1 hh2).1), ?_⟩
        rw [hkeep2, hkeepP2]
        exact (hspec.2 h hh1 hh2).2
    · -- `k` comes later: recurse
      simp only [List.foldl_cons]
      exact linkfold_spec c ls hf hR1 rest (link_tree c k0 (ls.getD k0 []) nds)
        (List.nodup_cons.mp hnodup).2
        (fun k' hk' => hks k' (List.mem_cons_of_mem _ hk')) hlen1 hpl1 k hkrest

/-! ## Init: the GC decoration stage only touches `gc`/`gc_delay` -/

theorem framedGC_refl (nd : Node) : framedGC nd nd := by
  refine ⟨rfl, rfl, rfl, rfl, rfl, rfl, rfl, rfl, rfl, rfl, rfl, rfl, rfl, rfl, rfl, rfl,
    rfl, rfl⟩

theorem framedGC_trans {a b c : Node} (h1 : framedGC a b) (h2 : framedGC b c) :
    framedGC a c := by
  obtain ⟨e1, e2, e3, e4, e5, e6, e7, e8, e9, e10, e11, e12, e13, e14, e15, e16, e17, e18⟩ := h1
  obtain ⟨f1, f2, f3, f4, f5, f6, f7, f8, f9, f10, f11, f12, f13, f14, f15, f16, f17, f18⟩ := h2
  exact ⟨f1.trans e1, f2.trans e2, f3.trans e3, f4.trans e4, f5.trans e5, f6.trans e6,
    f7.trans e7, f8.trans e8, f9.trans e9, f10.trans e10, f11.trans e11, f12.trans e12,
    f13.trans e13, f14.trans e14, f15.trans e15, f16.trans e16, f17.trans e17, f18.trans e18⟩

theorem decorate_at_framedGC (nds : List Node) (h k d : Nat) (x : Nat) :
    framedGC (nds.getD x default) ((decorate_at nds h k d).getD x default) := by
  unfold decorate_at
  by_cases hx : x = h
  · subst hx
    by_cases hlen : x < nds.length
    · rw [getD_set_self hlen]
      refine ⟨rfl, rfl, rfl, rfl, rfl, rfl, rfl, rfl, rfl, rfl, rfl, rfl, rfl, rfl, rfl, rfl,
        by simp, by simp⟩
    · rw [List.set_eq_of_length_le (by omega)]
      exact framedGC_refl _
  · rw [getD_set_other hx]
    exact framedGC_refl _

theorem foldl_framedGC {β : Type} (f : List Node → β → List Node)
    (hf : ∀ nds j x, framedGC (nds.getD x default) ((f nds j).getD x default)) :
    ∀ (js : List β) (nds : List Node) (x : Nat),
      framedGC (nds.getD x default) ((js.foldl f nds).getD x default)
  | [], _, _ => framedGC_refl _
  | j :: js, nds, x =>
    framedGC_trans (hf nds j x) (foldl_framedGC f hf js (f nds j) x)

theorem gc_decorate_framedGC (c : Config) (ls : List (List Nat)) (nds : List Node)
    (x : Nat) :
    framedGC (nds.getD x default) ((gc_decorate c ls nds).getD x default) := by
  unfold gc_decorate
  rcases c.gc_policy with _ | _ | _ | _ | n
  · exact framedGC_refl _
  · unfold decorate_policy1
    refine foldl_framedGC _ ?_ _ nds x
    intro nds i x
    exact foldl_framedGC _ (fun nds j x => decorate_at_framedGC nds _ _ _ x) _ nds x
  · unfold decorate_policy23
    refine foldl_framedGC _ ?_ _ nds x
    intro nds i x
    exact foldl_framedGC _ (fun nds j x => decorate_at_framedGC nds _ _ _ x) _ nds x
  · unfold decorate_policy23
    refine foldl_framedGC _ ?_ _ nds x
    intro nds i x
    exact foldl_framedGC _ (fun nds j x => decorate_at_framedGC nds _ _ _ x) _ nds x
  · exact framedGC_refl _

theorem decorate_at_length (nds : List Node) (h k d : Nat) :
    (decorate_at nds h k d).length = nds.length := by
  unfold decorate_at; simp

theorem foldl_length_of {β : Type} (f : List Node → β → List Node)
    (hf : ∀ nds j, (f nds j).length = nds.length) :
    ∀ (js : List β) (nds : List Node), (js.foldl f nds).length = nds.length
  | [], _ => rfl
  | j :: js, nds => by
    simp only [List.foldl_cons]
    rw [foldl_length_of f hf js (f nds j), hf]

theorem gc_decorate_length (c : Config) (ls : List (List Nat)) (nds : List Node) :
    (gc_decorate c ls nds).length = nds.length := by
  unfold gc_decorate
  rcases c.gc_policy with _ | _ | _ | _ | n
  · rfl
  · unfold decorate_policy1
    refine foldl_length_of _ ?_ _ nds
    intro nds i
    exact foldl_length_of _ (fun nds j => decorate_at_length nds _ _ _) _ nds
  · unfold decorate_policy23
    refine foldl_length_of _ ?_ _ nds
    intro nds i
    exact foldl_length_of _ (fun nds j => decorate_at_length nds _ _ _) _ nds
  · unfold decorate_policy23
    refine foldl_length_of _ ?_ _ nds
    intro nds i
    exact foldl_length_of _ (fun nds j => decorate_at_length nds _ _ _) _ nds
  · rfl

/-! ## Init: layouts and `initState` elimination -/

theorem mem_base_layout {c : Config} {x : Nat} :
    x ∈ base_layout c ↔ ∃ j, j < c.nracks ∧ x = j * c.nodes_per_rack := by
  unfold base_layout
  simp only [List.mem_map, List.mem_range]
  constructor
  · rintro ⟨j, hj, rfl⟩; exact ⟨j, hj, rfl⟩
  · rintro ⟨j, hj, rfl⟩; exact ⟨j, hj, rfl⟩

theorem base_layout_nodup (c : Config) (hnpr : 1 ≤ c.nodes_per_rack) :
    (base_layout c).Nodup := by
  unfold base_layout
  refine List.Nodup.map ?_ (List.nodup_range _)
  intro a b hab
  exact Nat.eq_of_mul_eq_mul_right (by omega) hab

theorem mem_base_layout_lt {c : Config} {x : Nat} (hnpr : 1 ≤ c.nodes_per_rack)
    (hx : x ∈ base_layout c) : x < c.total_nodes := by
  obtain ⟨j, hj, rfl⟩ := mem_base_layout.mp hx
  calc j * c.nodes_per_rack < (j + 1) * c.nodes_per_rack := by
        rw [Nat.succ_mul]; omega
    _ ≤ c.nracks * c.nodes_per_rack := Nat.mul_le_mul_right _ (by omega)
    _ = c.total_nodes := rfl

theorem mem_base_layout_hub {c : Config} {x : Nat}
    (hx : x ∈ base_layout c) : x % c.nodes_per_rack = 0 := by
  obtain ⟨j, hj, rfl⟩ := mem_base_layout.mp hx
  simp [Nat.mul_mod_left]

theorem mapM_range_layout (f : Nat → Option (List Nat)) :
    ∀ (js : List Nat) (ls : List (List Nat)),
      js.mapM f = some ls →
      ls.length = js.length ∧
      ∀ i, i < js.length → f (js.getD i 0) = some (ls.getD i [])
  | [], ls, h => by
    simp only [List.mapM_nil, pure, Option.some.injEq] at h
    subst h
    exact ⟨rfl, fun i hi => absurd hi (by simp)⟩
  | j :: js, ls, h => by
    rw [List.mapM_cons] at h
    rcases hj : f j with _ | b <;> rw [hj] at h
    · cases h
    · rcases hrest : js.mapM f with _ | bs <;> rw [hrest] at h
      · cases h
      · simp only [Option.bind_eq_bind, Option.some_bind, Option.some.injEq, pure] at h
        subst h
        obtain ⟨hlen, hspec⟩ := mapM_range_layout f js bs hrest
        refine ⟨by simp [hlen], ?_⟩
        intro i hi
        cases i with
        | zero => simpa using hj
        | succ i => simpa using hspec i (by simpa using hi)

/-- Destructing a successful `layouts`. -/
theorem layouts_spec {c : Config} {ls : List (List Nat)} (h : layouts c = some ls) :
    ls.length = c.ntrees ∧
    ∀ k, k < c.ntrees → tree_layout c k = some (ls.getD k []) := by
  unfold layouts at h
  obtain ⟨hlen, hspec⟩ := mapM_range_layout (tree_layout c) (List.range c.ntrees) ls h
  refine ⟨by simpa using hlen, ?_⟩
  intro k hk
  have := hspec k (by simpa using hk)
  rwa [List.getD_eq_getElem _ _ (by simpa using hk), List.getElem_range] at this

/-- Destructing a successful `initState`. -/
theorem initState_elim {c : Config} {st : SimState} (h : initState c = some st) :
    ∃ ls, layouts c = some ls ∧
      st.nodes = gc_decorate c ls ((List.range c.ntrees).foldl
        (fun nds k => link_tree c k (ls.getD k []) nds) (stageA c)) ∧
      st.cursor = 0 ∧ st.total_generated = 0 ∧ st.total_eff_root = 0 := by
  unfold initState at h
  rcases hl : layouts c with _ | ls <;> rw [hl] at h
  · cases h
  · simp only [Option.map_some', Option.some.injEq] at h
    subst h
    exact ⟨ls, rfl, rfl, rfl, rfl, rfl⟩

/-- A layout produced by `tree_layout` for a tree `k < ntrees`: length,
nodup, hub membership. -/
theorem tree_layout_facts {c : Config} {k : Nat} {l : List Nat}
    (h : tree_layout c k = some l) (hnpr : 1 ≤ c.nodes_per_rack) :
    l.length = c.nracks ∧ l.Nodup ∧
    (∀ x ∈ l, x < c.total_nodes ∧ x % c.nodes_per_rack = 0) := by
  have hperm := tree_layout_perm h
  refine ⟨hperm.length_eq.trans (base_layout_length c), ?_, ?_⟩
  · exact hperm.nodup_iff.mpr (base_layout_nodup c hnpr)
  · intro x hx
    have hxb : x ∈ base_layout c := hperm.mem_iff.mp hx
    exact ⟨mem_base_layout_lt hnpr hxb, mem_base_layout_hub hxb⟩

theorem getD_replicate_of_lt {α : Type} (a d : α) :
    ∀ {n i : Nat}, i < n → (List.replicate n a).getD i d = a
  | n + 1, 0, _ => rfl
  | n + 1, i + 1, h => by
    rw [List.replicate_succ]
    simpa using getD_replicate_of_lt a d (by omega)

theorem init_node_pl (c : Config) (i : Nat) :
    (init_node c i).p.length = c.ntrees ∧ (init_node c i).level.length = c.ntrees := by
  unfold init_node
  by_cases h : i % c.nodes_per_rack = 0 <;> simp [h]

/-- `link_tree` does not touch nodes outside its layout. -/
theorem link_tree_untouched (c : Config) (k : Nat) (l : List Nat) (hf : 1 ≤ c.fanout)
    (hR : l.length = c.nracks) (hR1 : 1 ≤ c.nracks)
    (nds : List Node) (x : Nat) (hx : x ∉ l) :
    (link_tree c k l nds).getD x default = nds.getD x default := by
  rw [link_tree_eq c k l hf]
  have h1 : (assign_from c k l 1 (c.nracks - 1) (set_root k (l.getD 0 0) nds)).getD x default
      = (set_root k (l.getD 0 0) nds).getD x default := by
    apply assign_from_untouched
    intro h hh1 hh2
    intro he
    have hmem : l.getD h 0 ∈ l := getD_mem (by omega)
    rw [he] at hmem
    exact hx hmem
  rw [h1]
  unfold set_root
  refine getD_set_other ?_ _ _
  intro he
  have hmem : l.getD 0 0 ∈ l := getD_mem (by omega)
  rw [← he] at hmem
  exact hx hmem

theorem linkfold_untouched (c : Config) (ls : List (List Nat)) (hf : 1 ≤ c.fanout)
    (hR1 : 1 ≤ c.nracks) :
    ∀ (ks : List Nat) (nds : List Node) (x : Nat),
      (∀ k' ∈ ks, (ls.getD k' []).length = c.nracks) →
      (∀ k' ∈ ks, x ∉ ls.getD k' []) →
      ((ks.foldl (fun nds k' => link_tree c k' (ls.getD k' []) nds) nds).getD x default) =
        nds.getD x default
  | [], _, _, _, _ => rfl
  | k0 :: rest, nds, x, hlen, hx => by
    simp only [List.foldl_cons]
    rw [linkfold_untouched c ls hf hR1 rest _ x
      (fun k' hk' => hlen k' (List.mem_cons_of_mem _ hk'))
      (fun k' hk' => hx k' (List.mem_cons_of_mem _ hk')),
      link_tree_untouched c k0 _ hf (hlen k0 (by simp)) hR1 nds x (hx k0 (by simp))]

/-! ## C5: tree shape after init -/

/-- C5.  After `init`, for every tree `k`: the layout root `trees[k][0]` is
the unique node with `p[k] = -1` and has `level[k] = 0`; every level-order
position `0 < i < R` has parent `trees[k][(i-1)/fanout]` and level one more
than its parent's; and every non-hub node points at its rack hub with
`level[k] = -1`. -/
theorem c5_tree_shape (c : Config) (st : SimState) (hinit : initState c = some st)
    (hf : 1 ≤ c.fanout) (hnpr : 1 ≤ c.nodes_per_rack) (hR1 : 1 ≤ c.nracks) :
    ∀ k, k < c.ntrees → ∃ l, tree_layout c k = some l ∧
      ((getNode st (l.getD 0 0)).p.getD k 0 = -1 ∧
       (getNode st (l.getD 0 0)).level.getD k 0 = 0) ∧
      (∀ i, 0 < i → i < c.nracks →
        (getNode st (l.getD i 0)).p.getD k 0 =
          ((l.getD ((i - 1) / c.fanout) 0 : Nat) : Int) ∧
        (getNode st (l.getD i 0)).level.getD k 0 =
          (getNode st (l.getD ((i - 1) / c.fanout) 0)).level.getD k 0 + 1) ∧
      (∀ x, x < c.total_nodes → x ≠ l.getD 0 0 → (getNode st x).p.getD k 0 ≠ -1) ∧
      (∀ x, x < c.total_nodes → x % c.nodes_per_rack ≠ 0 →
        (getNode st x).p.getD k 0 =
          ((x / c.nodes_per_rack * c.nodes_per_rack : Nat) : Int) ∧
        (getNode st x).level.getD k 0 = -1) := by
  intro k hk
  obtain ⟨ls, hls, hnodes, _, _, _⟩ := initState_elim hinit
  obtain ⟨hlslen, hlsk⟩ := layouts_spec hls
  refine ⟨ls.getD k [], hlsk k hk, ?_⟩
  obtain ⟨hRlen, hlnodup, hlmem⟩ := tree_layout_facts (hlsk k hk) hnpr
  have hksfacts : ∀ k' ∈ List.range c.ntrees, k' < c.ntrees ∧
      (ls.getD k' []).length = c.nracks ∧ (ls.getD k' []).Nodup ∧
      (∀ x ∈ ls.getD k' [], x < c.total_nodes) := by
    intro k' hk'
    have hk'lt := List.mem_range.mp hk'
    have f := tree_layout_facts (hlsk k' hk'lt) hnpr
    exact ⟨hk'lt, f.1, f.2.1, fun x hx => (f.2.2 x hx).1⟩
  have hstagepl : ∀ x, x < c.total_nodes →
      ((stageA c).getD x default).p.length = c.ntrees ∧
      ((stageA c).getD x default).level.length = c.ntrees := by
    intro x hx
    rw [stageA_getD c hx]
    exact init_node_pl c x
  have hspec := linkfold_spec c ls hf hR1 (List.range c.ntrees) (stageA c)
    (List.nodup_range _) hksfacts (stageA_length c) hstagepl k (List.mem_range.mpr hk)
  have hdec : ∀ x, (getNode st x).p =
      (((List.range c.ntrees).foldl (fun nds k' => link_tree c k' (ls.getD k' []) nds)
        (stageA c)).getD x default).p ∧
      (getNode st x).level =
      (((List.range c.ntrees).foldl (fun nds k' => link_tree c k' (ls.getD k' []) nds)
        (stageA c)).getD x default).level := by
    intro x
    unfold getNode
    rw [hnodes]
    have hfr := gc_decorate_framedGC c ls
      ((List.range c.ntrees).foldl (fun nds k' => link_tree c k' (ls.getD k' []) nds)
        (stageA c)) x
    exact ⟨hfr.1, hfr.2.1⟩
  -- the non-hub fact, needed twice
  have hnonhub : ∀ x, x < c.total_nodes → x % c.nodes_per_rack ≠ 0 →
      (getNode st x).p.getD k 0 =
        ((x / c.nodes_per_rack * c.nodes_per_rack : Nat) : Int) ∧
      (getNode st x).level.getD k 0 = -1 := by
    intro x hx hxh
    have hnl : ∀ k' ∈ List.range c.ntrees, x ∉ ls.getD k' [] := by
      intro k' hk' hmem
      have hk'lt := List.mem_range.mp hk'
      exact hxh ((tree_layout_facts (hlsk k' hk'lt) hnpr).2.2 x hmem).2
    have huntouched := linkfold_untouched c ls hf hR1 (List.range c.ntrees) (stageA c) x
      (fun k' hk' => (hksfacts k' hk').2.1) hnl
    rw [(hdec x).1, (hdec x).2, huntouched, stageA_getD c hx]
    unfold init_node
    rw [if_neg hxh]
    constructor
    · exact getD_replicate_of_lt _ _ hk
    · exact getD_replicate_of_lt _ _ hk
  refine ⟨?_, ?_, ?_, hnonhub⟩
  · rw [(hdec _).1, (hdec _).2]
    exact ⟨hspec.1.1, hspec.1.2⟩
  · intro i hi1 hi2
    rw [(hdec _).1, (hdec _).2, (hdec _).2]
    exact ⟨(hspec.2 i hi1 hi2).1, (hspec.2 i hi1 hi2).2⟩
  · intro x hx hxne
    by_cases hxh : x % c.nodes_per_rack = 0
    · -- a hub: find its layout slot, which is positive
      have hxbase : x ∈ base_layout c := by
        refine mem_base_layout.mpr ⟨x / c.nodes_per_rack, ?_, ?_⟩
        · rw [Nat.div_lt_iff_lt_mul (by omega)]
          exact hx
        · exact (Nat.div_mul_cancel (Nat.dvd_of_mod_eq_zero hxh)).symm
      have hxl : x ∈ ls.getD k [] := (tree_layout_perm (hlsk k hk)).mem_iff.mpr hxbase
      obtain ⟨h, hhlt, hgetD⟩ := mem_getD_of_mem hxl
      have hh0 : h ≠ 0 := by
        intro h0
        subst h0
        exact hxne hgetD.symm
      have hfact := (hspec.2 h (by omega) (by omega)).1
      rw [(hdec x).1, ← hgetD]
      rw [hfact]
      intro hcon
      omega
    · intro hcon
      rw [(hnonhub x hx hxh).1] at hcon
      omega

/-- Witness for `c5_tree_shape` at the three-rack, two-nodes-per-rack
configuration. -/
theorem c5_tree_shape_witness :
    ∃ st, initState cfgPolicy1 = some st ∧
      (1 ≤ cfgPolicy1.fanout ∧ 1 ≤ cfgPolicy1.nodes_per_rack ∧ 1 ≤ cfgPolicy1.nracks) ∧
      ∀ k, k < cfgPolicy1.ntrees → ∃ l, tree_layout cfgPolicy1 k = some l ∧
        ((getNode st (l.getD 0 0)).p.getD k 0 = -1 ∧
         (getNode st (l.getD 0 0)).level.getD k 0 = 0) ∧
        (∀ i, 0 < i → i < cfgPolicy1.nracks →
          (getNode st (l.getD i 0)).p.getD k 0 =
            ((l.getD ((i - 1) / cfgPolicy1.fanout) 0 : Nat) : Int) ∧
          (getNode st (l.getD i 0)).level.getD k 0 =
            (getNode st (l.getD ((i - 1) / cfgPolicy1.fanout) 0)).level.getD k 0 + 1) ∧
        (∀ x, x < cfgPolicy1.total_nodes → x ≠ l.getD 0 0 →
          (getNode st x).p.getD k 0 ≠ -1) ∧
        (∀ x, x < cfgPolicy1.total_nodes → x % cfgPolicy1.nodes_per_rack ≠ 0 →
          (getNode st x).p.getD k 0 =
            ((x / cfgPolicy1.nodes_per_rack * cfgPolicy1.nodes_per_rack : Nat) : Int) ∧
          (getNode st x).level.getD k 0 = -1) := by
  refine ⟨(initState cfgPolicy1).get (by decide),
    (Option.some_get (by decide)).symm, ⟨by decide, by decide, by decide⟩, ?_⟩
  exact c5_tree_shape cfgPolicy1 _ (Option.some_get (by decide)).symm
    (by decide) (by decide) (by decide)

/-! ## C6: GC decoration values -/

theorem decorate_at_untouched (nds : List Node) (h i d : Nat) (x : Nat) (hx : x ≠ h) :
    (decorate_at nds h i d).getD x default = nds.getD x default := by
  unfold decorate_at
  exact getD_set_other hx _ _

/-- `decorate_at` with the same index and value preserves an established
`gc[i] = true, gc_delay[i] = d`. -/
theorem decorate_at_keeps_same (nds : List Node) (h i d : Nat) (x : Nat)
    (hgc : (nds.getD x default).gc.getD i false = true)
    (hgd : (nds.getD x default).gc_delay.getD i 0 = d)
    (hlen1 : i < (nds.getD x default).gc.length)
    (hlen2 : i < (nds.getD x default).gc_delay.length) :
    ((decorate_at nds h i d).getD x default).gc.getD i false = true ∧
    ((decorate_at nds h i d).getD x default).gc_delay.getD i 0 = d := by
  unfold decorate_at
  by_cases hx : x = h
  · subst hx
    by_cases hxl : x < nds.length
    · rw [getD_set_self hxl]
      exact ⟨getD_set_self hlen1 _ _, getD_set_self hlen2 _ _⟩
    · rw [List.set_eq_of_length_le (by omega)]
      exact ⟨hgc, hgd⟩
  · rw [getD_set_other hx]
    exact ⟨hgc, hgd⟩

/-- `decorate_at` at another tree index preserves tree `i`'s entries. -/
theorem decorate_at_keeps_other (nds : List Node) (h i' d : Nat) (x i : Nat)
    (hne : i ≠ i') :
    ((decorate_at nds h i' d).getD x default).gc.getD i false =
      (nds.getD x default).gc.getD i false ∧
    ((decorate_at nds h i' d).getD x default).gc_delay.getD i 0 =
      (nds.getD x default).gc_delay.getD i 0 := by
  unfold decorate_at
  by_cases hx : x = h
  · subst hx
    by_cases hxl : x < nds.length
    · rw [getD_set_self hxl]
      exact ⟨getD_set_other hne _ _, getD_set_other hne _ _⟩
    · rw [List.set_eq_of_length_le (by omega)]
      exact ⟨rfl, rfl⟩
  · rw [getD_set_other hx]
    exact ⟨rfl, rfl⟩

theorem decorate_at_gc_length (nds : List Node) (h i d : Nat) (x : Nat) :
    ((decorate_at nds h i d).getD x default).gc.length =
      (nds.getD x default).gc.length ∧
    ((decorate_at nds h i d).getD x default).gc_delay.length =
      (nds.getD x default).gc_delay.length := by
  have hfr := decorate_at_framedGC nds h i d x
  exact ⟨hfr.2.2.2.2.2.2.2.2.2.2.2.2.2.2.2.2.1, hfr.2.2.2.2.2.2.2.2.2.2.2.2.2.2.2.2.2⟩

/-- A whole pass of same-index, same-value `decorate_at`s preserves an
established entry. -/
theorem decorate_fold_keeps_same (i d : Nat) (hs : Nat → Nat) :
    ∀ (js : List Nat) (nds : List Node) (x : Nat),
      ((nds.getD x default).gc.getD i false = true ∧
       (nds.getD x default).gc_delay.getD i 0 = d) →
      i < (nds.getD x default).gc.length → i < (nds.getD x default).gc_delay.length →
      ((js.foldl (fun nds j => decorate_at nds (hs j) i d) nds).getD x
          default).gc.getD i false = true ∧
      ((js.foldl (fun nds j => decorate_at nds (hs j) i d) nds).getD x
          default).gc_delay.getD i 0 = d
  | [], _, _, h, _, _ => h
  | j :: js, nds, x, h, hl1, hl2 => by
    simp only [List.foldl_cons]
    have hstep := decorate_at_keeps_same nds (hs j) i d x h.1 h.2 hl1 hl2
    have hlen := decorate_at_gc_length nds (hs j) i d x
    exact decorate_fold_keeps_same i d hs js _ x hstep
      (by rw [hlen.1]; exact hl1) (by rw [hlen.2]; exact hl2)

/-- One pass establishes the entry at every node it addresses. -/
theorem decorate_fold_establishes (i d : Nat) (hs : Nat → Nat) :
    ∀ (js : List Nat) (nds : List Node),
      (∀ x, x < nds.length → i < (nds.getD x default).gc.length ∧
                             i < (nds.getD x default).gc_delay.length) →
      (∀ j ∈ js, hs j < nds.length) →
      ∀ j ∈ js,
        ((js.foldl (fun nds j => decorate_at nds (hs j) i d) nds).getD (hs j)
            default).gc.getD i false = true ∧
        ((js.foldl (fun nds j => decorate_at nds (hs j) i d) nds).getD (hs j)
            default).gc_delay.getD i 0 = d
  | [], _, _, _, j, hj => absurd hj (List.not_mem_nil j)
  | j0 :: js, nds, hinv, hbound, j, hj => by
    have hnds1len : (decorate_at nds (hs j0) i d).length = nds.length :=
      decorate_at_length nds (hs j0) i d
    have hinv1 : ∀ x, x < (decorate_at nds (hs j0) i d).length →
        i < ((decorate_at nds (hs j0) i d).getD x default).gc.length ∧
        i < ((decorate_at nds (hs j0) i d).getD x default).gc_delay.length := by
      intro x hx
      have hlen := decorate_at_gc_length nds (hs j0) i d x
      rw [hnds1len] at hx
      exact ⟨by rw [hlen.1]; exact (hinv x hx).1, by rw [hlen.2]; exact (hinv x hx).2⟩
    rcases List.mem_cons.mp hj with rfl | hjs
    · -- established by the head step, preserved by the rest
      have hstep : ((decorate_at nds (hs j) i d).getD (hs j) default).gc.getD i false
          = true ∧
          ((decorate_at nds (hs j) i d).getD (hs j) default).gc_delay.getD i 0 = d := by
        unfold decorate_at
        rw [getD_set_self (hbound j (by simp))]
        exact ⟨getD_set_self (hinv _ (hbound j (by simp))).1 _ _,
               getD_set_self (hinv _ (hbound j (by simp))).2 _ _⟩
      simp only [List.foldl_cons]
      exact decorate_fold_keeps_same i d hs js _ (hs j) hstep
        (hinv1 _ (by rw [hnds1len]; exact hbound j (by simp))).1
        (hinv1 _ (by rw [hnds1len]; exact hbound j (by simp))).2
    · simp only [List.foldl_cons]
      exact decorate_fold_establishes i d hs js _ hinv1
        (fun j' hj' => by rw [hnds1len]; exact hbound j' (List.mem_cons_of_mem _ hj'))
        j hjs

theorem decorate_fold_keeps_other (i' d : Nat) (hs : Nat → Nat) (i : Nat) (hne : i ≠ i') :
    ∀ (js : List Nat) (nds : List Node) (x : Nat),
      ((js.foldl (fun nds j => decorate_at nds (hs j) i' d) nds).getD x
          default).gc.getD i false = (nds.getD x default).gc.getD i false ∧
      ((js.foldl (fun nds j => decorate_at nds (hs j) i' d) nds).getD x
          default).gc_delay.getD i 0 = (nds.getD x default).gc_delay.getD i 0
  | [], _, _ => ⟨rfl, rfl⟩
  | j :: js, nds, x => by
    simp only [List.foldl_cons]
    have hstep := decorate_at_keeps_other nds (hs j) i' d x i hne
    have hrest := decorate_fold_keeps_other i' d hs i hne js (decorate_at nds (hs j) i' d) x
    exact ⟨hrest.1.trans hstep.1, hrest.2.trans hstep.2⟩

/-- The outer policy-1 fold: each processed tree `i` decorates every node
its layout addresses with `(true, d)` at index `i`. -/
theorem decorate1_outer_spec (c : Config) (ls : List (List Nat)) (d : Nat) :
    ∀ (trs : List Nat) (nds : List Node),
      trs.Nodup →
      nds.length = c.total_nodes →
      (∀ x, x < c.total_nodes → (nds.getD x default).gc.length = c.ntrees ∧
        (nds.getD x default).gc_delay.length = c.ntrees) →
      (∀ i ∈ trs, i < c.ntrees ∧ ∀ j, j < c.nracks →
        (ls.getD i []).getD j 0 < c.total_nodes) →
      ∀ i ∈ trs, ∀ j, j < c.nracks →
        (((trs.foldl (fun nds i => (List.range c.nracks).foldl
            (fun nds j => decorate_at nds ((ls.getD i []).getD j 0) i d) nds) nds).getD
            ((ls.getD i []).getD j 0) default).gc.getD i false = true ∧
         ((trs.foldl (fun nds i => (List.range c.nracks).foldl
            (fun nds j => decorate_at nds ((ls.getD i []).getD j 0) i d) nds) nds).getD
            ((ls.getD i []).getD j 0) default).gc_delay.getD i 0 = d)
  | [], _, _, _, _, _, i, hi => absurd hi (List.not_mem_nil i)
  | i0 :: trs, nds, hnodup, hlen, hgcl, htrs, i, hi => by
    have hi0 := htrs i0 (by simp)
    have hnds1len : ((List.range c.nracks).foldl
        (fun nds j => decorate_at nds ((ls.getD i0 []).getD j 0) i0 d) nds).length
        = c.total_nodes := by
      rw [foldl_length_of _ (fun nds j => decorate_at_length nds _ _ _), hlen]
    have hnds1gcl : ∀ x, x < c.total_nodes →
        (((List.range c.nracks).foldl
          (fun nds j => decorate_at nds ((ls.getD i0 []).getD j 0) i0 d) nds).getD x
          default).gc.length = c.ntrees ∧
        (((List.range c.nracks).foldl
          (fun nds j => decorate_at nds ((ls.getD i0 []).getD j 0) i0 d) nds).getD x
          default).gc_delay.length = c.ntrees := by
      intro x hx
      have hfr := foldl_framedGC
        (fun nds j => decorate_at nds ((ls.getD i0 []).getD j 0) i0 d)
        (fun nds j x => decorate_at_framedGC nds ((ls.getD i0 []).getD j 0) i0 d x)
        (List.range c.nracks) nds x
      obtain ⟨_, _, _, _, _, _, _, _, _, _, _, _, _, _, _, _, f17, f18⟩ := hfr
      exact ⟨f17.trans (hgcl x hx).1, f18.trans (hgcl x hx).2⟩
    rcases List.mem_cons.mp hi with rfl | hirest
    · -- tree `i` is decorated first; later trees write other indices
      intro j hj
      have hest := decorate_fold_establishes i d (fun j => (ls.getD i []).getD j 0)
        (List.range c.nracks) nds
        (fun x hx => by
          rw [hlen] at hx
          exact ⟨by rw [(hgcl x hx).1]; exact hi0.1, by rw [(hgcl x hx).2]; exact hi0.1⟩)
        (fun j' hj' => by rw [hlen]; exact hi0.2 j' (List.mem_range.mp hj'))
        j (List.mem_range.mpr hj)
      simp only [List.foldl_cons]
      -- preservation through the remaining outer passes
      have hkeep : ∀ (trs' : List Nat) (nds' : List Node) (x : Nat),
          (∀ i' ∈ trs', i' ≠ i) →
          (((trs'.foldl (fun nds i' => (List.range c.nracks).foldl
              (fun nds j => decorate_at nds ((ls.getD i' []).getD j 0) i' d) nds)
              nds').getD x default).gc.getD i false =
            (nds'.getD x default).gc.getD i false) ∧
          (((trs'.foldl (fun nds i' => (List.range c.nracks).foldl
              (fun nds j => decorate_at nds ((ls.getD i' []).getD j 0) i' d) nds)
              nds').getD x default).gc_delay.getD i 0 =
            (nds'.getD x default).gc_delay.getD i 0) := by
        intro trs'
        induction trs' with
        | nil => exact fun _ _ _ => ⟨rfl, rfl⟩
        | cons i1 trs' ih =>
          intro nds' x hne
          simp only [List.foldl_cons]
          have hstep := decorate_fold_keeps_other i1 d (fun j => (ls.getD i1 []).getD j 0)
            i (Ne.symm (hne i1 (by simp))) (List.range c.nracks) nds' x
          have hrest := ih ((List.range c.nracks).foldl
              (fun nds j => decorate_at nds ((ls.getD i1 []).getD j 0) i1 d) nds') x
            (fun i' hi' => hne i' (List.mem_cons_of_mem _ hi'))
          exact ⟨hrest.1.trans hstep.1, hrest.2.trans hstep.2⟩
      have hne : ∀ i' ∈ trs, i' ≠ i := by
        intro i' hi' he
        subst he
        exact (List.nodup_cons.mp hnodup).1 hi'
      obtain ⟨hk1, hk2⟩ := hkeep trs
        ((List.range c.nracks).foldl
          (fun nds j => decorate_at nds ((ls.getD i []).getD j 0) i d) nds)
        ((ls.getD i []).getD j 0) hne
      exact ⟨hk1.trans hest.1, hk2.trans hest.2⟩
    · simp only [List.foldl_cons]
      exact decorate1_outer_spec c ls d trs _ (List.nodup_cons.mp hnodup).2 hnds1len
        hnds1gcl (fun i' hi' => htrs i' (List.mem_cons_of_mem _ hi')) i hirest

theorem linkfold_gc (c : Config) (ls : List (List Nat)) (hf : 1 ≤ c.fanout) :
    ∀ (ks : List Nat) (nds : List Node) (x : Nat),
      ((ks.foldl (fun nds k' => link_tree c k' (ls.getD k' []) nds) nds).getD x
          default).gc = (nds.getD x default).gc ∧
      ((ks.foldl (fun nds k' => link_tree c k' (ls.getD k' []) nds) nds).getD x
          default).gc_delay = (nds.getD x default).gc_delay
  | [], _, _ => ⟨rfl, rfl⟩
  | k0 :: rest, nds, x => by
    simp only [List.foldl_cons]
    have hfr := link_tree_framed c k0 (ls.getD k0 []) hf nds x
    have hrest := linkfold_gc c ls hf rest (link_tree c k0 (ls.getD k0 []) nds) x
    exact ⟨hrest.1.trans hfr.2.2.1, hrest.2.trans hfr.2.2.2.1⟩

/-- Any fold of `decorate_at`-shaped steps leaves unaddressed nodes
untouched. -/
theorem decorate_fold_untouched {β : Type} (hs : β → Nat) (ii : β → Nat)
    (dd : List Node → β → Nat) :
    ∀ (js : List β) (nds : List Node) (x : Nat), (∀ j ∈ js, hs j ≠ x) →
      ((js.foldl (fun nds j => decorate_at nds (hs j) (ii j) (dd nds j)) nds).getD x
        default) = nds.getD x default
  | [], _, _, _ => rfl
  | j :: js, nds, x, hx => by
    simp only [List.foldl_cons]
    rw [decorate_fold_untouched hs ii dd js _ x
      (fun j' hj' => hx j' (List.mem_cons_of_mem _ hj'))]
    exact decorate_at_untouched nds (hs j) (ii j) (dd nds j) x (Ne.symm (hx j (by simp)))

/-- `gc_decorate` leaves nodes outside every layout untouched, for every
policy. -/
theorem gc_decorate_untouched (c : Config) (ls : List (List Nat)) (nds : List Node)
    (x : Nat) (hx : ∀ i j, (ls.getD i []).getD j 0 ≠ x) :
    (gc_decorate c ls nds).getD x default = nds.getD x default := by
  have houter1 : ∀ (d : Nat) (trs : List Nat) (nds : List Node),
      ((trs.foldl (fun nds i => (List.range c.nracks).foldl
        (fun nds j => decorate_at nds ((ls.getD i []).getD j 0) i d) nds) nds).getD x
        default) = nds.getD x default := by
    intro d trs
    induction trs with
    | nil => exact fun _ => rfl
    | cons i trs ih =>
      intro nds
      simp only [List.foldl_cons]
      rw [ih]
      exact decorate_fold_untouched (fun j => (ls.getD i []).getD j 0) (fun _ => i)
        (fun _ _ => d) (List.range c.nracks) nds x (fun j _ => hx i j)
  have houter23 : ∀ (factor : Int → Int) (denom : Nat) (trs : List Nat) (nds : List Node),
      ((trs.foldl (fun nds i => (List.range c.nracks).foldl
        (fun nds j => decorate_at nds ((ls.getD i []).getD j 0) i
          (delay23 c.gc_acc_delay denom
            (factor ((nds.getD ((ls.getD i []).getD j 0) default).level.getD i 0)))) nds)
        nds).getD x default) = nds.getD x default := by
    intro factor denom trs
    induction trs with
    | nil => exact fun _ => rfl
    | cons i trs ih =>
      intro nds
      simp only [List.foldl_cons]
      rw [ih]
      exact decorate_fold_untouched (fun j => (ls.getD i []).getD j 0) (fun _ => i)
        (fun nds j => delay23 c.gc_acc_delay denom
          (factor ((nds.getD ((ls.getD i []).getD j 0) default).level.getD i 0)))
        (List.range c.nracks) nds x (fun j _ => hx i j)
  unfold gc_decorate
  rcases c.gc_policy with _ | _ | _ | _ | n
  · rfl
  · exact houter1 (c.gc_acc_delay / get_tree_levels c.fanout c.nracks)
      (List.range c.ntrees) nds
  · exact houter23 (fun lvl => ((get_tree_levels c.fanout c.nracks : Int)) - lvl)
      ((get_tree_levels c.fanout c.nracks + 1) * get_tree_levels c.fanout c.nracks / 2)
      (List.range c.ntrees) nds
  · exact houter23 (fun lvl => lvl + 1)
      ((get_tree_levels c.fanout c.nracks + 1) * get_tree_levels c.fanout c.nracks / 2)
      (List.range c.ntrees) nds
  · rfl

theorem getD_replicate_self {α : Type} (a : α) : ∀ (n i : Nat),
    (List.replicate n a).getD i a = a
  | 0, _ => rfl
  | n + 1, 0 => rfl
  | n + 1, i + 1 => by
    rw [List.replicate_succ]
    simpa using getD_replicate_self a n i

theorem init_node_gc (c : Config) (i : Nat) :
    (init_node c i).gc = List.replicate c.ntrees false ∧
    (init_node c i).gc_delay = List.replicate c.ntrees 0 := by
  unfold init_node
  by_cases h : i % c.nodes_per_rack = 0 <;> simp [h]

theorem gc_decorate_policy1_eq (c : Config) (ls : List (List Nat)) (nds : List Node)
    (hpol : c.gc_policy = 1) : gc_decorate c ls nds = decorate_policy1 c ls nds := by
  unfold gc_decorate
  rw [hpol]

/-- C6, amended.  After init: under `gc_policy = 1` every rack hub has
`gc[k] = true` and `gc_delay[k] = gc_acc_delay / L` (truncated) on every
tree `k`, where `L = get_tree_levels(fanout, nracks)` is the value the
program's double-precision `ceil(log((fanout-1)*R + 1) / log(fanout))`
computes — NOT the exact ceiling logarithm the claim states, which the
double computation overshoots by one when `(fanout-1)*R + 1` is an exact
power of the fanout (see `c6_counterexample`); and under every policy,
every non-hub node keeps `gc[k] = false` and `gc_delay[k] = 0` on every
tree. -/
theorem c6_gc_decoration (c : Config) (st : SimState) (hinit : initState c = some st)
    (hf : 1 ≤ c.fanout) (hnpr : 1 ≤ c.nodes_per_rack) (hR1 : 1 ≤ c.nracks) :
    (c.gc_policy = 1 →
      ∀ x, x < c.total_nodes → x % c.nodes_per_rack = 0 → ∀ k, k < c.ntrees →
        (getNode st x).gc.getD k false = true ∧
        (getNode st x).gc_delay.getD k 0 =
          c.gc_acc_delay / get_tree_levels c.fanout c.nracks) ∧
    (∀ x, x < c.total_nodes → x % c.nodes_per_rack ≠ 0 → ∀ k,
      (getNode st x).gc.getD k false = false ∧ (getNode st x).gc_delay.getD k 0 = 0) := by
  obtain ⟨ls, hls, hnodes, _, _, _⟩ := initState_elim hinit
  obtain ⟨hlslen, hlsk⟩ := layouts_spec hls
  have hBlen : ((List.range c.ntrees).foldl
      (fun nds k' => link_tree c k' (ls.getD k' []) nds) (stageA c)).length
      = c.total_nodes := by
    rw [linkfold_length c ls hf, stageA_length]
  have hBgc : ∀ x, x < c.total_nodes →
      (((List.range c.ntrees).foldl (fun nds k' => link_tree c k' (ls.getD k' []) nds)
        (stageA c)).getD x default).gc = List.replicate c.ntrees false ∧
      (((List.range c.ntrees).foldl (fun nds k' => link_tree c k' (ls.getD k' []) nds)
        (stageA c)).getD x default).gc_delay = List.replicate c.ntrees 0 := by
    intro x hx
    have hlf := linkfold_gc c ls hf (List.range c.ntrees) (stageA c) x
    rw [hlf.1, hlf.2, stageA_getD c hx]
    exact init_node_gc c x
  constructor
  · intro hpol x hx hxh k hk
    have hxbase : x ∈ base_layout c := by
      refine mem_base_layout.mpr ⟨x / c.nodes_per_rack, ?_, ?_⟩
      · rw [Nat.div_lt_iff_lt_mul (by omega)]
        exact hx
      · exact (Nat.div_mul_cancel (Nat.dvd_of_mod_eq_zero hxh)).symm
    have hxl : x ∈ ls.getD k [] := (tree_layout_perm (hlsk k hk)).mem_iff.mpr hxbase
    obtain ⟨j, hjlt, hjx⟩ := mem_getD_of_mem hxl
    have hjR : j < c.nracks := by
      rw [(tree_layout_facts (hlsk k hk) hnpr).1] at hjlt
      exact hjlt
    have hspec := decorate1_outer_spec c ls
      (c.gc_acc_delay / get_tree_levels c.fanout c.nracks) (List.range c.ntrees)
      ((List.range c.ntrees).foldl (fun nds k' => link_tree c k' (ls.getD k' []) nds)
        (stageA c))
      (List.nodup_range _) hBlen
      (fun x hx => by rw [(hBgc x hx).1, (hBgc x hx).2]; simp)
      (fun i hi => by
        have hilt := List.mem_range.mp hi
        refine ⟨hilt, ?_⟩
        intro j hj
        have hjl : j < (ls.getD i []).length := by
          rw [(tree_layout_facts (hlsk i hilt) hnpr).1]; exact hj
        exact ((tree_layout_facts (hlsk i hilt) hnpr).2.2 _ (getD_mem hjl)).1)
      k (List.mem_range.mpr hk) j hjR
    unfold getNode
    rw [hnodes, gc_decorate_policy1_eq c ls _ hpol]
    unfold decorate_policy1
    rw [← hjx]
    exact hspec
  · intro x hx hxh k
    have hnx : ∀ i j, (ls.getD i []).getD j 0 ≠ x := by
      intro i j he
      by_cases hi : i < ls.length
      · by_cases hj : j < (ls.getD i []).length
        · have hm : (ls.getD i []).getD j 0 ∈ ls.getD i [] := getD_mem hj
          rw [he] at hm
          exact hxh ((tree_layout_facts (hlsk i (by omega)) hnpr).2.2 x hm).2
        · rw [List.getD_eq_default _ _ (by omega)] at he
          apply hxh
          rw [← he]
          simp
      · rw [show ls.getD i [] = [] from List.getD_eq_default _ _ (by omega)] at he
        simp only [List.getD_nil] at he
        apply hxh
        rw [← he]
        simp
    unfold getNode
    rw [hnodes, gc_decorate_untouched c ls _ x hnx]
    rw [(hBgc x hx).1, (hBgc x hx).2]
    constructor
    · exact getD_replicate_self false _ _
    · exact getD_replicate_self 0 _ _

/-- Witness for `c6_gc_decoration` at the three-rack policy-1 setup. -/
theorem c6_gc_decoration_witness :
    ∃ st, initState cfgPolicy1 = some st ∧
      ((cfgPolicy1.gc_policy = 1 →
        ∀ x, x < cfgPolicy1.total_nodes → x % cfgPolicy1.nodes_per_rack = 0 →
          ∀ k, k < cfgPolicy1.ntrees →
            (getNode st x).gc.getD k false = true ∧
            (getNode st x).gc_delay.getD k 0 =
              cfgPolicy1.gc_acc_delay /
                get_tree_levels cfgPolicy1.fanout cfgPolicy1.nracks) ∧
       (∀ x, x < cfgPolicy1.total_nodes → x % cfgPolicy1.nodes_per_rack ≠ 0 → ∀ k,
         (getNode st x).gc.getD k false = false ∧ (getNode st x).gc_delay.getD k 0 = 0)) :=
  ⟨(initState cfgPolicy1).get (by decide), (Option.some_get (by decide)).symm,
   c6_gc_decoration cfgPolicy1 _ (Option.some_get (by decide)).symm
     (by decide) (by decide) (by decide)⟩

set_option maxRecDepth 16384 in
/-- C6 counterexample to the claimed formula `L = ceil(log_fanout((fanout-1)*R+1))`:
at `fanout = 5`, `nracks = 31` (so `(fanout-1)*R + 1 = 125 = 5^3`) the
program's double computation yields 4 while the exact ceiling logarithm is
3, and the rack hub's stored `gc_delay` after init is `100 / 4 = 25`, not
the `100 / 3 = 33` the claim's formula gives. -/
theorem c6_counterexample :
    get_tree_levels cfgWide.fanout cfgWide.nracks = 4 ∧
    get_tree_levels_spec cfgWide.fanout cfgWide.nracks = 3 ∧
    (getNode ((initState cfgWide).get (by decide)) 0).gc.getD 0 false = true ∧
    (getNode ((initState cfgWide).get (by decide)) 0).gc_delay.getD 0 0 = 25 ∧
    ¬ (getNode ((initState cfgWide).get (by decide)) 0).gc_delay.getD 0 0 =
        cfgWide.gc_acc_delay / get_tree_levels_spec cfgWide.fanout cfgWide.nracks := by
  refine ⟨by decide, by decide, by decide, by decide, by decide⟩

/-! ## Simulation: state-operation helpers -/

theorem getNode_setNode_other (st : SimState) (i : Nat) (nd : Node) {x : Nat}
    (h : x ≠ i) : getNode (setNode st i nd) x = getNode st x := by
  unfold getNode setNode
  exact getD_set_other h _ _

theorem getNode_setNode_self (st : SimState) (i : Nat) (nd : Node)
    (h : i < st.nodes.length) : getNode (setNode st i nd) i = nd := by
  unfold getNode setNode
  exact getD_set_self h _ _

theorem getNode_setNode_oob (st : SimState) (i : Nat) (nd : Node)
    (h : ¬ i < st.nodes.length) : (setNode st i nd).nodes = st.nodes := by
  unfold setNode
  show st.nodes.set i nd = st.nodes
  exact List.set_eq_of_length_le (by omega)

theorem setNode_length (st : SimState) (i : Nat) (nd : Node) :
    (setNode st i nd).nodes.length = st.nodes.length := by
  unfold setNode; simp

/-- Updating node `i` with a node of equal statics preserves every node's
statics. -/
theorem setNode_statics (st : SimState) (i : Nat) (nd : Node)
    (h : staticsOf nd = staticsOf (getNode st i)) (x : Nat) :
    staticsOf (getNode (setNode st i nd) x) = staticsOf (getNode st x) := by
  by_cases hx : x = i
  · subst hx
    by_cases hb : x < st.nodes.length
    · rw [getNode_setNode_self st x nd hb, h]
    · unfold getNode
      rw [getNode_setNode_oob st x nd hb]
  · rw [getNode_setNode_other st i nd hx]

/-! ## Simulation: the phases never write the static fields -/

theorem admit_one_statics (c : Config) (t : Nat) (nd : Node) (m : Message) :
    staticsOf (admit_one c t nd m) = staticsOf nd := rfl

theorem admit_loop_statics (c : Config) (t : Nat) :
    ∀ (fuel : Nat) (nd : Node), staticsOf (admit_loop c t fuel nd) = staticsOf nd
  | 0, _ => rfl
  | fuel + 1, nd => by
    show staticsOf (match pqTop nd.q with
      | none => nd
      | some m => if nd.in_ + c.msg_size ≤ nd.in_limit
          then admit_loop c t fuel (admit_one c t nd m) else nd) = staticsOf nd
    rcases pqTop nd.q with _ | m
    · rfl
    · dsimp only
      by_cases h : nd.in_ + c.msg_size ≤ nd.in_limit
      · rw [if_pos h, admit_loop_statics c t fuel (admit_one c t nd m)]
        rfl
      · rw [if_neg h]

theorem phase1_statics (c : Config) (t : Nat) (nd : Node) :
    staticsOf (phase1 c t nd) = staticsOf nd := by
  unfold phase1
  have h1 := admit_loop_statics c t ({ nd with in_ := 0, out_ := 0 } : Node).q.length
    { nd with in_ := 0, out_ := 0 }
  exact congrArg (fun s => s) h1

theorem gen_one_statics (c : Config) (t : Nat) (key : Int) (j : Nat) (nd : Node) :
    staticsOf (gen_one c t key j nd) = staticsOf nd := rfl

theorem gen_fold_statics (c : Config) (keys : Nat → Int) (t : Nat) :
    ∀ (js : List Nat) (p : Node × Nat),
      staticsOf (js.foldl (fun (p : Node × Nat) j => (gen_one c t (keys p.2) j p.1, p.2 + 1))
        p).1 = staticsOf p.1
  | [], _ => rfl
  | j :: js, p => by
    simp only [List.foldl_cons]
    rw [gen_fold_statics c keys t js _]
    rfl

theorem phase2_statics (c : Config) (keys : Nat → Int) (t : Nat) (nd : Node) (cur : Nat) :
    staticsOf (phase2 c keys t nd cur).1 = staticsOf nd := by
  unfold phase2
  have h := gen_fold_statics c keys t (List.range nd.msgs_per_tick) (nd, cur)
  exact h

theorem phase3_statics (c : Config) (t : Nat) (nd : Node) :
    staticsOf (phase3 c t nd) = staticsOf nd := by
  unfold phase3
  generalize List.range c.ntrees = js
  induction js generalizing nd with
  | nil => rfl
  | cons tree js ih =>
    simp only [List.foldl_cons]
    rw [ih]
    by_cases h : (nd.gc.getD tree false ∧ t % c.gc_period = 0 ∧ nd.buf.getD tree [] ≠ [])
    · rw [if_pos h]
      rfl
    · rw [if_neg h]

theorem phase123_statics (c : Config) (keys : Nat → Int) (t : Nat) (nd : Node) (cur : Nat) :
    staticsOf (phase123 c keys t nd cur).1 = staticsOf nd := by
  unfold phase123
  rw [phase3_statics, phase2_statics, phase1_statics]

theorem process_statics (c : Config) (keys : Nat → Int) (t : Nat) :
    ∀ (js : List Nat) (st : SimState) (x : Nat),
      staticsOf (getNode (js.foldl (fun st i =>
        { st with nodes := st.nodes.set i (phase123 c keys t (getNode st i) st.cursor).1,
                  cursor := (phase123 c keys t (getNode st i) st.cursor).2,
                  total_generated := st.total_generated + (getNode st i).msgs_per_tick })
        st) x) = staticsOf (getNode st x)
  | [], _, _ => rfl
  | i :: js, st, x => by
    simp only [List.foldl_cons]
    rw [process_statics c keys t js _ x]
    show staticsOf ((st.nodes.set i (phase123 c keys t (getNode st i) st.cursor).1).getD
      x default) = staticsOf (getNode st x)
    by_cases hx : x = i
    · subst hx
      by_cases hb : x < st.nodes.length
      · rw [getD_set_self hb]
        exact phase123_statics c keys t (getNode st x) st.cursor
      · rw [List.set_eq_of_length_le (by omega)]
        rfl
    · rw [getD_set_other hx]
      rfl

theorem drop_stage_statics (st : SimState) (i k : Nat) (x : Nat) :
    staticsOf (getNode (drop_stage st i k) x) = staticsOf (getNode st x) := by
  unfold drop_stage
  refine setNode_statics st i _ ?_ x
  rfl

theorem pushQ_statics (st : SimState) (j : Nat) (m : Message) (x : Nat) :
    staticsOf (getNode (pushQ st j m) x) = staticsOf (getNode st x) := by
  unfold pushQ
  refine setNode_statics st j _ ?_ x
  rfl

theorem ghost_eff_getNode (st : SimState) (v : Int) (x : Nat) :
    getNode { st with total_eff_root := v } x = getNode st x := rfl

theorem emit_send_statics (c : Config) (st : SimState) (i k : Nat) (m : Message)
    (rest : List Message) (x : Nat) :
    staticsOf (getNode (emit_send c st i k m rest) x) = staticsOf (getNode st x) := by
  unfold emit_send
  by_cases hp : (getNode st i).p.getD k 0 = -1
  · rw [if_pos hp]
    refine Eq.trans (setNode_statics { st with total_eff_root := st.total_eff_root + m.eff_size } i _ ?_ x) ?_
    · rfl
    · rfl
  · rw [if_neg hp]
    refine Eq.trans (setNode_statics (pushQ st ((getNode st i).p.getD k 0).toNat m) i _ ?_ x)
      (pushQ_statics st _ m x)
    rfl

theorem emit_tree_statics (c : Config) (t : Nat) (i : Nat) (st : SimState) (k : Nat)
    (x : Nat) :
    staticsOf (getNode (emit_tree c t i st k).1 x) = staticsOf (getNode st x) := by
  unfold emit_tree
  rcases dropTombs ((getNode st i).buf.getD k []) with _ | ⟨m, rest⟩
  · exact drop_stage_statics st i k x
  · dsimp only
    by_cases hc : m.time ≤ (t : Int) ∧
        (getNode st i).out_ + c.msg_size ≤ (getNode st i).out_limit
    · rw [if_pos hc]
      exact (emit_send_statics c (drop_stage st i k) i k m rest x).trans
        (drop_stage_statics st i k x)
    · rw [if_neg hc]
      exact drop_stage_statics st i k x

theorem emit_pass_statics (c : Config) (t : Nat) (i : Nat) :
    ∀ (js : List Nat) (pr : SimState × Bool) (x : Nat),
      staticsOf (getNode (js.foldl (fun (p : SimState × Bool) k =>
        ((emit_tree c t i p.1 k).1, p.2 || (emit_tree c t i p.1 k).2)) pr).1 x) =
      staticsOf (getNode pr.1 x)
  | [], _, _ => rfl
  | k :: js, pr, x => by
    simp only [List.foldl_cons]
    exact (emit_pass_statics c t i js _ x).trans (emit_tree_statics c t i pr.1 k x)

theorem emit_loop_statics (c : Config) (t : Nat) (i : Nat) :
    ∀ (fuel : Nat) (st : SimState) (x : Nat),
      staticsOf (getNode (emit_loop c t i fuel st) x) = staticsOf (getNode st x)
  | 0, _, _ => rfl
  | fuel + 1, st, x => by
    show staticsOf (getNode (if (emit_pass c t i st).2
      then emit_loop c t i fuel (emit_pass c t i st).1 else (emit_pass c t i st).1) x) = _
    have hpass : staticsOf (getNode (emit_pass c t i st).1 x) =
        staticsOf (getNode st x) := by
      unfold emit_pass
      exact emit_pass_statics c t i (List.range c.ntrees) (st, false) x
    by_cases hb : (emit_pass c t i st).2
    · rw [if_pos hb]
      exact (emit_loop_statics c t i fuel _ x).trans hpass
    · rw [if_neg hb]
      exact hpass

theorem phase4_statics (c : Config) (t : Nat) :
    ∀ (js : List Nat) (st : SimState) (x : Nat),
      staticsOf (getNode (js.foldl (fun st i => phase4_node c t st i) st) x) =
      staticsOf (getNode st x)
  | [], _, _ => rfl
  | i :: js, st, x => by
    simp only [List.foldl_cons]
    exact (phase4_statics c t js _ x).trans (emit_loop_statics c t i _ st x)

theorem reset_per_sec_default : reset_per_sec default = default := rfl

theorem getNode_write_log (st : SimState) (x : Nat) :
    getNode (write_log st) x = reset_per_sec (getNode st x) := by
  unfold write_log getNode
  show (st.nodes.map reset_per_sec).getD x default = _
  rw [show (default : Node) = reset_per_sec default from rfl, List.getD_map]
  rfl

theorem tick_step_statics (c : Config) (keys : Nat → Int) (st : SimState) (t : Nat)
    (x : Nat) :
    staticsOf (getNode (tick_step c keys st t) x) = staticsOf (getNode st x) := by
  unfold tick_step phase4
  refine Eq.trans (phase4_statics c t (List.range c.total_nodes)
    (process_messages_by_node c keys t st) x) ?_
  unfold process_messages_by_node
  exact process_statics c keys t (List.range c.total_nodes) st x

theorem tick_statics (c : Config) (keys : Nat → Int) (st : SimState) (t : Nat) (x : Nat) :
    staticsOf (getNode (tick_step_log c keys st t) x) = staticsOf (getNode st x) := by
  unfold tick_step_log
  by_cases hl : (t ≠ 0 ∧ t % c.ticks = 0)
  · rw [if_pos hl, getNode_write_log]
    exact (show staticsOf (reset_per_sec (getNode (tick_step c keys st t) x)) =
      staticsOf (getNode (tick_step c keys st t) x) from rfl).trans
      (tick_step_statics c keys st t x)
  · rw [if_neg hl]
    exact tick_step_statics c keys st t x

theorem run_statics (c : Config) (keys : Nat → Int) (st0 : SimState) :
    ∀ (n : Nat) (x : Nat),
      staticsOf (getNode (run_ticks c keys st0 n) x) = staticsOf (getNode st0 x)
  | 0, _ => rfl
  | n + 1, x => by
    show staticsOf (getNode (tick_step_log c keys (run_ticks c keys st0 n) n) x) = _
    rw [tick_statics]
    exact run_statics c keys st0 n x

/-! ### C10: the per-tick self-generation rate -/

theorem framedExcept_mpt {k : Nat} {nd nd' : Node} (h : framedExcept k nd nd') :
    nd'.msgs_per_tick = nd.msgs_per_tick := by
  obtain ⟨-, -, -, -, -, -, -, -, -, -, -, -, -, h14, -⟩ := h
  exact h14

theorem framedGC_mpt {nd nd' : Node} (h : framedGC nd nd') :
    nd'.msgs_per_tick = nd.msgs_per_tick := by
  obtain ⟨-, -, -, -, -, -, -, -, -, -, -, -, -, h14, -⟩ := h
  exact h14

theorem linkfold_mpt (c : Config) (ls : List (List Nat)) (hf : 1 ≤ c.fanout) :
    ∀ (ks : List Nat) (nds : List Node) (x : Nat),
      (((ks.foldl (fun nds k => link_tree c k (ls.getD k []) nds) nds)).getD
        x default).msgs_per_tick = (nds.getD x default).msgs_per_tick
  | [], _, _ => rfl
  | k :: ks, nds, x => by
    simp only [List.foldl_cons]
    exact (linkfold_mpt c ls hf ks _ x).trans
      (framedExcept_mpt (link_tree_framed c k (ls.getD k []) hf nds x))

theorem init_node_mpt (c : Config) (i : Nat) :
    (init_node c i).msgs_per_tick = c.msg_rate / c.ticks := by
  unfold init_node
  by_cases h : i % c.nodes_per_rack = 0 <;> simp [h]

/-- `init()` gives every node `msgs_per_tick = msg_rate / ticks`
(truncating `Nat` division). -/
theorem init_mpt (c : Config) (st : SimState) (hinit : initState c = some st)
    (hf : 1 ≤ c.fanout) (x : Nat) (hx : x < c.total_nodes) :
    (getNode st x).msgs_per_tick = c.msg_rate / c.ticks := by
  obtain ⟨ls, -, hnodes, -, -, -⟩ := initState_elim hinit
  show (st.nodes.getD x default).msgs_per_tick = _
  rw [hnodes]
  rw [framedGC_mpt (gc_decorate_framedGC c ls _ x)]
  rw [linkfold_mpt c ls hf (List.range c.ntrees) (stageA c) x]
  rw [stageA_getD c hx]
  exact init_node_mpt c x

theorem mpt_of_statics {nd nd' : Node} (h : staticsOf nd = staticsOf nd') :
    nd.msgs_per_tick = nd'.msgs_per_tick :=
  congrArg (fun s => s.2.2.2.2.2.2) h

/-- Phase 2 raises the ghost generation counter by exactly
`msgs_per_tick` per visited node. -/
theorem proc_fold_generated (c : Config) (keys : Nat → Int) (t : Nat) (M : Nat) :
    ∀ (js : List Nat) (st : SimState),
      (∀ x ∈ js, (getNode st x).msgs_per_tick = M) →
      (js.foldl (fun st i =>
        { st with nodes := st.nodes.set i (phase123 c keys t (getNode st i) st.cursor).1,
                  cursor := (phase123 c keys t (getNode st i) st.cursor).2,
                  total_generated := st.total_generated + (getNode st i).msgs_per_tick })
        st).total_generated = st.total_generated + js.length * M
  | [], st, _ => by simp
  | i :: js, st, h => by
    simp only [List.foldl_cons]
    refine (proc_fold_generated c keys t M js _ ?_).trans ?_
    · intro x hx
      exact (mpt_of_statics (process_statics c keys t [i] st x)).trans
        (h x (List.mem_cons_of_mem i hx))
    · have hi := h i (List.mem_cons_self i js)
      show st.total_generated + (getNode st i).msgs_per_tick + js.length * M
        = st.total_generated + (js.length + 1) * M
      rw [hi]
      have hm : (js.length + 1) * M = js.length * M + M := by
        rw [Nat.add_mul, Nat.one_mul]
      omega

theorem process_generated (c : Config) (keys : Nat → Int) (t : Nat) (st : SimState)
    (M : Nat) (h : ∀ x, x < c.total_nodes → (getNode st x).msgs_per_tick = M) :
    (process_messages_by_node c keys t st).total_generated
      = st.total_generated + c.total_nodes * M := by
  unfold process_messages_by_node
  rw [proc_fold_generated c keys t M (List.range c.total_nodes) st
    (fun x hx => h x (List.mem_range.mp hx))]
  rw [List.length_range]

theorem emit_send_generated (c : Config) (st : SimState) (i k : Nat) (m : Message)
    (rest : List Message) :
    (emit_send c st i k m rest).total_generated = st.total_generated := by
  unfold emit_send
  split <;> rfl

theorem emit_tree_generated (c : Config) (t : Nat) (i : Nat) (st : SimState) (k : Nat) :
    (emit_tree c t i st k).1.total_generated = st.total_generated := by
  unfold emit_tree
  rcases dropTombs ((getNode st i).buf.getD k []) with _ | ⟨m, rest⟩
  · rfl
  · dsimp only
    split
    · exact emit_send_generated c (drop_stage st i k) i k m rest
    · rfl

theorem emit_pass_fold_generated (c : Config) (t : Nat) (i : Nat) :
    ∀ (js : List Nat) (pr : SimState × Bool),
      ((js.foldl (fun (p : SimState × Bool) k =>
        ((emit_tree c t i p.1 k).1, p.2 || (emit_tree c t i p.1 k).2)) pr).1).total_generated
      = pr.1.total_generated
  | [], _ => rfl
  | k :: js, pr => by
    simp only [List.foldl_cons]
    exact (emit_pass_fold_generated c t i js _).trans (emit_tree_generated c t i pr.1 k)

theorem emit_loop_generated (c : Config) (t : Nat) (i : Nat) :
    ∀ (fuel : Nat) (st : SimState),
      (emit_loop c t i fuel st).total_generated = st.total_generated
  | 0, _ => rfl
  | fuel + 1, st => by
    show (if (emit_pass c t i st).2
      then emit_loop c t i fuel (emit_pass c t i st).1
      else (emit_pass c t i st).1).total_generated = _
    have hpass : (emit_pass c t i st).1.total_generated = st.total_generated := by
      unfold emit_pass
      exact emit_pass_fold_generated c t i (List.range c.ntrees) (st, false)
    by_cases hb : (emit_pass c t i st).2
    · rw [if_pos hb]
      exact (emit_loop_generated c t i fuel _).trans hpass
    · rw [if_neg hb]
      exact hpass

theorem phase4_generated (c : Config) (t : Nat) (st : SimState) :
    (phase4 c t st).total_generated = st.total_generated := by
  unfold phase4
  induction (List.range c.total_nodes) generalizing st with
  | nil => rfl
  | cons i js ih =>
    simp only [List.foldl_cons]
    exact (ih _).trans (emit_loop_generated c t i _ st)

theorem tick_step_generated (c : Config) (keys : Nat → Int) (st : SimState) (t : Nat)
    (M : Nat) (h : ∀ x, x < c.total_nodes → (getNode st x).msgs_per_tick = M) :
    (tick_step c keys st t).total_generated = st.total_generated + c.total_nodes * M := by
  unfold tick_step
  rw [phase4_generated c t (process_messages_by_node c keys t st)]
  exact process_generated c keys t st M h

theorem write_log_generated (st : SimState) :
    (write_log st).total_generated = st.total_generated := rfl

theorem tick_log_generated (c : Config) (keys : Nat → Int) (st : SimState) (t : Nat)
    (M : Nat) (h : ∀ x, x < c.total_nodes → (getNode st x).msgs_per_tick = M) :
    (tick_step_log c keys st t).total_generated = st.total_generated + c.total_nodes * M := by
  unfold tick_step_log
  by_cases hl : (t ≠ 0 ∧ t % c.ticks = 0)
  · rw [if_pos hl, write_log_generated]
    exact tick_step_generated c keys st t M h
  · rw [if_neg hl]
    exact tick_step_generated c keys st t M h

/-- The ghost generation counter grows by `total_nodes * M` per tick when
every node has `msgs_per_tick = M`. -/
theorem run_generated (c : Config) (keys : Nat → Int) (st0 : SimState) (M : Nat)
    (h : ∀ x, x < c.total_nodes → (getNode st0 x).msgs_per_tick = M) :
    ∀ (n : Nat), (run_ticks c keys st0 n).total_generated
      = st0.total_generated + n * (c.total_nodes * M)
  | 0 => by
    show st0.total_generated = st0.total_generated + 0 * (c.total_nodes * M)
    omega
  | n + 1 => by
    have hmpt : ∀ x, x < c.total_nodes →
        (getNode (run_ticks c keys st0 n) x).msgs_per_tick = M := fun x hx =>
      (mpt_of_statics (run_statics c keys st0 n x)).trans (h x hx)
    show (tick_step_log c keys (run_ticks c keys st0 n) n).total_generated = _
    rw [tick_log_generated c keys (run_ticks c keys st0 n) n M hmpt,
        run_generated c keys st0 M h n]
    have hm : (n + 1) * (c.total_nodes * M) = n * (c.total_nodes * M) + c.total_nodes * M := by
      rw [Nat.add_mul, Nat.one_mul]
    omega

/-- **C10.** Every node's per-tick generation count is
`msgs_per_tick = msg_rate / ticks` (truncating division), fixed at init and
constant over the whole run; `msg_rate < ticks` gives zero generation
forever, and one reported second generates
`total_nodes * ((msg_rate / ticks) * ticks)` messages, not
`total_nodes * msg_rate`. -/
theorem c10_generation (c : Config) (st0 : SimState) (keys : Nat → Int) (n x : Nat)
    (hinit : initState c = some st0) (hf : 1 ≤ c.fanout) (hx : x < c.total_nodes) :
    (getNode (run_ticks c keys st0 n) x).msgs_per_tick = c.msg_rate / c.ticks ∧
    (run_ticks c keys st0 n).total_generated
      = n * (c.total_nodes * (c.msg_rate / c.ticks)) ∧
    (c.msg_rate < c.ticks → (run_ticks c keys st0 n).total_generated = 0) ∧
    (run_ticks c keys st0 c.ticks).total_generated
      = c.total_nodes * ((c.msg_rate / c.ticks) * c.ticks) := by
  have hmpt0 : ∀ y, y < c.total_nodes →
      (getNode st0 y).msgs_per_tick = c.msg_rate / c.ticks :=
    fun y hy => init_mpt c st0 hinit hf y hy
  obtain ⟨ls, -, -, -, hg0, -⟩ := initState_elim hinit
  refine ⟨?_, ?_, ?_, ?_⟩
  · exact (mpt_of_statics (run_statics c keys st0 n x)).trans (hmpt0 x hx)
  · rw [run_generated c keys st0 (c.msg_rate / c.ticks) hmpt0 n, hg0, Nat.zero_add]
  · intro hlt
    rw [run_generated c keys st0 (c.msg_rate / c.ticks) hmpt0 n, hg0,
        Nat.div_eq_of_lt hlt]
    simp
  · rw [run_generated c keys st0 (c.msg_rate / c.ticks) hmpt0 c.ticks, hg0,
        Nat.zero_add]
    ring

theorem c10_generation_witness :
    (getNode (run_ticks cfgChain (fun _ => 0)
        ((initState cfgChain).get (by decide)) 2) 0).msgs_per_tick
      = cfgChain.msg_rate / cfgChain.ticks :=
  (c10_generation cfgChain ((initState cfgChain).get (by decide)) (fun _ => 0) 2 0
    (Option.some_get (by decide)).symm (by decide) (by decide)).1

/-! ## C7: bandwidth limits, per tick and per reported second -/

theorem flow_fields {a b : Node} (h : flowOf a = flowOf b) :
    a.in_ = b.in_ ∧ a.out_ = b.out_ ∧ a.in_per_sec = b.in_per_sec ∧
    a.out_per_sec = b.out_per_sec ∧ a.in_limit = b.in_limit ∧
    a.out_limit = b.out_limit ∧ a.total_out_msgs = b.total_out_msgs :=
  ⟨congrArg (fun s => s.1) h, congrArg (fun s => s.2.1) h,
   congrArg (fun s => s.2.2.1) h, congrArg (fun s => s.2.2.2.1) h,
   congrArg (fun s => s.2.2.2.2.1) h, congrArg (fun s => s.2.2.2.2.2.1) h,
   congrArg (fun s => s.2.2.2.2.2.2) h⟩

theorem emitRel_refl (ms : Nat) (a : Node) : emitRel ms a a := by
  unfold emitRel
  exact ⟨rfl, rfl, rfl, rfl, Nat.le_refl _, rfl, Nat.le_refl _, rfl, Or.inr rfl⟩

theorem emitRel_trans {ms : Nat} {a b c : Node} (h1 : emitRel ms a b)
    (h2 : emitRel ms b c) : emitRel ms a c := by
  obtain ⟨il1, ol1, i1, ip1, o1, op1, c1, k1, d1⟩ := h1
  obtain ⟨il2, ol2, i2, ip2, o2, op2, c2, k2, d2⟩ := h2
  refine ⟨il2.trans il1, ol2.trans ol1, i2.trans i1, ip2.trans ip1,
    o1.trans o2, by omega, c1.trans c2, by omega, ?_⟩
  rcases d2 with d2 | d2
  · exact Or.inl d2
  · rcases d1 with d1 | d1
    · exact Or.inl (by omega)
    · exact Or.inr (d2.trans d1)

theorem emitRel_congr {ms : Nat} {a a' b b' : Node} (hfa : flowOf a' = flowOf a)
    (hfb : flowOf b' = flowOf b) (h : emitRel ms a b) : emitRel ms a' b' := by
  obtain ⟨a1, a2, a3, a4, a5, a6, a7⟩ := flow_fields hfa
  obtain ⟨b1, b2, b3, b4, b5, b6, b7⟩ := flow_fields hfb
  obtain ⟨il, ol, i1, ip, o1, op, c1, k1, d⟩ := h
  refine ⟨by omega, by omega, by omega, by omega, by omega, by omega, by omega,
    ?_, ?_⟩
  · rw [a2, b2, a7, b7]
    exact k1
  · rcases d with d | d
    · exact Or.inl (by omega)
    · exact Or.inr (by omega)

theorem tickRel_congr {a b b' : Node} (hfb : flowOf b' = flowOf b)
    (h : tickRel a b) : tickRel a b' := by
  obtain ⟨b1, b2, b3, b4, b5, b6, b7⟩ := flow_fields hfb
  obtain ⟨il, ol, i1, o1, ip, op⟩ := h
  exact ⟨by omega, by omega, by omega, by omega, by omega, by omega⟩

theorem admit_loop_other (c : Config) (t : Nat) :
    ∀ (fuel : Nat) (nd : Node),
      (admit_loop c t fuel nd).out_ = nd.out_ ∧
      (admit_loop c t fuel nd).out_per_sec = nd.out_per_sec ∧
      (admit_loop c t fuel nd).in_per_sec = nd.in_per_sec ∧
      (admit_loop c t fuel nd).in_limit = nd.in_limit ∧
      (admit_loop c t fuel nd).out_limit = nd.out_limit
  | 0, nd => ⟨rfl, rfl, rfl, rfl, rfl⟩
  | fuel + 1, nd => by
    unfold admit_loop
    rcases pqTop nd.q with _ | m
    · exact ⟨rfl, rfl, rfl, rfl, rfl⟩
    · dsimp only
      by_cases hg : nd.in_ + c.msg_size ≤ nd.in_limit
      · rw [if_pos hg]
        exact admit_loop_other c t fuel (admit_one c t nd m)
      · rw [if_neg hg]
        exact ⟨rfl, rfl, rfl, rfl, rfl⟩

theorem admit_loop_in (c : Config) (t : Nat) :
    ∀ (fuel : Nat) (nd : Node), nd.in_ ≤ nd.in_limit →
      (admit_loop c t fuel nd).in_ ≤ nd.in_limit
  | 0, _, h => h
  | fuel + 1, nd, h => by
    unfold admit_loop
    rcases pqTop nd.q with _ | m
    · exact h
    · dsimp only
      by_cases hg : nd.in_ + c.msg_size ≤ nd.in_limit
      · rw [if_pos hg]
        exact admit_loop_in c t fuel (admit_one c t nd m) hg
      · rw [if_neg hg]
        exact h

theorem phase1_tickRel (c : Config) (t : Nat) (nd : Node) :
    tickRel nd (phase1 c t nd) := by
  obtain ⟨ho, hops, hips, hil, hol⟩ :=
    admit_loop_other c t nd.q.length { nd with in_ := 0, out_ := 0 }
  have hin := admit_loop_in c t nd.q.length { nd with in_ := 0, out_ := 0 }
    (Nat.zero_le _)
  show tickRel nd { admit_loop c t nd.q.length { nd with in_ := 0, out_ := 0 } with
    in_per_sec := (admit_loop c t nd.q.length { nd with in_ := 0, out_ := 0 }).in_per_sec
      + (admit_loop c t nd.q.length { nd with in_ := 0, out_ := 0 }).in_ }
  unfold tickRel
  refine ⟨hil, hol, hin, ho, ?_, hops⟩
  show (admit_loop c t nd.q.length { nd with in_ := 0, out_ := 0 }).in_per_sec
    + (admit_loop c t nd.q.length { nd with in_ := 0, out_ := 0 }).in_
    ≤ nd.in_per_sec + nd.in_limit
  have hips2 : ({ nd with in_ := 0, out_ := 0 } : Node).in_per_sec = nd.in_per_sec := rfl
  have hil2 : ({ nd with in_ := 0, out_ := 0 } : Node).in_limit = nd.in_limit := rfl
  omega

theorem gen_fold_flow (c : Config) (keys : Nat → Int) (t : Nat) :
    ∀ (js : List Nat) (pr : Node × Nat),
      flowOf ((js.foldl (fun (p : Node × Nat) j =>
        (gen_one c t (keys p.2) j p.1, p.2 + 1)) pr).1) = flowOf pr.1
  | [], _ => rfl
  | j :: js, pr => by
    simp only [List.foldl_cons]
    exact (gen_fold_flow c keys t js _).trans rfl

theorem phase2_flow (c : Config) (keys : Nat → Int) (t : Nat) (nd : Node) (cur : Nat) :
    flowOf (phase2 c keys t nd cur).1 = flowOf nd := by
  unfold phase2
  exact gen_fold_flow c keys t (List.range nd.msgs_per_tick) (nd, cur)

theorem phase3_flow (c : Config) (t : Nat) (nd : Node) :
    flowOf (phase3 c t nd) = flowOf nd := by
  unfold phase3
  induction (List.range c.ntrees) generalizing nd with
  | nil => rfl
  | cons k js ih =>
    simp only [List.foldl_cons]
    refine (ih _).trans ?_
    split
    · rfl
    · rfl

theorem phase123_tickRel (c : Config) (keys : Nat → Int) (t : Nat) (nd : Node)
    (cur : Nat) :
    tickRel nd (phase123 c keys t nd cur).1 := by
  have h1 := phase1_tickRel c t nd
  have h2 := phase2_flow c keys t (phase1 c t nd) cur
  have h3 := phase3_flow c t (phase2 c keys t (phase1 c t nd) cur).1
  exact tickRel_congr h3 (tickRel_congr h2 h1)

theorem proc_eq (c : Config) (keys : Nat → Int) (t : Nat) (st : SimState) :
    process_messages_by_node c keys t st
      = (List.range c.total_nodes).foldl (procStep c keys t) st := rfl

theorem procStep_length (c : Config) (keys : Nat → Int) (t : Nat) (st : SimState)
    (i : Nat) :
    (procStep c keys t st i).nodes.length = st.nodes.length := by
  show (st.nodes.set i (phase123 c keys t (getNode st i) st.cursor).1).length = _
  rw [List.length_set]

theorem procStep_getNode_other (c : Config) (keys : Nat → Int) (t : Nat)
    (st : SimState) (i : Nat) {x : Nat} (hxi : x ≠ i) :
    getNode (procStep c keys t st i) x = getNode st x := by
  show (st.nodes.set i (phase123 c keys t (getNode st i) st.cursor).1).getD x default
    = st.nodes.getD x default
  rw [getD_set_other hxi]

theorem procStep_getNode_self (c : Config) (keys : Nat → Int) (t : Nat)
    (st : SimState) (i : Nat) (hlen : i < st.nodes.length) :
    getNode (procStep c keys t st i) i
      = (phase123 c keys t (getNode st i) st.cursor).1 := by
  show (st.nodes.set i (phase123 c keys t (getNode st i) st.cursor).1).getD i default = _
  rw [getD_set_self hlen]

theorem procfold_length (c : Config) (keys : Nat → Int) (t : Nat) :
    ∀ (js : List Nat) (st : SimState),
      (js.foldl (procStep c keys t) st).nodes.length = st.nodes.length
  | [], _ => rfl
  | i :: js, st => by
    simp only [List.foldl_cons]
    exact (procfold_length c keys t js _).trans (procStep_length c keys t st i)

theorem procfold_untouched (c : Config) (keys : Nat → Int) (t : Nat) :
    ∀ (js : List Nat) (st : SimState) (x : Nat), x ∉ js →
      getNode (js.foldl (procStep c keys t) st) x = getNode st x
  | [], _, _, _ => rfl
  | i :: js, st, x, hx => by
    simp only [List.foldl_cons]
    rw [procfold_untouched c keys t js _ x (fun hm => hx (List.mem_cons_of_mem i hm))]
    exact procStep_getNode_other c keys t st i
      (fun he => hx (he ▸ List.mem_cons_self i js))

theorem procfold_tickRel (c : Config) (keys : Nat → Int) (t : Nat) :
    ∀ (js : List Nat) (st : SimState) (x : Nat), x ∈ js → js.Nodup →
      x < st.nodes.length →
      tickRel (getNode st x) (getNode (js.foldl (procStep c keys t) st) x)
  | [], _, _, hx, _, _ => absurd hx (List.not_mem_nil _)
  | i :: js, st, x, hx, hnd, hlen => by
    simp only [List.foldl_cons]
    by_cases hxi : x = i
    · subst hxi
      have hnotin : x ∉ js := (List.nodup_cons.mp hnd).1
      rw [procfold_untouched c keys t js _ x hnotin,
          procStep_getNode_self c keys t st x hlen]
      exact phase123_tickRel c keys t (getNode st x) st.cursor
    · have hmem : x ∈ js := (List.mem_cons.mp hx).resolve_left hxi
      have ih := procfold_tickRel c keys t js (procStep c keys t st i) x hmem
        (List.nodup_cons.mp hnd).2
        (by rw [procStep_length c keys t st i]; exact hlen)
      rw [procStep_getNode_other c keys t st i hxi] at ih
      exact ih

theorem process_tickRel (c : Config) (keys : Nat → Int) (t : Nat) (st : SimState)
    (x : Nat) (hx : x < c.total_nodes) (hlen : x < st.nodes.length) :
    tickRel (getNode st x) (getNode (process_messages_by_node c keys t st) x) := by
  rw [proc_eq]
  exact procfold_tickRel c keys t (List.range c.total_nodes) st x
    (List.mem_range.mpr hx) (List.nodup_range _) hlen

theorem process_length (c : Config) (keys : Nat → Int) (t : Nat) (st : SimState) :
    (process_messages_by_node c keys t st).nodes.length = st.nodes.length := by
  rw [proc_eq]
  exact procfold_length c keys t (List.range c.total_nodes) st

theorem setNode_flow (st : SimState) (i : Nat) (nd : Node)
    (h : flowOf nd = flowOf (getNode st i)) (x : Nat) :
    flowOf (getNode (setNode st i nd) x) = flowOf (getNode st x) := by
  by_cases hx : x = i
  · subst hx
    by_cases hb : x < st.nodes.length
    · rw [getNode_setNode_self st x nd hb, h]
    · unfold getNode
      rw [getNode_setNode_oob st x nd hb]
  · rw [getNode_setNode_other st i nd hx]

theorem pushQ_flow (st : SimState) (j : Nat) (m : Message) (x : Nat) :
    flowOf (getNode (pushQ st j m) x) = flowOf (getNode st x) := by
  unfold pushQ
  refine setNode_flow st j _ ?_ x
  rfl

theorem drop_stage_flow (st : SimState) (i k : Nat) (x : Nat) :
    flowOf (getNode (drop_stage st i k) x) = flowOf (getNode st x) := by
  unfold drop_stage
  refine setNode_flow st i _ ?_ x
  rfl

theorem drop_stage_length (st : SimState) (i k : Nat) :
    (drop_stage st i k).nodes.length = st.nodes.length := by
  unfold drop_stage
  exact setNode_length st i _

theorem emit_send_length (c : Config) (st : SimState) (i k : Nat) (m : Message)
    (rest : List Message) :
    (emit_send c st i k m rest).nodes.length = st.nodes.length := by
  unfold emit_send
  by_cases hp : (getNode st i).p.getD k 0 = -1
  · rw [if_pos hp]
    exact setNode_length { st with total_eff_root := st.total_eff_root + m.eff_size } i _
  · rw [if_neg hp]
    refine (setNode_length (pushQ st ((getNode st i).p.getD k 0).toNat m) i _).trans ?_
    unfold pushQ
    exact setNode_length st _ _

theorem emit_tree_length (c : Config) (t : Nat) (i : Nat) (st : SimState) (k : Nat) :
    (emit_tree c t i st k).1.nodes.length = st.nodes.length := by
  unfold emit_tree
  rcases dropTombs ((getNode st i).buf.getD k []) with _ | ⟨m, rest⟩
  · exact drop_stage_length st i k
  · dsimp only
    by_cases hc : m.time ≤ (t : Int) ∧
        (getNode st i).out_ + c.msg_size ≤ (getNode st i).out_limit
    · rw [if_pos hc]
      exact (emit_send_length c (drop_stage st i k) i k m rest).trans
        (drop_stage_length st i k)
    · rw [if_neg hc]
      exact drop_stage_length st i k

theorem emit_pass_fold_length (c : Config) (t : Nat) (i : Nat) :
    ∀ (js : List Nat) (pr : SimState × Bool),
      ((js.foldl (fun (p : SimState × Bool) k =>
        ((emit_tree c t i p.1 k).1, p.2 || (emit_tree c t i p.1 k).2)) pr).1).nodes.length
      = pr.1.nodes.length
  | [], _ => rfl
  | k :: js, pr => by
    simp only [List.foldl_cons]
    exact (emit_pass_fold_length c t i js _).trans (emit_tree_length c t i pr.1 k)

theorem emit_loop_length (c : Config) (t : Nat) (i : Nat) :
    ∀ (fuel : Nat) (st : SimState),
      (emit_loop c t i fuel st).nodes.length = st.nodes.length
  | 0, _ => rfl
  | fuel + 1, st => by
    show (if (emit_pass c t i st).2
      then emit_loop c t i fuel (emit_pass c t i st).1
      else (emit_pass c t i st).1).nodes.length = _
    have hpass : (emit_pass c t i st).1.nodes.length = st.nodes.length := by
      unfold emit_pass
      exact emit_pass_fold_length c t i (List.range c.ntrees) (st, false)
    by_cases hb : (emit_pass c t i st).2
    · rw [if_pos hb]
      exact (emit_loop_length c t i fuel _).trans hpass
    · rw [if_neg hb]
      exact hpass

theorem phase4_length (c : Config) (t : Nat) (st : SimState) :
    (phase4 c t st).nodes.length = st.nodes.length := by
  unfold phase4
  induction (List.range c.total_nodes) generalizing st with
  | nil => rfl
  | cons i js ih =>
    simp only [List.foldl_cons]
    exact (ih _).trans (emit_loop_length c t i _ st)

theorem emitRel_step (a : Node) (ms : Nat) (hg : a.out_ + ms ≤ a.out_limit)
    (bufv : List (List Message)) (eo : Int) :
    emitRel ms a { a with out_ := a.out_ + ms, out_per_sec := a.out_per_sec + ms,
                          eff_out_per_sec := eo,
                          total_out_msgs := a.total_out_msgs + 1, buf := bufv } := by
  unfold emitRel
  refine ⟨rfl, rfl, rfl, rfl, Nat.le_add_right _ _, ?_, Nat.le_succ _, ?_,
    Or.inl ?_⟩
  · show a.out_per_sec + ms + a.out_ = a.out_per_sec + (a.out_ + ms)
    omega
  · show a.out_ + ms + a.total_out_msgs * ms = a.out_ + (a.total_out_msgs + 1) * ms
    have hm : (a.total_out_msgs + 1) * ms = a.total_out_msgs * ms + ms := by
      rw [Nat.add_mul, Nat.one_mul]
    omega
  · show a.out_ + ms ≤ a.out_limit
    exact hg

theorem emit_send_core (c : Config) (st B : SimState) (i k : Nat) (m : Message)
    (rest : List Message)
    (flowB : ∀ y, flowOf (getNode B y) = flowOf (getNode st y))
    (hg : (getNode st i).out_ + c.msg_size ≤ (getNode st i).out_limit) (x : Nat) :
    emitRel c.msg_size (getNode st x)
      (getNode (setNode B i
        { getNode B i with
          out_ := (getNode B i).out_ + c.msg_size,
          out_per_sec := (getNode B i).out_per_sec + c.msg_size,
          eff_out_per_sec := (getNode B i).eff_out_per_sec + m.eff_size * (c.msg_size : Int),
          total_out_msgs := (getNode B i).total_out_msgs + 1,
          buf := (getNode B i).buf.set k rest }) x) := by
  by_cases hx : x = i
  · subst hx
    by_cases hbi : x < B.nodes.length
    · rw [getNode_setNode_self B x _ hbi]
      obtain ⟨f1, f2, f3, f4, f5, f6, f7⟩ := flow_fields (flowB x)
      exact emitRel_congr (flowB x).symm rfl
        (emitRel_step (getNode B x) c.msg_size (by omega)
          ((getNode B x).buf.set k rest)
          ((getNode B x).eff_out_per_sec + m.eff_size * (c.msg_size : Int)))
    · unfold getNode
      rw [getNode_setNode_oob B x _ hbi]
      exact emitRel_congr rfl (flowB x) (emitRel_refl c.msg_size (getNode st x))
  · rw [getNode_setNode_other B i _ hx]
    exact emitRel_congr rfl (flowB x) (emitRel_refl c.msg_size (getNode st x))

theorem emit_send_emitRel (c : Config) (st : SimState) (i k : Nat) (m : Message)
    (rest : List Message)
    (hg : (getNode st i).out_ + c.msg_size ≤ (getNode st i).out_limit) (x : Nat) :
    emitRel c.msg_size (getNode st x) (getNode (emit_send c st i k m rest) x) := by
  unfold emit_send
  by_cases hp : (getNode st i).p.getD k 0 = -1
  · rw [if_pos hp]
    exact emit_send_core c st { st with total_eff_root := st.total_eff_root + m.eff_size }
      i k m rest (fun y => rfl) hg x
  · rw [if_neg hp]
    exact emit_send_core c st (pushQ st ((getNode st i).p.getD k 0).toNat m)
      i k m rest (fun y => pushQ_flow st _ m y) hg x

theorem emit_tree_emitRel (c : Config) (t : Nat) (i : Nat) (st : SimState) (k : Nat)
    (x : Nat) :
    emitRel c.msg_size (getNode st x) (getNode (emit_tree c t i st k).1 x) := by
  unfold emit_tree
  rcases dropTombs ((getNode st i).buf.getD k []) with _ | ⟨m, rest⟩
  · exact emitRel_congr rfl (drop_stage_flow st i k x) (emitRel_refl _ _)
  · dsimp only
    by_cases hc : m.time ≤ (t : Int) ∧
        (getNode st i).out_ + c.msg_size ≤ (getNode st i).out_limit
    · rw [if_pos hc]
      have hg : (getNode (drop_stage st i k) i).out_ + c.msg_size
          ≤ (getNode (drop_stage st i k) i).out_limit := by
        obtain ⟨f1, f2, f3, f4, f5, f6, f7⟩ := flow_fields (drop_stage_flow st i k i)
        have h2 := hc.2
        omega
      have h1 : emitRel c.msg_size (getNode st x) (getNode (drop_stage st i k) x) :=
        emitRel_congr rfl (drop_stage_flow st i k x) (emitRel_refl _ _)
      exact emitRel_trans h1 (emit_send_emitRel c (drop_stage st i k) i k m rest hg x)
    · rw [if_neg hc]
      exact emitRel_congr rfl (drop_stage_flow st i k x) (emitRel_refl _ _)

theorem emit_pass_emitRel (c : Config) (t : Nat) (i : Nat) :
    ∀ (js : List Nat) (pr : SimState × Bool) (x : Nat),
      emitRel c.msg_size (getNode pr.1 x)
        (getNode ((js.foldl (fun (p : SimState × Bool) k =>
        ((emit_tree c t i p.1 k).1, p.2 || (emit_tree c t i p.1 k).2)) pr).1) x)
  | [], _, _ => emitRel_refl _ _
  | k :: js, pr, x => by
    simp only [List.foldl_cons]
    exact emitRel_trans (emit_tree_emitRel c t i pr.1 k x)
      (emit_pass_emitRel c t i js _ x)

theorem emit_loop_emitRel (c : Config) (t : Nat) (i : Nat) :
    ∀ (fuel : Nat) (st : SimState) (x : Nat),
      emitRel c.msg_size (getNode st x) (getNode (emit_loop c t i fuel st) x)
  | 0, _, _ => emitRel_refl _ _
  | fuel + 1, st, x => by
    show emitRel _ _ (getNode (if (emit_pass c t i st).2
      then emit_loop c t i fuel (emit_pass c t i st).1 else (emit_pass c t i st).1) x)
    have hpass : emitRel c.msg_size (getNode st x)
        (getNode (emit_pass c t i st).1 x) := by
      unfold emit_pass
      exact emit_pass_emitRel c t i (List.range c.ntrees) (st, false) x
    by_cases hb : (emit_pass c t i st).2
    · rw [if_pos hb]
      exact emitRel_trans hpass (emit_loop_emitRel c t i fuel _ x)
    · rw [if_neg hb]
      exact hpass

theorem phase4_emitRel (c : Config) (t : Nat) (st : SimState) (x : Nat) :
    emitRel c.msg_size (getNode st x) (getNode (phase4 c t st) x) := by
  unfold phase4
  induction (List.range c.total_nodes) generalizing st with
  | nil => exact emitRel_refl _ _
  | cons i js ih =>
    simp only [List.foldl_cons]
    exact emitRel_trans (emit_loop_emitRel c t i _ st x) (ih _)

theorem tick_flow (c : Config) (keys : Nat → Int) (st : SimState) (t : Nat) (x : Nat)
    (hx : x < c.total_nodes) (hlen : x < st.nodes.length) :
    (getNode (tick_step c keys st t) x).in_ ≤ (getNode st x).in_limit ∧
    (getNode (tick_step c keys st t) x).out_ ≤ (getNode st x).out_limit ∧
    (getNode (tick_step c keys st t) x).in_per_sec
      ≤ (getNode st x).in_per_sec + (getNode st x).in_limit ∧
    (getNode (tick_step c keys st t) x).out_per_sec
      ≤ (getNode st x).out_per_sec + (getNode st x).out_limit := by
  obtain ⟨il1, ol1, hi1, ho1, hip1, hop1⟩ := process_tickRel c keys t st x hx hlen
  obtain ⟨il2, ol2, hi2, hip2, ho2, hop2, hc2, hk2, hd2⟩ :=
    phase4_emitRel c t (process_messages_by_node c keys t st) x
  rw [show tick_step c keys st t
    = phase4 c t (process_messages_by_node c keys t st) from rfl]
  rcases hd2 with hd | hd <;> exact ⟨by omega, by omega, by omega, by omega⟩

theorem write_log_length (st : SimState) :
    (write_log st).nodes.length = st.nodes.length := by
  show (st.nodes.map reset_per_sec).length = _
  rw [List.length_map]

theorem tick_step_length (c : Config) (keys : Nat → Int) (st : SimState) (t : Nat) :
    (tick_step c keys st t).nodes.length = st.nodes.length := by
  unfold tick_step
  exact (phase4_length c t _).trans (process_length c keys t st)

theorem tick_log_length (c : Config) (keys : Nat → Int) (st : SimState) (t : Nat) :
    (tick_step_log c keys st t).nodes.length = st.nodes.length := by
  unfold tick_step_log
  by_cases hl : (t ≠ 0 ∧ t % c.ticks = 0)
  · rw [if_pos hl]
    exact (write_log_length _).trans (tick_step_length c keys st t)
  · rw [if_neg hl]
    exact tick_step_length c keys st t

theorem run_length (c : Config) (keys : Nat → Int) (st0 : SimState) :
    ∀ (n : Nat), (run_ticks c keys st0 n).nodes.length = st0.nodes.length
  | 0 => rfl
  | n + 1 => by
    show (tick_step_log c keys (run_ticks c keys st0 n) n).nodes.length = _
    exact (tick_log_length c keys _ n).trans (run_length c keys st0 n)

theorem limits_of_statics {a b : Node} (h : staticsOf a = staticsOf b) :
    a.in_limit = b.in_limit ∧ a.out_limit = b.out_limit :=
  ⟨congrArg (fun s => s.2.2.2.2.1) h, congrArg (fun s => s.2.2.2.2.2.1) h⟩

theorem run_flow (c : Config) (keys : Nat → Int) (st0 : SimState)
    (hlen : st0.nodes.length = c.total_nodes) (x : Nat) (hx : x < c.total_nodes) :
    ∀ (n : Nat),
      (getNode (run_ticks c keys st0 n) x).in_per_sec
        ≤ (getNode st0 x).in_per_sec + n * (getNode st0 x).in_limit ∧
      (getNode (run_ticks c keys st0 n) x).out_per_sec
        ≤ (getNode st0 x).out_per_sec + n * (getNode st0 x).out_limit
  | 0 => by
    constructor
    · show (getNode st0 x).in_per_sec
        ≤ (getNode st0 x).in_per_sec + 0 * (getNode st0 x).in_limit
      omega
    · show (getNode st0 x).out_per_sec
        ≤ (getNode st0 x).out_per_sec + 0 * (getNode st0 x).out_limit
      omega
  | n + 1 => by
    obtain ⟨ih1, ih2⟩ := run_flow c keys st0 hlen x hx n
    obtain ⟨l1, l2⟩ := limits_of_statics (run_statics c keys st0 n x)
    have hlen' : x < (run_ticks c keys st0 n).nodes.length := by
      rw [run_length c keys st0 n, hlen]
      exact hx
    obtain ⟨t1, t2, t3, t4⟩ := tick_flow c keys (run_ticks c keys st0 n) n x hx hlen'
    by_cases hl : (n ≠ 0 ∧ n % c.ticks = 0)
    · have he : run_ticks c keys st0 (n + 1)
          = write_log (tick_step c keys (run_ticks c keys st0 n) n) := by
        show tick_step_log c keys (run_ticks c keys st0 n) n = _
        unfold tick_step_log
        rw [if_pos hl]
      rw [he, getNode_write_log]
      exact ⟨Nat.zero_le _, Nat.zero_le _⟩
    · have he : run_ticks c keys st0 (n + 1)
          = tick_step c keys (run_ticks c keys st0 n) n := by
        show tick_step_log c keys (run_ticks c keys st0 n) n = _
        unfold tick_step_log
        rw [if_neg hl]
      rw [he]
      have hmul1 : (n + 1) * (getNode st0 x).in_limit
          = n * (getNode st0 x).in_limit + (getNode st0 x).in_limit := by
        rw [Nat.add_mul, Nat.one_mul]
      have hmul2 : (n + 1) * (getNode st0 x).out_limit
          = n * (getNode st0 x).out_limit + (getNode st0 x).out_limit := by
        rw [Nat.add_mul, Nat.one_mul]
      exact ⟨by omega, by omega⟩

theorem framedExcept_flow {k : Nat} {a b : Node} (h : framedExcept k a b) :
    flowOf b = flowOf a := by
  obtain ⟨q1, b1, g1, gd1, i1, o1, il1, ol1, ip1, op1, e1, s1, sv1, m1, ti1, to1,
    pl1, ll1, hk⟩ := h
  show (b.in_, b.out_, b.in_per_sec, b.out_per_sec, b.in_limit, b.out_limit,
    b.total_out_msgs) = _
  rw [i1, o1, il1, ol1, ip1, op1, to1]
  rfl

theorem framedGC_flow {a b : Node} (h : framedGC a b) : flowOf b = flowOf a := by
  obtain ⟨p1, lv1, q1, b1, i1, o1, il1, ol1, ip1, op1, e1, s1, sv1, m1, ti1, to1,
    gl1, gdl1⟩ := h
  show (b.in_, b.out_, b.in_per_sec, b.out_per_sec, b.in_limit, b.out_limit,
    b.total_out_msgs) = _
  rw [i1, o1, il1, ol1, ip1, op1, to1]
  rfl

theorem linkfold_flow (c : Config) (ls : List (List Nat)) (hf : 1 ≤ c.fanout) :
    ∀ (ks : List Nat) (nds : List Node) (x : Nat),
      flowOf (((ks.foldl (fun nds k => link_tree c k (ls.getD k []) nds) nds)).getD
        x default) = flowOf (nds.getD x default)
  | [], _, _ => rfl
  | k :: ks, nds, x => by
    simp only [List.foldl_cons]
    exact (linkfold_flow c ls hf ks _ x).trans
      (framedExcept_flow (link_tree_framed c k (ls.getD k []) hf nds x))

theorem init_flow (c : Config) (st : SimState) (hinit : initState c = some st)
    (hf : 1 ≤ c.fanout) (x : Nat) (hx : x < c.total_nodes) :
    (getNode st x).in_per_sec = 0 ∧ (getNode st x).out_per_sec = 0 ∧
    (getNode st x).in_limit = c.in_limit / c.ticks ∧
    (getNode st x).out_limit = c.out_limit / c.ticks := by
  obtain ⟨ls, -, hnodes, -, -, -⟩ := initState_elim hinit
  have hflow : flowOf (getNode st x) = flowOf (init_node c x) := by
    show flowOf (st.nodes.getD x default) = _
    rw [hnodes]
    rw [framedGC_flow (gc_decorate_framedGC c ls _ x)]
    rw [linkfold_flow c ls hf (List.range c.ntrees) (stageA c) x]
    rw [stageA_getD c hx]
  obtain ⟨e1, e2, e3, e4, e5, e6, e7⟩ := flow_fields hflow
  have hnode : (init_node c x).in_per_sec = 0 ∧ (init_node c x).out_per_sec = 0 ∧
      (init_node c x).in_limit = c.in_limit / c.ticks ∧
      (init_node c x).out_limit = c.out_limit / c.ticks := by
    unfold init_node
    by_cases h : x % c.nodes_per_rack = 0 <;> simp [h] <;> exact ⟨rfl, rfl⟩
  exact ⟨e3.trans hnode.1, e4.trans hnode.2.1, e5.trans hnode.2.2.1,
    e6.trans hnode.2.2.2⟩

theorem init_length (c : Config) (st : SimState) (hinit : initState c = some st)
    (hf : 1 ≤ c.fanout) : st.nodes.length = c.total_nodes := by
  obtain ⟨ls, -, hnodes, -, -, -⟩ := initState_elim hinit
  rw [hnodes, gc_decorate_length, linkfold_length c ls hf, stageA_length]

/-- **C7 (amended).** Per tick the budgets hold: at the end of every tick,
`in ≤ in_limit/ticks` and `out ≤ out_limit/ticks` (the per-tick limits).
Per reported second the claimed bound `limit * ticks` fails (see the
counterexample); the provable bounds are `n * limit` after `n` ticks from
the start, hence `(ticks + 1) * limit` for the FIRST reported second, whose
window spans the `ticks + 1` tick bodies `t = 0 .. ticks`. -/
theorem c7_limits (c : Config) (st0 : SimState) (keys : Nat → Int) (n x : Nat)
    (hinit : initState c = some st0) (hf : 1 ≤ c.fanout) (hx : x < c.total_nodes) :
    (getNode (run_ticks c keys st0 (n + 1)) x).in_ ≤ c.in_limit / c.ticks ∧
    (getNode (run_ticks c keys st0 (n + 1)) x).out_ ≤ c.out_limit / c.ticks ∧
    (getNode (run_ticks c keys st0 n) x).in_per_sec ≤ n * (c.in_limit / c.ticks) ∧
    (getNode (run_ticks c keys st0 n) x).out_per_sec ≤ n * (c.out_limit / c.ticks) ∧
    (getNode (tick_step c keys (run_ticks c keys st0 c.ticks) c.ticks) x).in_per_sec
      ≤ (c.ticks + 1) * (c.in_limit / c.ticks) ∧
    (getNode (tick_step c keys (run_ticks c keys st0 c.ticks) c.ticks) x).out_per_sec
      ≤ (c.ticks + 1) * (c.out_limit / c.ticks) := by
  have hlen0 := init_length c st0 hinit hf
  obtain ⟨hip0, hop0, hil0, hol0⟩ := init_flow c st0 hinit hf x hx
  have hlenn : x < (run_ticks c keys st0 n).nodes.length := by
    rw [run_length c keys st0 n, hlen0]
    exact hx
  have hlent : x < (run_ticks c keys st0 c.ticks).nodes.length := by
    rw [run_length c keys st0 c.ticks, hlen0]
    exact hx
  obtain ⟨t1, t2, t3, t4⟩ := tick_flow c keys (run_ticks c keys st0 n) n x hx hlenn
  obtain ⟨s1, s2, s3, s4⟩ :=
    tick_flow c keys (run_ticks c keys st0 c.ticks) c.ticks x hx hlent
  obtain ⟨l1, l2⟩ := limits_of_statics (run_statics c keys st0 n x)
  obtain ⟨m1, m2⟩ := limits_of_statics (run_statics c keys st0 c.ticks x)
  have hrn := run_flow c keys st0 hlen0 x hx n
  have hrt := run_flow c keys st0 hlen0 x hx c.ticks
  rw [hip0, hil0, hop0, hol0] at hrn hrt
  obtain ⟨r1, r2⟩ := hrn
  obtain ⟨w1, w2⟩ := hrt
  have hio : (getNode (run_ticks c keys st0 (n + 1)) x).in_
        = (getNode (tick_step c keys (run_ticks c keys st0 n) n) x).in_ ∧
      (getNode (run_ticks c keys st0 (n + 1)) x).out_
        = (getNode (tick_step c keys (run_ticks c keys st0 n) n) x).out_ := by
    show (getNode (tick_step_log c keys (run_ticks c keys st0 n) n) x).in_ = _ ∧
      (getNode (tick_step_log c keys (run_ticks c keys st0 n) n) x).out_ = _
    unfold tick_step_log
    by_cases hl : (n ≠ 0 ∧ n % c.ticks = 0)
    · rw [if_pos hl, getNode_write_log]
      exact ⟨rfl, rfl⟩
    · rw [if_neg hl]
      exact ⟨rfl, rfl⟩
  have hmul1 : (c.ticks + 1) * (c.in_limit / c.ticks)
      = c.ticks * (c.in_limit / c.ticks) + c.in_limit / c.ticks := by
    rw [Nat.add_mul, Nat.one_mul]
  have hmul2 : (c.ticks + 1) * (c.out_limit / c.ticks)
      = c.ticks * (c.out_limit / c.ticks) + c.out_limit / c.ticks := by
    rw [Nat.add_mul, Nat.one_mul]
  refine ⟨?_, ?_, by omega, by omega, by omega, by omega⟩
  · rw [hio.1]
    omega
  · rw [hio.2]
    omega

theorem c7_limits_witness :
    (getNode (run_ticks cfgSlowOut keys0
      ((initState cfgSlowOut).get (by decide)) 1) 0).in_
      ≤ cfgSlowOut.in_limit / cfgSlowOut.ticks :=
  (c7_limits cfgSlowOut ((initState cfgSlowOut).get (by decide)) keys0 0 0
    (Option.some_get (by decide)).symm (by decide) (by decide)).1

/-- The per-second half of C7 as stated is false: with `out_limit = 32`,
`ticks = 1` and four generated messages per tick, the first reported second
(the `write_log` at `t = 1`, which sees the ticks `t = 0` and `t = 1`)
reports `out_per_sec = 64 > out_limit * ticks = 32`. -/
theorem c7_counterexample :
    cfgSlowOut.out_limit * cfgSlowOut.ticks <
      (getNode (tick_step cfgSlowOut keys0
        (run_ticks cfgSlowOut keys0 ((initState cfgSlowOut).get (by decide)) 1) 1)
        0).out_per_sec := by decide

/-! ## C8: tombstones are never queued, forwarded or counted -/

theorem dropTombs_head : ∀ (l : List Message) (m : Message) (rest : List Message),
    dropTombs l = m :: rest → m.type = 0
  | [], m, rest, h => by simp [dropTombs] at h
  | a :: ms, m, rest, h => by
    unfold dropTombs at h
    by_cases ha : a.type ≠ 0
    · rw [if_pos ha] at h
      exact dropTombs_head ms m rest h
    · rw [if_neg ha] at h
      cases h
      omega

theorem admit_loop_qsub (c : Config) (t : Nat) :
    ∀ (fuel : Nat) (nd : Node) (m : Message),
      m ∈ (admit_loop c t fuel nd).q → m ∈ nd.q
  | 0, _, _, h => h
  | fuel + 1, nd, m, h => by
    unfold admit_loop at h
    rcases hp : pqTop nd.q with _ | mm
    · rw [hp] at h
      exact h
    · rw [hp] at h
      dsimp only at h
      by_cases hg : nd.in_ + c.msg_size ≤ nd.in_limit
      · rw [if_pos hg] at h
        exact List.mem_of_mem_erase (admit_loop_qsub c t fuel (admit_one c t nd mm) m h)
      · rw [if_neg hg] at h
        exact h

theorem phase1_qsub (c : Config) (t : Nat) (nd : Node) (m : Message)
    (h : m ∈ (phase1 c t nd).q) : m ∈ nd.q := by
  have h2 : m ∈ (admit_loop c t nd.q.length { nd with in_ := 0, out_ := 0 }).q := h
  exact admit_loop_qsub c t nd.q.length { nd with in_ := 0, out_ := 0 } m h2

theorem gen_fold_q (c : Config) (keys : Nat → Int) (t : Nat) :
    ∀ (js : List Nat) (pr : Node × Nat),
      ((js.foldl (fun (p : Node × Nat) j =>
        (gen_one c t (keys p.2) j p.1, p.2 + 1)) pr).1).q = pr.1.q
  | [], _ => rfl
  | j :: js, pr => by
    simp only [List.foldl_cons]
    exact (gen_fold_q c keys t js _).trans rfl

theorem phase2_q (c : Config) (keys : Nat → Int) (t : Nat) (nd : Node) (cur : Nat) :
    (phase2 c keys t nd cur).1.q = nd.q := by
  unfold phase2
  exact gen_fold_q c keys t (List.range nd.msgs_per_tick) (nd, cur)

theorem phase3_q (c : Config) (t : Nat) (nd : Node) : (phase3 c t nd).q = nd.q := by
  unfold phase3
  induction (List.range c.ntrees) generalizing nd with
  | nil => rfl
  | cons k js ih =>
    simp only [List.foldl_cons]
    refine (ih _).trans ?_
    split
    · rfl
    · rfl

theorem phase123_qsub (c : Config) (keys : Nat → Int) (t : Nat) (nd : Node) (cur : Nat)
    (m : Message) (h : m ∈ (phase123 c keys t nd cur).1.q) : m ∈ nd.q := by
  rw [show (phase123 c keys t nd cur).1
      = phase3 c t (phase2 c keys t (phase1 c t nd) cur).1 from rfl,
    phase3_q, phase2_q] at h
  exact phase1_qsub c t nd m h

theorem procStep_getNode_oob (c : Config) (keys : Nat → Int) (t : Nat) (st : SimState)
    (i : Nat) (hb : ¬ i < st.nodes.length) :
    getNode (procStep c keys t st i) i = getNode st i := by
  show (st.nodes.set i (phase123 c keys t (getNode st i) st.cursor).1).getD i default
    = st.nodes.getD i default
  rw [List.set_eq_of_length_le (by omega)]

theorem procStep_qsub (c : Config) (keys : Nat → Int) (t : Nat) (st : SimState)
    (i y : Nat) (m : Message) (h : m ∈ (getNode (procStep c keys t st i) y).q) :
    m ∈ (getNode st y).q := by
  by_cases hyi : y = i
  · subst hyi
    by_cases hb : y < st.nodes.length
    · rw [procStep_getNode_self c keys t st y hb] at h
      exact phase123_qsub c keys t (getNode st y) st.cursor m h
    · rw [procStep_getNode_oob c keys t st y hb] at h
      exact h
  · rw [procStep_getNode_other c keys t st i hyi] at h
    exact h

theorem procfold_qsub (c : Config) (keys : Nat → Int) (t : Nat) :
    ∀ (js : List Nat) (st : SimState) (y : Nat) (m : Message),
      m ∈ (getNode (js.foldl (procStep c keys t) st) y).q → m ∈ (getNode st y).q
  | [], _, _, _, h => h
  | i :: js, st, y, m, h => by
    simp only [List.foldl_cons] at h
    exact procStep_qsub c keys t st i y m
      (procfold_qsub c keys t js (procStep c keys t st i) y m h)

theorem process_qpure (c : Config) (keys : Nat → Int) (t : Nat) (st : SimState)
    (h : Qpure st) : Qpure (process_messages_by_node c keys t st) := by
  intro y m hm
  rw [proc_eq] at hm
  exact h y m (procfold_qsub c keys t (List.range c.total_nodes) st y m hm)

theorem setNode_qpure (st : SimState) (i : Nat) (nd : Node)
    (hnd : ∀ m, m ∈ nd.q → m.type = 0) (hst : Qpure st) : Qpure (setNode st i nd) := by
  intro y m hm
  by_cases hyi : y = i
  · subst hyi
    by_cases hb : y < st.nodes.length
    · rw [getNode_setNode_self st y nd hb] at hm
      exact hnd m hm
    · unfold getNode at hm
      rw [getNode_setNode_oob st y nd hb] at hm
      exact hst y m hm
  · rw [getNode_setNode_other st i nd hyi] at hm
    exact hst y m hm

theorem drop_stage_qpure (st : SimState) (i k : Nat) (h : Qpure st) :
    Qpure (drop_stage st i k) := by
  unfold drop_stage
  exact setNode_qpure st i _ (fun m hm => h i m hm) h

theorem ghost_qpure (st : SimState) (v : Int) (h : Qpure st) :
    Qpure { st with total_eff_root := v } := h

theorem pushQ_qpure (st : SimState) (j : Nat) (m : Message) (hm : m.type = 0)
    (h : Qpure st) : Qpure (pushQ st j m) := by
  unfold pushQ
  refine setNode_qpure st j _ ?_ h
  intro m' hm'
  rcases List.mem_append.mp hm' with h1 | h1
  · exact h j m' h1
  · rw [List.mem_singleton.mp h1]
    exact hm

theorem emit_send_qpure (c : Config) (st : SimState) (i k : Nat) (m : Message)
    (rest : List Message) (hm : m.type = 0) (h : Qpure st) :
    Qpure (emit_send c st i k m rest) := by
  unfold emit_send
  by_cases hp : (getNode st i).p.getD k 0 = -1
  · rw [if_pos hp]
    refine setNode_qpure _ i _ ?_ (ghost_qpure st _ h)
    intro m' hm'
    exact ghost_qpure st _ h i m' hm'
  · rw [if_neg hp]
    refine setNode_qpure _ i _ ?_ (pushQ_qpure st _ m hm h)
    intro m' hm'
    exact pushQ_qpure st _ m hm h i m' hm'

theorem emit_tree_qpure (c : Config) (t : Nat) (i : Nat) (st : SimState) (k : Nat)
    (h : Qpure st) : Qpure (emit_tree c t i st k).1 := by
  unfold emit_tree
  rcases hd : dropTombs ((getNode st i).buf.getD k []) with _ | ⟨m, rest⟩
  · exact drop_stage_qpure st i k h
  · dsimp only
    have hm : m.type = 0 := dropTombs_head _ m rest hd
    by_cases hc : m.time ≤ (t : Int) ∧
        (getNode st i).out_ + c.msg_size ≤ (getNode st i).out_limit
    · rw [if_pos hc]
      exact emit_send_qpure c (drop_stage st i k) i k m rest hm
        (drop_stage_qpure st i k h)
    · rw [if_neg hc]
      exact drop_stage_qpure st i k h

theorem emit_pass_fold_qpure (c : Config) (t : Nat) (i : Nat) :
    ∀ (js : List Nat) (pr : SimState × Bool), Qpure pr.1 →
      Qpure ((js.foldl (fun (p : SimState × Bool) k =>
        ((emit_tree c t i p.1 k).1, p.2 || (emit_tree c t i p.1 k).2)) pr).1)
  | [], _, h => h
  | k :: js, pr, h => by
    simp only [List.foldl_cons]
    exact emit_pass_fold_qpure c t i js _ (emit_tree_qpure c t i pr.1 k h)

theorem emit_loop_qpure (c : Config) (t : Nat) (i : Nat) :
    ∀ (fuel : Nat) (st : SimState), Qpure st → Qpure (emit_loop c t i fuel st)
  | 0, _, h => h
  | fuel + 1, st, h => by
    show Qpure (if (emit_pass c t i st).2
      then emit_loop c t i fuel (emit_pass c t i st).1 else (emit_pass c t i st).1)
    have hpass : Qpure (emit_pass c t i st).1 := by
      unfold emit_pass
      exact emit_pass_fold_qpure c t i (List.range c.ntrees) (st, false) h
    by_cases hb : (emit_pass c t i st).2
    · rw [if_pos hb]
      exact emit_loop_qpure c t i fuel _ hpass
    · rw [if_neg hb]
      exact hpass

theorem phase4_qpure (c : Config) (t : Nat) (st : SimState) (h : Qpure st) :
    Qpure (phase4 c t st) := by
  unfold phase4
  induction (List.range c.total_nodes) generalizing st with
  | nil => exact h
  | cons i js ih =>
    simp only [List.foldl_cons]
    exact ih _ (emit_loop_qpure c t i _ st h)

theorem write_log_qpure (st : SimState) (h : Qpure st) : Qpure (write_log st) := by
  intro y m hm
  rw [getNode_write_log] at hm
  exact h y m hm

theorem tick_qpure (c : Config) (keys : Nat → Int) (st : SimState) (t : Nat)
    (h : Qpure st) : Qpure (tick_step_log c keys st t) := by
  unfold tick_step_log
  have hstep : Qpure (tick_step c keys st t) := by
    unfold tick_step
    exact phase4_qpure c t _ (process_qpure c keys t st h)
  by_cases hl : (t ≠ 0 ∧ t % c.ticks = 0)
  · rw [if_pos hl]
    exact write_log_qpure _ hstep
  · rw [if_neg hl]
    exact hstep

theorem run_qpure (c : Config) (keys : Nat → Int) (st0 : SimState) (h : Qpure st0) :
    ∀ (n : Nat), Qpure (run_ticks c keys st0 n)
  | 0 => h
  | n + 1 => tick_qpure c keys _ n (run_qpure c keys st0 h n)

theorem framedExcept_q {k : Nat} {a b : Node} (h : framedExcept k a b) : b.q = a.q := h.1

theorem framedGC_q {a b : Node} (h : framedGC a b) : b.q = a.q := h.2.2.1

theorem linkfold_q (c : Config) (ls : List (List Nat)) (hf : 1 ≤ c.fanout) :
    ∀ (ks : List Nat) (nds : List Node) (x : Nat),
      (((ks.foldl (fun nds k => link_tree c k (ls.getD k []) nds) nds)).getD
        x default).q = (nds.getD x default).q
  | [], _, _ => rfl
  | k :: ks, nds, x => by
    simp only [List.foldl_cons]
    exact (linkfold_q c ls hf ks _ x).trans
      (framedExcept_q (link_tree_framed c k (ls.getD k []) hf nds x))

theorem init_node_q (c : Config) (i : Nat) : (init_node c i).q = [] := by
  unfold init_node
  by_cases h : i % c.nodes_per_rack = 0
  · rw [if_pos h]
    rfl
  · rw [if_neg h]
    rfl

theorem init_qpure (c : Config) (st : SimState) (hinit : initState c = some st)
    (hf : 1 ≤ c.fanout) : Qpure st := by
  intro x m hm
  exfalso
  by_cases hx : x < c.total_nodes
  · obtain ⟨ls, -, hnodes, -, -, -⟩ := initState_elim hinit
    have hq : (getNode st x).q = [] := by
      show (st.nodes.getD x default).q = _
      rw [hnodes]
      rw [framedGC_q (gc_decorate_framedGC c ls _ x)]
      rw [linkfold_q c ls hf (List.range c.ntrees) (stageA c) x]
      rw [stageA_getD c hx]
      exact init_node_q c x
    rw [hq] at hm
    exact absurd hm (List.not_mem_nil m)
  · have hlen := init_length c st hinit hf
    have hd : getNode st x = default := by
      show st.nodes.getD x default = default
      exact List.getD_eq_default _ _ (by omega)
    rw [hd] at hm
    exact absurd hm (List.not_mem_nil m)

theorem emit_tree_false (c : Config) (t : Nat) (i : Nat) (st : SimState) (k : Nat)
    (h : (emit_tree c t i st k).2 = false) :
    (emit_tree c t i st k).1 = drop_stage st i k := by
  unfold emit_tree at h ⊢
  rcases hd : dropTombs ((getNode st i).buf.getD k []) with _ | ⟨m, rest⟩
  · rfl
  · rw [hd] at h
    dsimp only at h ⊢
    by_cases hc : m.time ≤ (t : Int) ∧
        (getNode st i).out_ + c.msg_size ≤ (getNode st i).out_limit
    · rw [if_pos hc] at h
      exact absurd h (by simp)
    · rw [if_neg hc]

theorem drop_stage_node (st : SimState) (i k : Nat) (y : Nat) :
    (getNode (drop_stage st i k) y).out_ = (getNode st y).out_ ∧
    (getNode (drop_stage st i k) y).out_per_sec = (getNode st y).out_per_sec ∧
    (getNode (drop_stage st i k) y).eff_out_per_sec = (getNode st y).eff_out_per_sec ∧
    (getNode (drop_stage st i k) y).total_out_msgs = (getNode st y).total_out_msgs ∧
    (getNode (drop_stage st i k) y).q = (getNode st y).q := by
  unfold drop_stage
  by_cases hyi : y = i
  · subst hyi
    by_cases hb : y < st.nodes.length
    · rw [getNode_setNode_self st y _ hb]
      exact ⟨rfl, rfl, rfl, rfl, rfl⟩
    · unfold getNode
      rw [getNode_setNode_oob st y _ hb]
      exact ⟨rfl, rfl, rfl, rfl, rfl⟩
  · rw [getNode_setNode_other st i _ hyi]
    exact ⟨rfl, rfl, rfl, rfl, rfl⟩

/-- **C8.** Tombstones never enter any in-queue and are never counted:
every message in any inbound queue of any reachable state is data; the
front of a tombstone-dropped buffer is data (so only data is ever emitted);
and a Phase-4 tree step that emits nothing (in particular one that only
drops front tombstones) leaves `out`, `out_per_sec`, `eff_out_per_sec`,
`total_out_msgs` and every queue unchanged. -/
theorem c8_tombstones (c : Config) (st0 : SimState) (keys : Nat → Int) (n : Nat)
    (hinit : initState c = some st0) (hf : 1 ≤ c.fanout) :
    (∀ (x : Nat) (m : Message),
      m ∈ (getNode (run_ticks c keys st0 n) x).q → m.type = 0) ∧
    (∀ (l : List Message) (pm : Message) (rest : List Message),
      dropTombs l = pm :: rest → pm.type = 0) ∧
    (∀ (t i k y : Nat) (st : SimState), (emit_tree c t i st k).2 = false →
      (getNode (emit_tree c t i st k).1 y).out_ = (getNode st y).out_ ∧
      (getNode (emit_tree c t i st k).1 y).out_per_sec = (getNode st y).out_per_sec ∧
      (getNode (emit_tree c t i st k).1 y).eff_out_per_sec
        = (getNode st y).eff_out_per_sec ∧
      (getNode (emit_tree c t i st k).1 y).total_out_msgs
        = (getNode st y).total_out_msgs ∧
      (getNode (emit_tree c t i st k).1 y).q = (getNode st y).q) := by
  refine ⟨?_, dropTombs_head, ?_⟩
  · exact run_qpure c keys st0 (init_qpure c st0 hinit hf) n
  · intro t i k y st hfalse
    rw [emit_tree_false c t i st k hfalse]
    exact drop_stage_node st i k y

theorem c8_tombstones_witness :
    (getNode (emit_tree cfgChain 0 0 ((initState cfgChain).get (by decide)) 0).1
      0).total_out_msgs
      = (getNode ((initState cfgChain).get (by decide)) 0).total_out_msgs :=
  ((c8_tombstones cfgChain ((initState cfgChain).get (by decide)) keys0 1
    (Option.some_get (by decide)).symm (by decide)).2.2 0 0 0 0
    ((initState cfgChain).get (by decide)) (by decide)).2.2.2.1

/-! ## C9: the Phase-4 emit loop terminates within its budget -/

theorem sum_len_set : ∀ (bs : List (List Message)) (k : Nat) (l' : List Message),
    k < bs.length →
    ((bs.set k l').map List.length).sum + (bs.getD k []).length
      = (bs.map List.length).sum + l'.length
  | [], k, l', h => absurd h (by simp)
  | b :: bs, 0, l', _ => by
    simp only [List.set, List.map_cons, List.sum_cons, List.getD_cons_zero]
    omega
  | b :: bs, k + 1, l', h => by
    simp only [List.set, List.map_cons, List.sum_cons, List.getD_cons_succ]
    have hr := sum_len_set bs k l' (by simp only [List.length_cons] at h; omega)
    omega

theorem dropTombs_length : ∀ (l : List Message), (dropTombs l).length ≤ l.length
  | [] => Nat.le_refl _
  | m :: ms => by
    unfold dropTombs
    by_cases hm : m.type ≠ 0
    · rw [if_pos hm]
      exact Nat.le_trans (dropTombs_length ms) (Nat.le_succ _)
    · rw [if_neg hm]

theorem pushQ_buf (st : SimState) (j : Nat) (m : Message) (y : Nat) :
    (getNode (pushQ st j m) y).buf = (getNode st y).buf := by
  unfold pushQ
  by_cases hyj : y = j
  · subst hyj
    by_cases hb : y < st.nodes.length
    · rw [getNode_setNode_self st y _ hb]
    · unfold getNode
      rw [getNode_setNode_oob st y _ hb]
  · rw [getNode_setNode_other st j _ hyj]

theorem drop_stage_buf_le (st : SimState) (i k : Nat) :
    bufTotal (drop_stage st i k) i ≤ bufTotal st i := by
  unfold bufTotal drop_stage
  by_cases hb : i < st.nodes.length
  · rw [getNode_setNode_self st i _ hb]
    by_cases hk : k < (getNode st i).buf.length
    · have hs := sum_len_set (getNode st i).buf k
        (dropTombs ((getNode st i).buf.getD k [])) hk
      have hd := dropTombs_length ((getNode st i).buf.getD k [])
      show (((getNode st i).buf.set k
        (dropTombs ((getNode st i).buf.getD k []))).map List.length).sum
        ≤ ((getNode st i).buf.map List.length).sum
      omega
    · show (((getNode st i).buf.set k
        (dropTombs ((getNode st i).buf.getD k []))).map List.length).sum
        ≤ ((getNode st i).buf.map List.length).sum
      rw [List.set_eq_of_length_le (by omega)]
  · unfold getNode
    rw [getNode_setNode_oob st i _ hb]

theorem emit_tree_buf (c : Config) (t : Nat) (i : Nat) (st : SimState) (k : Nat) :
    bufTotal (emit_tree c t i st k).1 i ≤ bufTotal st i ∧
    ((emit_tree c t i st k).2 = true → bufTotal (emit_tree c t i st k).1 i
      < bufTotal st i) := by
  unfold emit_tree
  rcases hd : dropTombs ((getNode st i).buf.getD k []) with _ | ⟨m, rest⟩
  · dsimp only
    exact ⟨drop_stage_buf_le st i k, fun hh => absurd hh (by simp)⟩
  · dsimp only
    by_cases hc : m.time ≤ (t : Int) ∧
        (getNode st i).out_ + c.msg_size ≤ (getNode st i).out_limit
    · rw [if_pos hc]
      have hki : k < (getNode st i).buf.length := by
        by_contra hk
        rw [List.getD_eq_default _ _ (by omega)] at hd
        simp [dropTombs] at hd
      have hii : i < st.nodes.length := by
        by_contra hi
        have hdef : getNode st i = default := by
          show st.nodes.getD i default = default
          exact List.getD_eq_default _ _ (by omega)
        exact absurd hki (by rw [hdef]; exact Nat.not_lt_zero k)
      -- the final buffer of node i is the original with tree k set to rest
      have hDlen : i < (drop_stage st i k).nodes.length := by
        rw [drop_stage_length st i k]
        exact hii
      have hD : getNode (drop_stage st i k) i
          = { getNode st i with
              buf := (getNode st i).buf.set k (dropTombs ((getNode st i).buf.getD k [])) } := by
        unfold drop_stage
        rw [getNode_setNode_self st i _ hii]
      have hfin : bufTotal (emit_send c (drop_stage st i k) i k m rest, true).1 i
          = (((getNode st i).buf.set k rest).map List.length).sum := by
        show bufTotal (emit_send c (drop_stage st i k) i k m rest) i = _
        unfold bufTotal emit_send
        by_cases hp : (getNode (drop_stage st i k) i).p.getD k 0 = -1
        · rw [if_pos hp]
          have hlen2 : i < ({ drop_stage st i k with
              total_eff_root := (drop_stage st i k).total_eff_root + m.eff_size }
              : SimState).nodes.length := hDlen
          rw [getNode_setNode_self _ i _ hlen2]
          show (((getNode (drop_stage st i k) i).buf.set k rest).map List.length).sum
            = _
          rw [hD]
          show ((((getNode st i).buf.set k
            (dropTombs ((getNode st i).buf.getD k []))).set k rest).map
            List.length).sum = _
          rw [List.set_set]
        · rw [if_neg hp]
          have hlen2 : i < (pushQ (drop_stage st i k)
              ((getNode (drop_stage st i k) i).p.getD k 0).toNat m).nodes.length := by
            unfold pushQ
            rw [setNode_length, drop_stage_length st i k]
            exact hii
          rw [getNode_setNode_self _ i _ hlen2]
          show (((getNode (pushQ (drop_stage st i k)
            ((getNode (drop_stage st i k) i).p.getD k 0).toNat m) i).buf.set k
            rest).map List.length).sum = _
          rw [pushQ_buf, hD]
          show ((((getNode st i).buf.set k
            (dropTombs ((getNode st i).buf.getD k []))).set k rest).map
            List.length).sum = _
          rw [List.set_set]
      have hs := sum_len_set (getNode st i).buf k rest hki
      have hlt : rest.length < ((getNode st i).buf.getD k []).length := by
        have hdl := dropTombs_length ((getNode st i).buf.getD k [])
        rw [hd] at hdl
        simp only [List.length_cons] at hdl
        omega
      constructor
      · rw [hfin]
        show _ ≤ ((getNode st i).buf.map List.length).sum
        omega
      · intro _
        rw [hfin]
        show _ < ((getNode st i).buf.map List.length).sum
        omega
    · rw [if_neg hc]
      exact ⟨drop_stage_buf_le st i k, fun hh => absurd hh (by simp)⟩

theorem emit_pass_fold_buf (c : Config) (t : Nat) (i : Nat) :
    ∀ (js : List Nat) (pr : SimState × Bool),
      bufTotal ((js.foldl (fun (p : SimState × Bool) k =>
        ((emit_tree c t i p.1 k).1, p.2 || (emit_tree c t i p.1 k).2)) pr).1) i
        ≤ bufTotal pr.1 i ∧
      (((js.foldl (fun (p : SimState × Bool) k =>
        ((emit_tree c t i p.1 k).1, p.2 || (emit_tree c t i p.1 k).2)) pr).2) = true →
        pr.2 = true ∨
        bufTotal ((js.foldl (fun (p : SimState × Bool) k =>
          ((emit_tree c t i p.1 k).1, p.2 || (emit_tree c t i p.1 k).2)) pr).1) i
          < bufTotal pr.1 i)
  | [], _ => ⟨Nat.le_refl _, fun h => Or.inl h⟩
  | k :: js, pr => by
    simp only [List.foldl_cons]
    obtain ⟨tle, tst⟩ := emit_tree_buf c t i pr.1 k
    obtain ⟨fle, fst⟩ := emit_pass_fold_buf c t i js
      ((emit_tree c t i pr.1 k).1, pr.2 || (emit_tree c t i pr.1 k).2)
    constructor
    · exact fle.trans tle
    · intro hflag
      rcases fst hflag with h1 | h1
      · rcases (Bool.or_eq_true _ _).mp h1 with h2 | h2
        · exact Or.inl h2
        · exact Or.inr (Nat.lt_of_le_of_lt fle (tst h2))
      · exact Or.inr (Nat.lt_of_lt_of_le h1 tle)

theorem emit_pass_buf (c : Config) (t : Nat) (i : Nat) (st : SimState) :
    bufTotal (emit_pass c t i st).1 i ≤ bufTotal st i ∧
    ((emit_pass c t i st).2 = true →
      bufTotal (emit_pass c t i st).1 i < bufTotal st i) := by
  unfold emit_pass
  obtain ⟨hle, hst⟩ := emit_pass_fold_buf c t i (List.range c.ntrees) (st, false)
  exact ⟨hle, fun h => (hst h).resolve_left (by simp)⟩

theorem emit_loop_fuel (c : Config) (t : Nat) (i : Nat) :
    ∀ (n : Nat) (st : SimState), bufTotal st i < n →
      emit_loop c t i n st = emit_loop c t i (n + 1) st
  | 0, _, h => absurd h (Nat.not_lt_zero _)
  | n + 1, st, h => by
    show (if (emit_pass c t i st).2 then emit_loop c t i n (emit_pass c t i st).1
      else (emit_pass c t i st).1)
      = (if (emit_pass c t i st).2 then emit_loop c t i (n + 1) (emit_pass c t i st).1
      else (emit_pass c t i st).1)
    by_cases hb : (emit_pass c t i st).2
    · simp only [if_pos hb]
      exact emit_loop_fuel c t i n (emit_pass c t i st).1
        (by have := (emit_pass_buf c t i st).2 hb; omega)
    · simp only [if_neg hb]

theorem emit_loop_fuel_ge (c : Config) (t : Nat) (i : Nat) :
    ∀ (extra n : Nat) (st : SimState), bufTotal st i < n →
      emit_loop c t i (n + extra) st = emit_loop c t i n st
  | 0, _, _, _ => rfl
  | extra + 1, n, st, h => by
    have h1 := emit_loop_fuel_ge c t i extra n st h
    exact (emit_loop_fuel c t i (n + extra) st (by omega)).symm.trans h1

theorem phase4_node_emissions (c : Config) (t i : Nat) (st : SimState)
    (hms : 1 ≤ c.msg_size) (h0 : (getNode st i).out_ = 0) :
    (getNode (phase4_node c t st i) i).total_out_msgs
      ≤ (getNode st i).total_out_msgs + (getNode st i).out_limit / c.msg_size := by
  rw [show phase4_node c t st i = emit_loop c t i (bufTotal st i + 1) st from rfl]
  obtain ⟨il, ol, hi, hip, ho, hop, hcnt, hlk, hd⟩ :=
    emit_loop_emitRel c t i (bufTotal st i + 1) st i
  have hml : ((getNode (emit_loop c t i (bufTotal st i + 1) st) i).total_out_msgs
      - (getNode st i).total_out_msgs) * c.msg_size
      = (getNode (emit_loop c t i (bufTotal st i + 1) st) i).total_out_msgs * c.msg_size
        - (getNode st i).total_out_msgs * c.msg_size := Nat.sub_mul _ _ _
  rcases hd with hd | hd
  · have hdm : ((getNode (emit_loop c t i (bufTotal st i + 1) st) i).total_out_msgs
        - (getNode st i).total_out_msgs) * c.msg_size
        ≤ (getNode st i).out_limit := by omega
    have hdiv := (Nat.le_div_iff_mul_le (by omega : 0 < c.msg_size)).mpr hdm
    exact le_trans (Nat.sub_le_iff_le_add.mp hdiv) (Nat.le_of_eq (Nat.add_comm _ _))
  · have heqm : (getNode (emit_loop c t i (bufTotal st i + 1) st) i).total_out_msgs
        * c.msg_size = (getNode st i).total_out_msgs * c.msg_size := by omega
    have heq := Nat.eq_of_mul_eq_mul_right (by omega : 0 < c.msg_size) heqm
    rw [heq]
    exact Nat.le_add_right _ _

/-- **C9.** Phase 4 terminates: the `while (flag)` loop of `simulate()` is
exactly computed by the fuelled loop with fuel `bufTotal + 1` (extra fuel
changes nothing, because an emitting pass strictly shrinks the buffered
total and a non-emitting pass exits), and with `msg_size ≥ 1` a node whose
tick starts with `out = 0` emits at most `out_limit / msg_size` messages in
the phase. -/
theorem c9_phase4_termination (c : Config) (t i : Nat) (st : SimState) (extra : Nat) :
    emit_loop c t i (bufTotal st i + 1 + extra) st = phase4_node c t st i ∧
    ((emit_pass c t i st).2 = true →
      bufTotal (emit_pass c t i st).1 i < bufTotal st i) ∧
    (1 ≤ c.msg_size → (getNode st i).out_ = 0 →
      (getNode (phase4_node c t st i) i).total_out_msgs
        ≤ (getNode st i).total_out_msgs + (getNode st i).out_limit / c.msg_size) := by
  refine ⟨?_, (emit_pass_buf c t i st).2, phase4_node_emissions c t i st⟩
  show emit_loop c t i ((bufTotal st i + 1) + extra) st
    = emit_loop c t i (bufTotal st i + 1) st
  exact emit_loop_fuel_ge c t i extra (bufTotal st i + 1) st (Nat.lt_succ_self _)

theorem c9_phase4_termination_witness :
    (getNode (phase4_node cfgSlowOut 0 ((initState cfgSlowOut).get (by decide)) 0)
      0).total_out_msgs
      ≤ (getNode ((initState cfgSlowOut).get (by decide)) 0).total_out_msgs
        + (getNode ((initState cfgSlowOut).get (by decide)) 0).out_limit
          / cfgSlowOut.msg_size :=
  (c9_phase4_termination cfgSlowOut 0 0 ((initState cfgSlowOut).get (by decide)) 0).2.2
    (by decide) (by decide)

/-! ## C2: conservation of effective size -/

end Treesim
